import Mathlib

/-!
# CPU kernels of `CpuOps/ConvolutionUnfold.h`

A shallow embedding of the five kernels of the header:
`Softmax`, `SoftmaxMask`, `SoftmaxGrad`, `unfolded_acc` and `unfolded_copy`.

* A buffer is a map from element index to element (`Nat → α`).  The softmax kernels only
  touch indices `j * cols + i` with `j < rows`, `i < cols`, so they are modelled as total
  functions on buffers.
* The unfold kernels compute their offsets in `size_t`, `__int64` and `int`; these are
  modelled by `Nat`/`Int` with explicit reduction modulo `2^64` and `2^32`.  Their buffers
  carry an element count, and `memset`, `memcpy` and `Vector_add` on a range that is not
  inside the buffer is undefined behaviour, modelled by `none`.
* The pointers `unfolded_acc` hands to `Vector_add` are wrapping sums on the 64-bit address
  space (`ptrAdd`): a wrapped pad count moves the source pointer backwards inside the column
  buffer.  In `unfolded_copy` a wrapped pad count is also the length of a `memset`, which no
  buffer holds, whatever the pointer.
* The element type of the softmax kernels is an ordered field and `expf` is a parameter, so
  that statements can be made for the exact exponential (`Real.exp`) and for an exponential
  that underflows to zero as `expf` does in binary32.  A quotient by a zero sum, a NaN in IEEE
  arithmetic, has the value `0` in an ordered field; statements on that case give the zero
  divisor.
* A `for` loop is `forLoop` (or `forLoopM` when the body can fail); loop bodies follow the
  source statement by statement.
* General statements on the unfold kernels are made for the valid parameter sets
  (`UnfoldArgs.Valid`) whose `int` expressions are representable (`UnfoldArgs.FitsInt`).
-/

namespace ConvolutionUnfold

/-! ## Loops -/

/-- The loop `for (i = lo; i < lo + n; ++i) s = body i s`. -/
def forLoop {σ : Type} (lo : Nat) : Nat → (Nat → σ → σ) → σ → σ
  | 0, _, s => s
  | n + 1, body, s => body (lo + n) (forLoop lo n body s)

/-- The loop `for (i = 0; i < n; ++i) s = body i s` whose body may hit undefined behaviour. -/
def forLoopM {σ : Type} : Nat → (Nat → σ → Option σ) → σ → Option σ
  | 0, _, s => some s
  | n + 1, body, s => (forLoopM n body s).bind (body n)

/-! ## Machine integers -/

/-- Conversion of an integer value to `size_t` (unsigned, 64 bit): reduction modulo `2^64`.
A `size_t` expression built from `+`, `-` and `*` is evaluated in `ℤ` and reduced once, which
gives the same value as reducing after every operation. -/
def toSizeT (z : Int) : Nat := (z % 18446744073709551616).toNat

/-- The cast `(__int64)` of a `size_t` value: two's complement reinterpretation. -/
def toInt64 (n : Nat) : Int :=
  if n < 9223372036854775808 then (n : Int) else (n : Int) - 18446744073709551616

/-- Value of an `int` (or `long`, 32 bit as well on the target) expression built from `+`, `-`
and `*`: two's complement wrap-around to 32 bit. -/
def toInt32 (z : Int) : Int := (z + 2147483648) % 4294967296 - 2147483648

/-- The function `std::max`: `(a < b) ? b : a`. -/
def stdMax {β : Type} [LT β] [DecidableRel (fun (a b : β) => a < b)] (a b : β) : β :=
  if a < b then b else a

/-! ## Buffers of the unfold kernels -/

/-- Modelled from the spec: `TensorRef` (declared in `TensorRef.h`), "a pointer plus
element-count metadata".  `buffer i` is the element at index `i`; only indices below
`elemCount` belong to the buffer. -/
structure TensorRef (α : Type) where
  /-- Number of elements of the buffer. -/
  elemCount : Nat
  /-- Content of the buffer. -/
  buffer : Nat → α

/-- The test that the `n` elements starting at element pointer `p` lie inside a buffer of
`len` elements. -/
def inBuffer (len : Nat) (p : Int) (n : Nat) : Bool :=
  decide (0 ≤ p) && decide (p + (n : Int) ≤ (len : Int))

/-- The pointer `p + n` for an element pointer `p` (an element offset from the start of its
buffer, possibly outside of it) and a `size_t` value `n`: addresses are 64 bit wide, so the
sum wraps around, and `p + (2^64 - k)` is the pointer `p - k`.  The offset is kept in elements;
the element size divides `2^64`, so an offset that wraps to an element of the buffer here is
the address of that element in bytes as well. -/
def ptrAdd (p : Int) (n : Nat) : Int := toInt64 (toSizeT (p + (n : Int)))

/-- The call `memset(p, 0, sizeof(T) * n)` on buffer `t`, with `p` an element offset from the
start of the buffer: zeroes `n` elements. -/
def memset {α : Type} [Zero α] (t : TensorRef α) (p : Int) (n : Nat) : Option (TensorRef α) :=
  if inBuffer t.elemCount p n then
    some ⟨t.elemCount, fun i => if p ≤ (i : Int) ∧ (i : Int) < p + (n : Int) then 0 else t.buffer i⟩
  else none

/-- The call `memcpy(d + p, s + q, sizeof(T) * n)`: copies `n` elements of buffer `s` from
offset `q` to buffer `d` at offset `p` (the two buffers are distinct objects). -/
def memcpy {α : Type} (d : TensorRef α) (p : Int) (s : TensorRef α) (q : Int) (n : Nat) :
    Option (TensorRef α) :=
  if inBuffer d.elemCount p n && inBuffer s.elemCount q n then
    some ⟨d.elemCount, fun i =>
      if p ≤ (i : Int) ∧ (i : Int) < p + (n : Int) then s.buffer ((i : Int) - p + q).toNat
      else d.buffer i⟩
  else none

/-- Modelled from the spec: `Vector_add` (defined in `Vector-inl.h`), the "vector
accumulate-add" `y[i] += c * x[i]` for `i < n`, with `y` at offset `p` of buffer `d` and `x` at
offset `q` of buffer `s`. -/
def Vector_add {α : Type} [Add α] [Mul α] (d : TensorRef α) (p : Int) (s : TensorRef α) (q : Int)
    (c : α) (n : Nat) : Option (TensorRef α) :=
  if inBuffer d.elemCount p n && inBuffer s.elemCount q n then
    some ⟨d.elemCount, fun i =>
      if p ≤ (i : Int) ∧ (i : Int) < p + (n : Int) then
        d.buffer i + c * s.buffer ((i : Int) - p + q).toNat
      else d.buffer i⟩
  else none

/-- The integer arguments shared by `unfolded_copy` and `unfolded_acc`, in the order of the
source's parameter list.  They are sizes, strides and paddings: non-negative `int` values. -/
structure UnfoldArgs where
  kW : Nat
  kH : Nat
  dW : Nat
  dH : Nat
  padW : Nat
  padH : Nat
  nInputPlane : Nat
  inputWidth : Nat
  inputHeight : Nat
  outputWidth : Nat
  outputHeight : Nat

/-! ## `unfolded_copy` (source lines 239-313) -/

/-- One iteration of the `y` loop of the padded branch (`padW > 0 || padH > 0`) of
`unfolded_copy`, source lines 270-297.  `dst` and `src` are the element offsets of the task's
block in `finput` and of the plane in `input`. -/
def unfolded_copy_padRow {α : Type} [Zero α] (a : UnfoldArgs) (input : TensorRef α)
    (dst src : Int) (kh kw y : Nat) (finput : TensorRef α) : Option (TensorRef α) :=
  let iy : Int := toInt64 (toSizeT ((y : Int) * (a.dH : Int) - (a.padH : Int) + (kh : Int)))
  if iy < 0 ∨ iy ≥ (a.inputHeight : Int) then
    memset finput (dst + (toSizeT ((y : Int) * (a.outputWidth : Int)) : Int)) (toSizeT a.outputWidth)
  else if a.dW = 1 then
    let ix : Int := toInt64 (toSizeT (0 - (a.padW : Int) + (kw : Int)))
    let lpad : Nat := stdMax (toSizeT 0) (toSizeT ((a.padW : Int) - (kw : Int)))
    let rpad : Nat :=
      stdMax (toSizeT 0) (toSizeT ((a.padW : Int) - ((a.kW : Int) - (kw : Int) - 1)))
    if toSizeT ((a.outputWidth : Int) - (rpad : Int) - (lpad : Int)) ≤ 0 then
      memset finput (dst + (toSizeT ((y : Int) * (a.outputWidth : Int)) : Int))
        (toSizeT a.outputWidth)
    else
      (if 0 < lpad then
        memset finput (dst + (toSizeT ((y : Int) * (a.outputWidth : Int)) : Int)) (toSizeT lpad)
       else some finput).bind fun f1 =>
      (memcpy f1 (dst + (toSizeT ((y : Int) * (a.outputWidth : Int) + (lpad : Int)) : Int))
        input (src + (toSizeT (iy * (a.inputWidth : Int) + ix + (lpad : Int)) : Int))
        (toSizeT ((a.outputWidth : Int) - (rpad : Int) - (lpad : Int)))).bind fun f2 =>
      if 0 < rpad then
        memset f2 (dst + (toSizeT ((y : Int) * (a.outputWidth : Int)) : Int)
          + (a.outputWidth : Int) - (rpad : Int)) (toSizeT rpad)
      else some f2
  else
    forLoopM (toSizeT a.outputWidth) (fun x f =>
      let ix : Int := toInt64 (toSizeT ((x : Int) * (a.dW : Int) - (a.padW : Int) + (kw : Int)))
      if ix < 0 ∨ ix ≥ (a.inputWidth : Int) then
        memset f (dst + (toSizeT ((y : Int) * (a.outputWidth : Int) + (x : Int)) : Int)) 1
      else
        memcpy f (dst + (toSizeT ((y : Int) * (a.outputWidth : Int) + (x : Int)) : Int))
          input (src + (toSizeT (iy * (a.inputWidth : Int) + ix) : Int)) 1) finput

/-- One iteration of the `y` loop of the unpadded branch of `unfolded_copy`, source lines
302-309. -/
def unfolded_copy_plainRow {α : Type} (a : UnfoldArgs) (input : TensorRef α)
    (dst src : Int) (kh kw y : Nat) (finput : TensorRef α) : Option (TensorRef α) :=
  let iy : Int := toInt64 (toSizeT ((y : Int) * (a.dH : Int) + (kh : Int)))
  let ix : Int := toInt64 (toSizeT (0 + (kw : Int)))
  if a.dW = 1 then
    memcpy finput (dst + (toSizeT ((y : Int) * (a.outputWidth : Int)) : Int))
      input (src + (toSizeT (iy * (a.inputWidth : Int) + ix) : Int)) (toSizeT a.outputWidth)
  else
    forLoopM (toSizeT a.outputWidth) (fun x f =>
      memcpy f (dst + (toSizeT ((y : Int) * (a.outputWidth : Int) + (x : Int)) : Int))
        input (src + (toSizeT (iy * (a.inputWidth : Int) + ix + (x : Int) * (a.dW : Int)) : Int))
        1) finput

/-- Body of the `k` loop of `unfolded_copy`, source lines 259-311: the task of one
`(nip, kh, kw)` triple. -/
def unfolded_copy_task {α : Type} [Zero α] (a : UnfoldArgs) (input : TensorRef α) (k : Nat)
    (finput : TensorRef α) : Option (TensorRef α) :=
  let nip : Nat := toSizeT (Int.tdiv (k : Int) (toInt32 ((a.kH : Int) * (a.kW : Int))))
  let rest : Nat := toSizeT (Int.tmod (k : Int) (toInt32 ((a.kH : Int) * (a.kW : Int))))
  let kh : Nat := rest / toSizeT a.kW
  let kw : Nat := rest % toSizeT a.kW
  let dst : Int :=
    (toSizeT ((nip : Int) *
        toInt32 ((a.kH : Int) * (a.kW : Int) * (a.outputHeight : Int) * (a.outputWidth : Int))) : Int)
    + (toSizeT ((kh : Int) *
        toInt32 ((a.kW : Int) * (a.outputHeight : Int) * (a.outputWidth : Int))) : Int)
    + (toSizeT ((kw : Int) * toInt32 ((a.outputHeight : Int) * (a.outputWidth : Int))) : Int)
  let src : Int :=
    (toSizeT ((nip : Int) * toInt32 ((a.inputHeight : Int) * (a.inputWidth : Int))) : Int)
  if 0 < a.padW ∨ 0 < a.padH then
    forLoopM (toSizeT a.outputHeight) (unfolded_copy_padRow a input dst src kh kw) finput
  else
    forLoopM (toSizeT a.outputHeight) (unfolded_copy_plainRow a input dst src kh kw) finput

/-- The kernel `unfolded_copy`: the tasks `k = 0, ..., nInputPlane*kH*kW - 1` write disjoint
blocks, so the parallel loop is run in index order.  The result is the column buffer `finput`,
or `none` when an access leaves a buffer. -/
def unfolded_copy {α : Type} [Zero α] (finput input : TensorRef α) (a : UnfoldArgs) :
    Option (TensorRef α) :=
  forLoopM (toInt32 ((a.nInputPlane : Int) * (a.kH : Int) * (a.kW : Int))).toNat
    (unfolded_copy_task a input) finput

/-! ## `unfolded_acc` (source lines 163-235) -/

/-- One iteration of the `y` loop of the padded branch of `unfolded_acc`, source lines
198-217.  `src` is the offset of the `(nip, kh, kw)` block in `finput`, `dst` the offset of
plane `nip` in `input`.  The pointers handed to `Vector_add` are the wrapping sums `ptrAdd`:
with a wrapped `lpad` the source pointer `src + (size_t)(y*outputWidth + lpad)` lies
`kw - padW` elements before row `y` of the block. -/
def unfolded_acc_padRow {α : Type} [Add α] [Mul α] [One α] (a : UnfoldArgs) (finput : TensorRef α)
    (dst src : Int) (kh kw y : Nat) (input : TensorRef α) : Option (TensorRef α) :=
  let iy : Int := toInt64 (toSizeT ((y : Int) * (a.dH : Int) - (a.padH : Int) + (kh : Int)))
  if iy < 0 ∨ iy ≥ (a.inputHeight : Int) then
    some input
  else if a.dW = 1 then
    let ix : Int := toInt64 (toSizeT (0 - (a.padW : Int) + (kw : Int)))
    let lpad : Nat := stdMax (toSizeT 0) (toSizeT ((a.padW : Int) - (kw : Int)))
    let rpad : Nat :=
      stdMax (toSizeT 0) (toSizeT ((a.padW : Int) - ((a.kW : Int) - (kw : Int) - 1)))
    Vector_add input (ptrAdd dst (toSizeT (iy * (a.inputWidth : Int) + ix + (lpad : Int))))
      finput (ptrAdd src (toSizeT ((y : Int) * (a.outputWidth : Int) + (lpad : Int))))
      1 (toSizeT ((a.outputWidth : Int) - (lpad : Int) - (rpad : Int)))
  else
    forLoopM (toSizeT a.outputWidth) (fun x inp =>
      let ix : Int := toInt64 (toSizeT ((x : Int) * (a.dW : Int) - (a.padW : Int) + (kw : Int)))
      if ix < 0 ∨ ix ≥ (a.inputWidth : Int) then
        some inp
      else
        Vector_add inp (ptrAdd dst (toSizeT (iy * (a.inputWidth : Int) + ix)))
          finput (ptrAdd src (toSizeT ((y : Int) * (a.outputWidth : Int) + (x : Int)))) 1 1) input

/-- One iteration of the `y` loop of the unpadded branch of `unfolded_acc`, source lines
222-229. -/
def unfolded_acc_plainRow {α : Type} [Add α] [Mul α] [One α] (a : UnfoldArgs)
    (finput : TensorRef α) (dst src : Int) (kh kw y : Nat) (input : TensorRef α) :
    Option (TensorRef α) :=
  let iy : Int := toInt64 (toSizeT ((y : Int) * (a.dH : Int) + (kh : Int)))
  let ix : Int := toInt64 (toSizeT (0 + (kw : Int)))
  if a.dW = 1 then
    Vector_add input (ptrAdd dst (toSizeT (iy * (a.inputWidth : Int) + ix)))
      finput (ptrAdd src (toSizeT ((y : Int) * (a.outputWidth : Int)))) 1 (toSizeT a.outputWidth)
  else
    forLoopM (toSizeT a.outputWidth) (fun x inp =>
      Vector_add inp
        (ptrAdd dst (toSizeT (iy * (a.inputWidth : Int) + ix + (x : Int) * (a.dW : Int))))
        finput (ptrAdd src (toSizeT ((y : Int) * (a.outputWidth : Int) + (x : Int)))) 1 1) input

/-- Body of the `kw` loop of `unfolded_acc`, source lines 193-231. -/
def unfolded_acc_block {α : Type} [Add α] [Mul α] [One α] (a : UnfoldArgs) (finput : TensorRef α)
    (nip kh kw : Nat) (input : TensorRef α) : Option (TensorRef α) :=
  let src : Int :=
    (toSizeT ((nip : Int) *
        toInt32 ((a.kH : Int) * (a.kW : Int) * (a.outputHeight : Int) * (a.outputWidth : Int))) : Int)
    + (toSizeT ((kh : Int) *
        toInt32 ((a.kW : Int) * (a.outputHeight : Int) * (a.outputWidth : Int))) : Int)
    + (toSizeT ((kw : Int) * toInt32 ((a.outputHeight : Int) * (a.outputWidth : Int))) : Int)
  let dst : Int :=
    (toSizeT ((nip : Int) * toInt32 ((a.inputHeight : Int) * (a.inputWidth : Int))) : Int)
  if 0 < a.padW ∨ 0 < a.padH then
    forLoopM (toSizeT a.outputHeight) (unfolded_acc_padRow a finput dst src kh kw) input
  else
    forLoopM (toSizeT a.outputHeight) (unfolded_acc_plainRow a finput dst src kh kw) input

/-- Body of the `nip` loop of `unfolded_acc`, source lines 187-233: the `kh` and `kw` loops. -/
def unfolded_acc_plane {α : Type} [Add α] [Mul α] [One α] (a : UnfoldArgs) (finput : TensorRef α)
    (nip : Nat) (input : TensorRef α) : Option (TensorRef α) :=
  forLoopM (toSizeT a.kH) (fun kh inp =>
    forLoopM (toSizeT a.kW) (fun kw inp2 => unfolded_acc_block a finput nip kh kw inp2) inp) input

/-- The kernel `unfolded_acc`: the planes `nip = 0, ..., nInputPlane - 1` are accumulated into
disjoint regions, so the parallel loop is run in index order.  The result is the accumulated
`input` buffer, or `none` when an access leaves a buffer. -/
def unfolded_acc {α : Type} [Add α] [Mul α] [One α] (finput input : TensorRef α)
    (a : UnfoldArgs) : Option (TensorRef α) :=
  forLoopM (toSizeT a.nInputPlane) (unfolded_acc_plane a finput) input

/-! ## `Softmax` (source lines 63-87)

The element type `T` is an ordered field `α`; `expf` is the parameter `exp`.  The real-valued
model instantiates it with `Real.exp`; statements on the underflow of `expf` are made for
every `exp` that has the values of `expf` they name.  `pOut` and `pIn` are distinct buffers. -/

/-- Body of the `j` loop of `Softmax`, source lines 69-85: one row. -/
def Softmax_row {α : Type} [LinearOrderedField α] (exp : α → α) (pIn : Nat → α) (cols j : Nat)
    (pOut : Nat → α) : Nat → α :=
  let so := j * cols
  let sp := j * cols
  let max : α := forLoop 1 (cols - 1) (fun i m => stdMax m (pIn (sp + i))) (pIn (sp + 0))
  let r : (Nat → α) × α :=
    forLoop 0 cols (fun i st =>
      let ex := exp (pIn (sp + i) - max)
      (Function.update st.1 (so + i) ex, st.2 + ex)) (pOut, 0)
  forLoop 0 cols (fun i o => Function.update o (so + i) (o (so + i) / r.2)) r.1

/-- The kernel `Softmax`: returns the content of the `out` buffer after the call. -/
def Softmax {α : Type} [LinearOrderedField α] (exp : α → α) (pOut pIn : Nat → α)
    (rows cols : Nat) : Nat → α :=
  forLoop 0 rows (Softmax_row exp pIn cols) pOut

/-! ## `SoftmaxMask` (source lines 90-129) -/

/-- Body of the `j` loop of `SoftmaxMask`, source lines 97-127: one row. -/
def SoftmaxMask_row {α : Type} [LinearOrderedField α] (exp : α → α) (pIn pMask : Nat → α)
    (cols j : Nat) (pOut : Nat → α) : Nat → α :=
  let so := j * cols
  let sp := j * cols
  let mp := j * cols
  let max : α :=
    forLoop 1 (cols - 1) (fun i m => if pMask (mp + i) = 0 then stdMax m (pIn (sp + i)) else m)
      (pIn (sp + 0))
  let r : (Nat → α) × α :=
    forLoop 0 cols (fun i st =>
      if pMask (mp + i) = 0 then
        let ex := exp (pIn (sp + i) - max)
        (Function.update st.1 (so + i) ex, st.2 + ex)
      else
        (Function.update st.1 (so + i) 0, st.2)) (pOut, 0)
  forLoop 0 cols (fun i o => Function.update o (so + i) (o (so + i) / r.2)) r.1

/-- The kernel `SoftmaxMask`: returns the content of the `out` buffer after the call. -/
def SoftmaxMask {α : Type} [LinearOrderedField α] (exp : α → α) (pOut pIn pMask : Nat → α)
    (rows cols : Nat) : Nat → α :=
  forLoop 0 rows (SoftmaxMask_row exp pIn pMask cols) pOut

/-! ## `SoftmaxGrad` (source lines 131-159) -/

/-- The three buffers `SoftmaxGrad` is called on (distinct objects). -/
structure GradBuffers (α : Type) where
  grad : Nat → α
  adj : Nat → α
  val : Nat → α

/-- Body of the `j` loop of `SoftmaxGrad`, source lines 139-157: one row.  Only `grad` is
written. -/
def SoftmaxGrad_row {α : Type} [Ring α] (cols : Nat) (addGrad : Bool) (j : Nat)
    (m : GradBuffers α) : GradBuffers α :=
  let gradRow := j * cols
  let adjRow := j * cols
  let valRow := j * cols
  let sum : α := forLoop 0 cols (fun i s => s + m.val (valRow + i) * m.adj (adjRow + i)) 0
  forLoop 0 cols (fun i b =>
    if addGrad then
      ⟨Function.update b.grad (gradRow + i)
        (b.grad (gradRow + i) + b.val (valRow + i) * (b.adj (adjRow + i) - sum)), b.adj, b.val⟩
    else
      ⟨Function.update b.grad (gradRow + i) (b.val (valRow + i) * (b.adj (adjRow + i) - sum)),
        b.adj, b.val⟩) m

/-- The kernel `SoftmaxGrad`: returns the three buffers after the call. -/
def SoftmaxGrad {α : Type} [Ring α] (m : GradBuffers α) (rows cols : Nat) (addGrad : Bool) :
    GradBuffers α :=
  forLoop 0 rows (SoftmaxGrad_row cols addGrad) m

/-! ## Names for parts of the kernels used in the statements -/

/-- The maximum loop of `Softmax`, source lines 72-74, for row `j`. -/
def Softmax_max {α : Type} [LinearOrderedField α] (pIn : Nat → α) (cols j : Nat) : α :=
  forLoop 1 (cols - 1) (fun i m => stdMax m (pIn (j * cols + i))) (pIn (j * cols + 0))

/-- The maximum loop of `SoftmaxMask`, source lines 101-108, for row `j`. -/
def SoftmaxMask_max {α : Type} [LinearOrderedField α] (pIn pMask : Nat → α) (cols j : Nat) : α :=
  forLoop 1 (cols - 1)
    (fun i m => if pMask (j * cols + i) = 0 then stdMax m (pIn (j * cols + i)) else m)
    (pIn (j * cols + 0))

/-- The sum loop of `SoftmaxMask`, source lines 110-124, for row `j`: the value of `sum` the
row is divided by. -/
def SoftmaxMask_sum {α : Type} [LinearOrderedField α] (exp : α → α) (pIn pMask : Nat → α)
    (cols j : Nat) : α :=
  forLoop 0 cols
    (fun i sum =>
      if pMask (j * cols + i) = 0 then
        sum + exp (pIn (j * cols + i) - SoftmaxMask_max pIn pMask cols j)
      else sum) 0

/-- The unmasked positions of row `j` of a mask, in increasing order. -/
def unmaskedIdx {α : Type} [LinearOrderedField α] (pMask : Nat → α) (cols j : Nat) : List Nat :=
  (List.range cols).filter (fun i => decide (pMask (j * cols + i) = 0))

/-- The sub-row of row `j` of `pIn` made of the values at the unmasked positions, read in
order, as a buffer. -/
def unmaskedRow {α : Type} [LinearOrderedField α] (pIn pMask : Nat → α) (cols j : Nat) :
    Nat → α :=
  fun k => ((unmaskedIdx pMask cols j).map (fun i => pIn (j * cols + i))).getD k 0

/-! ## The specification's words for the unfold kernels -/

/-- The value the specification prescribes for `finput[c,kh,kw,oy,ox]` after Unfold-Copy:
`input[c, oy*dH - padH + kh, ox*dW - padW + kw]` if that coordinate is in bounds, else `0`. -/
def specUnfoldCopy {α : Type} [Zero α] (a : UnfoldArgs) (input : Nat → α)
    (c kh kw oy ox : Nat) : α :=
  let iy : Int := (oy : Int) * (a.dH : Int) - (a.padH : Int) + (kh : Int)
  let ix : Int := (ox : Int) * (a.dW : Int) - (a.padW : Int) + (kw : Int)
  if 0 ≤ iy ∧ iy < (a.inputHeight : Int) ∧ 0 ≤ ix ∧ ix < (a.inputWidth : Int) then
    input ((c * a.inputHeight + iy.toNat) * a.inputWidth + ix.toNat)
  else 0

/-- Flat index of `finput[c,kh,kw,oy,ox]` in the column buffer. -/
def finputIndex (a : UnfoldArgs) (c kh kw oy ox : Nat) : Nat :=
  (((c * a.kH + kh) * a.kW + kw) * a.outputHeight + oy) * a.outputWidth + ox

/-- The value the specification prescribes for `inputGrad[c,iy,ix]` after Unfold-Accumulate:
the old value plus the sum of `finputGrad[c,kh,kw,oy,ox]` over all `(kh,kw,oy,ox)` with
`oy*dH - padH + kh = iy` and `ox*dW - padW + kw = ix`. -/
def specUnfoldAcc {α : Type} [AddCommMonoid α] (a : UnfoldArgs) (finputGrad inputGrad : Nat → α)
    (c iy ix : Nat) : α :=
  inputGrad ((c * a.inputHeight + iy) * a.inputWidth + ix)
  + ∑ kh in Finset.range a.kH, ∑ kw in Finset.range a.kW,
      ∑ oy in Finset.range a.outputHeight, ∑ ox in Finset.range a.outputWidth,
        if (oy : Int) * (a.dH : Int) - (a.padH : Int) + (kh : Int) = (iy : Int)
            ∧ (ox : Int) * (a.dW : Int) - (a.padW : Int) + (kw : Int) = (ix : Int) then
          finputGrad (finputIndex a c kh kw oy ox)
        else 0

/-! ## Names for parts of the unfold kernels used in the statements -/

/-- The value of `lpad` in the `dW == 1` branches, source lines 204 and 277:
`std::max(size_t(0), (padW - kw))`. -/
def unfolded_lpad (a : UnfoldArgs) (kw : Nat) : Nat :=
  stdMax (toSizeT 0) (toSizeT ((a.padW : Int) - (kw : Int)))

/-- The value of `rpad` in the `dW == 1` branches, source lines 205 and 278:
`std::max(size_t(0), (padW - (kW - kw - 1)))`. -/
def unfolded_rpad (a : UnfoldArgs) (kw : Nat) : Nat :=
  stdMax (toSizeT 0) (toSizeT ((a.padW : Int) - ((a.kW : Int) - (kw : Int) - 1)))

/-- The bulk-copy branch (`dW == 1`) of a padded row of `unfolded_copy`, source lines 276-286,
for a row whose source row `iy` is in range. -/
def unfolded_copy_bulkRow {α : Type} [Zero α] (a : UnfoldArgs) (input : TensorRef α)
    (dst src : Int) (kw y : Nat) (iy : Int) (finput : TensorRef α) : Option (TensorRef α) :=
  let ix : Int := toInt64 (toSizeT (0 - (a.padW : Int) + (kw : Int)))
  let lpad : Nat := unfolded_lpad a kw
  let rpad : Nat := unfolded_rpad a kw
  if toSizeT ((a.outputWidth : Int) - (rpad : Int) - (lpad : Int)) ≤ 0 then
    memset finput (dst + (toSizeT ((y : Int) * (a.outputWidth : Int)) : Int))
      (toSizeT a.outputWidth)
  else
    (if 0 < lpad then
      memset finput (dst + (toSizeT ((y : Int) * (a.outputWidth : Int)) : Int)) (toSizeT lpad)
     else some finput).bind fun f1 =>
    (memcpy f1 (dst + (toSizeT ((y : Int) * (a.outputWidth : Int) + (lpad : Int)) : Int))
      input (src + (toSizeT (iy * (a.inputWidth : Int) + ix + (lpad : Int)) : Int))
      (toSizeT ((a.outputWidth : Int) - (rpad : Int) - (lpad : Int)))).bind fun f2 =>
    if 0 < rpad then
      memset f2 (dst + (toSizeT ((y : Int) * (a.outputWidth : Int)) : Int)
        + (a.outputWidth : Int) - (rpad : Int)) (toSizeT rpad)
    else some f2

/-- The element-wise branch of a padded row of `unfolded_copy`, source lines 289-295, for a
row whose source row `iy` is in range: per column `ix = x*dW - padW + kw`, copy if
`0 <= ix < W`, else write 0. -/
def unfolded_copy_elementRow {α : Type} [Zero α] (a : UnfoldArgs) (input : TensorRef α)
    (dst src : Int) (kw y : Nat) (iy : Int) (finput : TensorRef α) : Option (TensorRef α) :=
  forLoopM (toSizeT a.outputWidth) (fun x f =>
    let ix : Int := toInt64 (toSizeT ((x : Int) * (a.dW : Int) - (a.padW : Int) + (kw : Int)))
    if ix < 0 ∨ ix ≥ (a.inputWidth : Int) then
      memset f (dst + (toSizeT ((y : Int) * (a.outputWidth : Int) + (x : Int)) : Int)) 1
    else
      memcpy f (dst + (toSizeT ((y : Int) * (a.outputWidth : Int) + (x : Int)) : Int))
        input (src + (toSizeT (iy * (a.inputWidth : Int) + ix) : Int)) 1) finput

/-- The source row `iy = (__int64)(y*dH - padH + kh)` of output row `y`, source lines 198 and
270. -/
def unfolded_iy (a : UnfoldArgs) (kh y : Nat) : Int :=
  toInt64 (toSizeT ((y : Int) * (a.dH : Int) - (a.padH : Int) + (kh : Int)))

/-! ## Preconditions of the unfold kernels -/

/-- The valid parameter sets of the unfold kernels: all sizes and strides are at least 1, the
padded input is at least as large as the kernel, and the output sizes satisfy
`out = floor((in + 2*pad - k) / d) + 1`. -/
def UnfoldArgs.Valid (a : UnfoldArgs) : Prop :=
  1 ≤ a.inputHeight ∧ 1 ≤ a.inputWidth ∧ 1 ≤ a.kH ∧ 1 ≤ a.kW ∧ 1 ≤ a.dH ∧ 1 ≤ a.dW ∧
  a.kH ≤ a.inputHeight + 2 * a.padH ∧ a.kW ≤ a.inputWidth + 2 * a.padW ∧
  a.outputHeight = (a.inputHeight + 2 * a.padH - a.kH) / a.dH + 1 ∧
  a.outputWidth = (a.inputWidth + 2 * a.padW - a.kW) / a.dW + 1

/-- The arguments are `int` values and the `int` products the kernels form
(`nInputPlane*kH*kW`, `kH*kW*outputHeight*outputWidth`, `inputHeight*inputWidth`) are
representable: all are below `2^31`. -/
def UnfoldArgs.FitsInt (a : UnfoldArgs) : Prop :=
  a.nInputPlane * a.kH * a.kW < 2147483648 ∧
  a.kH * a.kW * a.outputHeight * a.outputWidth < 2147483648 ∧
  a.inputHeight * a.inputWidth < 2147483648 ∧
  a.nInputPlane < 2147483648 ∧
  a.dW < 2147483648 ∧ a.dH < 2147483648 ∧ a.padW < 2147483648 ∧ a.padH < 2147483648

/-! ## Confinement of a step of `unfolded_acc` -/

/-- A step `step s d` that reads the column buffer `s` (of `cnt` elements) and accumulates
into `d` (of `dcnt` elements) is confined to the regions `[Plo, Phi)` of `d` and `[Slo, Shi)`
of `s` when it returns, its result keeps the size of `d` and the elements of `d` outside
`[Plo, Phi)`, and the outcome depends only on the elements of `s` inside `[Slo, Shi)`. -/
def ConfinedStep {α : Type} (cnt dcnt Plo Phi Slo Shi : Nat)
    (step : TensorRef α → TensorRef α → Option (TensorRef α)) : Prop :=
  ∀ s d : TensorRef α, s.elemCount = cnt → d.elemCount = dcnt →
    (∃ r, step s d = some r ∧
      r.elemCount = d.elemCount ∧ ∀ i, ¬ (Plo ≤ i ∧ i < Phi) → r.buffer i = d.buffer i) ∧
    (∀ s2 : TensorRef α, s2.elemCount = cnt →
      (∀ i, Slo ≤ i → i < Shi → s2.buffer i = s.buffer i) → step s2 d = step s d)

/-! ## Loop lemmas -/

theorem stdMax_eq_max {β : Type} [LinearOrder β] [DecidableRel (fun (a b : β) => a < b)]
    (a b : β) : stdMax a b = max a b := by
  unfold stdMax
  split
  · rename_i h; exact (max_eq_right (le_of_lt h)).symm
  · rename_i h; exact (max_eq_left (not_lt.mp h)).symm

/-- The maximum loop returns an upper bound of `f 0, ..., f n` that is one of these values. -/
theorem maxLoop_spec {β : Type} [LinearOrder β] (f : Nat → β) (n : Nat) :
    (∀ i, i ≤ n → f i ≤ forLoop 1 n (fun i m => stdMax m (f i)) (f 0)) ∧
    (∃ i, i ≤ n ∧ forLoop 1 n (fun i m => stdMax m (f i)) (f 0) = f i) := by
  induction n with
  | zero =>
    refine ⟨fun i hi => ?_, 0, le_refl 0, rfl⟩
    have : i = 0 := by omega
    subst this
    exact le_refl _
  | succ n ih =>
    obtain ⟨hub, i0, hi0, heq⟩ := ih
    have hstep : forLoop 1 (n + 1) (fun i m => stdMax m (f i)) (f 0)
        = max (forLoop 1 n (fun i m => stdMax m (f i)) (f 0)) (f (n + 1)) := by
      show stdMax _ (f (1 + n)) = _
      rw [stdMax_eq_max, Nat.add_comm 1 n]
    rw [hstep]
    refine ⟨fun i hi => ?_, ?_⟩
    · rcases Nat.lt_or_ge i (n + 1) with h | h
      · exact le_trans (hub i (by omega)) (le_max_left _ _)
      · have : i = n + 1 := by omega
        subst this
        exact le_max_right _ _
    · rcases le_total (forLoop 1 n (fun i m => stdMax m (f i)) (f 0)) (f (n + 1)) with h | h
      · exact ⟨n + 1, le_refl _, max_eq_right h⟩
      · exact ⟨i0, by omega, by rw [max_eq_left h, heq]⟩

/-- The maximum loop over a row of `cols ≥ 1` elements computes the row maximum. -/
theorem maxLoop_eq_sup' {β : Type} [LinearOrder β] (f : Nat → β) (cols : Nat)
    (h : (Finset.range cols).Nonempty) :
    forLoop 1 (cols - 1) (fun i m => stdMax m (f i)) (f 0) = (Finset.range cols).sup' h f := by
  have hc : 0 < cols := by
    obtain ⟨x, hx⟩ := h
    have := Finset.mem_range.mp hx
    omega
  obtain ⟨hub, i0, hi0, heq⟩ := maxLoop_spec f (cols - 1)
  apply le_antisymm
  · rw [heq]
    exact Finset.le_sup' f (Finset.mem_range.mpr (by omega))
  · apply Finset.sup'_le
    intro b hb
    exact hub b (by have := Finset.mem_range.mp hb; omega)

/-- The loop that stores the exponentials of a row and adds them up. -/
theorem expLoop_eq {α : Type} [AddCommMonoid α] (so : Nat) (e : Nat → α) (out : Nat → α)
    (n : Nat) :
    forLoop 0 n (fun i (st : (Nat → α) × α) => (Function.update st.1 (so + i) (e i), st.2 + e i))
      (out, 0)
    = (fun k => if so ≤ k ∧ k < so + n then e (k - so) else out k,
        ∑ i in Finset.range n, e i) := by
  induction n with
  | zero =>
    simp only [forLoop, Finset.range_zero, Finset.sum_empty, Prod.mk.injEq, and_true]
    funext k
    rw [if_neg (by omega)]
  | succ n ih =>
    show (Function.update (forLoop 0 n _ (out, 0)).1 (so + (0 + n)) (e (0 + n)),
      (forLoop 0 n _ (out, 0)).2 + e (0 + n)) = _
    rw [ih, Finset.sum_range_succ, Nat.zero_add]
    refine Prod.ext ?_ rfl
    funext k
    simp only [Function.update_apply]
    by_cases hk : k = so + n
    · subst hk
      have : so ≤ so + n ∧ so + n < so + (n + 1) := by omega
      simp [this]
    · by_cases h1 : so ≤ k ∧ k < so + n
      · have : so ≤ k ∧ k < so + (n + 1) := by omega
        simp [hk, h1, this]
      · have : ¬ (so ≤ k ∧ k < so + (n + 1)) := by omega
        simp [hk, h1, this]

/-- The loop that divides a row by the normaliser. -/
theorem divLoop_eq {α : Type} [Div α] (so : Nat) (s : α) (o : Nat → α) (n : Nat) :
    forLoop 0 n (fun i o => Function.update o (so + i) (o (so + i) / s)) o
    = fun k => if so ≤ k ∧ k < so + n then o k / s else o k := by
  induction n with
  | zero =>
    funext k
    simp only [forLoop]
    rw [if_neg (by omega)]
  | succ n ih =>
    show Function.update (forLoop 0 n _ o) (so + (0 + n)) ((forLoop 0 n _ o) (so + (0 + n)) / s) = _
    rw [ih, Nat.zero_add]
    funext k
    simp only [Function.update_apply]
    by_cases hk : k = so + n
    · subst hk
      have h1 : ¬ (so ≤ so + n ∧ so + n < so + n) := by omega
      have h2 : so ≤ so + n ∧ so + n < so + (n + 1) := by omega
      simp [h1, h2]
    · by_cases h1 : so ≤ k ∧ k < so + n
      · have : so ≤ k ∧ k < so + (n + 1) := by omega
        simp [hk, h1, this]
      · have : ¬ (so ≤ k ∧ k < so + (n + 1)) := by omega
        simp [hk, h1, this]

/-- A loop over rows whose body rewrites row `j` element by element. -/
theorem forLoop_rows {α : Type} (cols : Nat) (R : Nat → (Nat → α) → (Nat → α))
    (F : Nat → Nat → α → α)
    (hR : ∀ j out k, R j out k
      = if j * cols ≤ k ∧ k < j * cols + cols then F j k (out k) else out k)
    (n : Nat) (out0 : Nat → α) (k : Nat) :
    forLoop 0 n R out0 k = if k < n * cols then F (k / cols) k (out0 k) else out0 k := by
  induction n with
  | zero => simp [forLoop]
  | succ n ih =>
    show R (0 + n) (forLoop 0 n R out0) k = _
    rw [hR, ih, Nat.zero_add]
    have hs : (n + 1) * cols = n * cols + cols := Nat.succ_mul n cols
    by_cases h1 : n * cols ≤ k ∧ k < n * cols + cols
    · have h2 : ¬ k < n * cols := by omega
      have h3 : k < (n + 1) * cols := by omega
      have h4 : k / cols = n := by
        apply Nat.div_eq_of_lt_le
        · exact h1.1
        · omega
      simp [h1, h2, h3, h4]
    · by_cases h2 : k < n * cols
      · have h3 : k < (n + 1) * cols := by omega
        simp [h1, h2, h3]
      · have h3 : ¬ k < (n + 1) * cols := by omega
        simp [h1, h2, h3]

/-! ## Closed form of `Softmax` -/

/-- Closed form of one row of `Softmax`: row `j` is overwritten, the rest is kept. -/
theorem Softmax_row_apply {α : Type} [LinearOrderedField α] (exp : α → α) (pIn : Nat → α)
    (cols j : Nat) (pOut : Nat → α) (k : Nat) :
    Softmax_row exp pIn cols j pOut k =
      if j * cols ≤ k ∧ k < j * cols + cols then
        exp (pIn k - Softmax_max pIn cols j)
          / ∑ t in Finset.range cols, exp (pIn (j * cols + t) - Softmax_max pIn cols j)
      else pOut k := by
  have hE := expLoop_eq (j * cols) (fun i => exp (pIn (j * cols + i) - Softmax_max pIn cols j))
    pOut cols
  unfold Softmax_row
  unfold Softmax_max at hE ⊢
  simp only [] at hE ⊢
  rw [hE, divLoop_eq]
  by_cases h : j * cols ≤ k ∧ k < j * cols + cols
  · have hk : j * cols + (k - j * cols) = k := by omega
    simp only [h, and_self, if_true, hk]
  · simp only [h, if_false]

/-- Closed form of `Softmax` on the element `i` of row `j`. -/
theorem Softmax_apply {α : Type} [LinearOrderedField α] (exp : α → α) (pOut pIn : Nat → α)
    (rows cols j i : Nat) (hj : j < rows) (hi : i < cols) :
    Softmax exp pOut pIn rows cols (j * cols + i) =
      exp (pIn (j * cols + i) - Softmax_max pIn cols j)
        / ∑ t in Finset.range cols, exp (pIn (j * cols + t) - Softmax_max pIn cols j) := by
  unfold Softmax
  rw [forLoop_rows cols (Softmax_row exp pIn cols)
    (fun j k _ => exp (pIn k - Softmax_max pIn cols j)
      / ∑ t in Finset.range cols, exp (pIn (j * cols + t) - Softmax_max pIn cols j))
    (fun j out k => Softmax_row_apply exp pIn cols j out k)]
  have h1 : (j + 1) * cols ≤ rows * cols := Nat.mul_le_mul_right cols hj
  have hs : (j + 1) * cols = j * cols + cols := Nat.succ_mul j cols
  have h2 : j * cols + i < rows * cols := by omega
  have h3 : (j * cols + i) / cols = j := by
    apply Nat.div_eq_of_lt_le
    · omega
    · omega
  simp only [h2, if_true, h3]

/-- The row maximum computed by `Softmax` is the maximum of the row. -/
theorem Softmax_max_eq_sup' {α : Type} [LinearOrderedField α] (pIn : Nat → α) (cols j : Nat)
    (h : (Finset.range cols).Nonempty) :
    Softmax_max pIn cols j = (Finset.range cols).sup' h (fun t => pIn (j * cols + t)) :=
  maxLoop_eq_sup' (fun t => pIn (j * cols + t)) cols h

theorem stdMax_add_right {α : Type} [LinearOrderedField α] (a b c : α) :
    stdMax (a + c) (b + c) = stdMax a b + c := by
  unfold stdMax
  by_cases h : a < b
  · have h2 : a + c < b + c := by linarith
    simp [h, h2]
  · have h2 : ¬ (a + c < b + c) := by
      intro h3
      exact h (by linarith)
    simp [h, h2]

/-- Adding `c` to every input adds `c` to the row maximum. -/
theorem Softmax_max_shift {α : Type} [LinearOrderedField α] (pIn : Nat → α) (c : α)
    (cols j : Nat) :
    Softmax_max (fun k => pIn k + c) cols j = Softmax_max pIn cols j + c := by
  unfold Softmax_max
  generalize cols - 1 = n
  induction n with
  | zero => rfl
  | succ n ih =>
    show stdMax (forLoop 1 n _ _) (pIn (j * cols + (1 + n)) + c)
      = stdMax (forLoop 1 n _ _) (pIn (j * cols + (1 + n))) + c
    rw [ih, stdMax_add_right]

/-- A sum of exponentials over a non-empty row is positive. -/
theorem sum_exp_pos (f : Nat → ℝ) (cols : Nat) (hc : 1 ≤ cols) :
    0 < ∑ t in Finset.range cols, Real.exp (f t) :=
  Finset.sum_pos (fun t _ => Real.exp_pos (f t)) ⟨0, Finset.mem_range.mpr hc⟩

/-! ## Claims on `Softmax` -/

/-- C4 (Softmax forward formula): for every `rows`, every `cols ≥ 1` and every real-valued
input, after `Softmax` the output element `out[j*cols+i]` (`j < rows`, `i < cols`) equals
`exp(in[j*cols+i] - m_j) / Σ_{t<cols} exp(in[j*cols+t] - m_j)`, where `m_j` is the maximum of
row `j` of the input. -/
theorem Softmax_forward_formula (rows cols : Nat) (pOut pIn : Nat → ℝ) (hc : 1 ≤ cols)
    (j i : Nat) (hj : j < rows) (hi : i < cols) :
    Softmax Real.exp pOut pIn rows cols (j * cols + i) =
      Real.exp (pIn (j * cols + i)
          - (Finset.range cols).sup' ⟨0, Finset.mem_range.mpr hc⟩ (fun t => pIn (j * cols + t)))
        / ∑ t in Finset.range cols, Real.exp (pIn (j * cols + t)
          - (Finset.range cols).sup' ⟨0, Finset.mem_range.mpr hc⟩
              (fun t => pIn (j * cols + t))) := by
  rw [Softmax_apply Real.exp pOut pIn rows cols j i hj hi,
    Softmax_max_eq_sup' pIn cols j ⟨0, Finset.mem_range.mpr hc⟩]

/-- Witness of C4: one row of two elements. -/
theorem Softmax_forward_formula_witness :
    (1 ≤ 2 ∧ 0 < 1 ∧ 1 < 2) ∧
    Softmax Real.exp (fun _ => 0) (fun k : Nat => (k : ℝ)) 1 2 (0 * 2 + 1) =
      Real.exp (((0 * 2 + 1 : Nat) : ℝ)
          - (Finset.range 2).sup' ⟨0, Finset.mem_range.mpr (by decide)⟩
              (fun t => ((0 * 2 + t : Nat) : ℝ)))
        / ∑ t in Finset.range 2, Real.exp (((0 * 2 + t : Nat) : ℝ)
          - (Finset.range 2).sup' ⟨0, Finset.mem_range.mpr (by decide)⟩
              (fun t => ((0 * 2 + t : Nat) : ℝ))) :=
  ⟨by decide, Softmax_forward_formula 1 2 (fun _ => 0) (fun k : Nat => (k : ℝ)) (by decide) 0 1
    (by decide) (by decide)⟩

/-- C5 (Softmax rows are probability distributions): for every `cols ≥ 1` and every
real-valued input, each output row of `Softmax` sums to exactly 1 and every output element of
the row is non-negative. -/
theorem Softmax_row_distribution (rows cols : Nat) (pOut pIn : Nat → ℝ) (hc : 1 ≤ cols)
    (j : Nat) (hj : j < rows) :
    (∑ i in Finset.range cols, Softmax Real.exp pOut pIn rows cols (j * cols + i)) = 1 ∧
    ∀ i, i < cols → 0 ≤ Softmax Real.exp pOut pIn rows cols (j * cols + i) := by
  have hpos := sum_exp_pos (fun t => pIn (j * cols + t) - Softmax_max pIn cols j) cols hc
  constructor
  · rw [Finset.sum_congr rfl (fun i hi =>
      Softmax_apply Real.exp pOut pIn rows cols j i hj (Finset.mem_range.mp hi))]
    rw [← Finset.sum_div]
    exact div_self (ne_of_gt hpos)
  · intro i hi
    rw [Softmax_apply Real.exp pOut pIn rows cols j i hj hi]
    exact div_nonneg (le_of_lt (Real.exp_pos _)) (le_of_lt hpos)

/-- Witness of C5: two rows of three elements, second row. -/
theorem Softmax_row_distribution_witness :
    (1 ≤ 3 ∧ 1 < 2) ∧
    ((∑ i in Finset.range 3, Softmax Real.exp (fun _ => 0) (fun k : Nat => (k : ℝ)) 2 3 (1 * 3 + i)) = 1
      ∧ ∀ i, i < 3 → 0 ≤ Softmax Real.exp (fun _ => 0) (fun k : Nat => (k : ℝ)) 2 3 (1 * 3 + i)) :=
  ⟨by decide, Softmax_row_distribution 2 3 (fun _ => 0) (fun k : Nat => (k : ℝ)) (by decide) 1
    (by decide)⟩

/-- C6 (Softmax is shift-invariant): for every `rows` and `cols` (in particular `cols ≥ 1`),
every real-valued input `x` and every real scalar `c`, `Softmax` applied to the input with `c`
added to every element leaves the same output buffer as `Softmax` applied to `x`. -/
theorem Softmax_shift_invariant (rows cols : Nat) (pOut x : Nat → ℝ) (c : ℝ) :
    Softmax Real.exp pOut (fun k => x k + c) rows cols = Softmax Real.exp pOut x rows cols := by
  have hrow : Softmax_row Real.exp (fun k => x k + c) cols = Softmax_row Real.exp x cols := by
    funext j out k
    rw [Softmax_row_apply, Softmax_row_apply, Softmax_max_shift]
    simp only [add_sub_add_right_eq_sub]
  unfold Softmax
  rw [hrow]

/-! ## Closed form of `SoftmaxMask` -/

/-- The loop of `SoftmaxMask` that stores the exponentials of the unmasked positions, zeroes
the masked ones and adds up the exponentials. -/
theorem maskLoop_eq {α : Type} [AddCommMonoid α] (so : Nat) (p : Nat → Prop)
    [inst : ∀ i, Decidable (p i)] (e : Nat → α) (out : Nat → α) (n : Nat) :
    forLoop 0 n (fun i (st : (Nat → α) × α) =>
        if p i then (Function.update st.1 (so + i) (e i), st.2 + e i)
        else (Function.update st.1 (so + i) 0, st.2)) (out, 0)
    = (fun k => if so ≤ k ∧ k < so + n then (if p (k - so) then e (k - so) else 0) else out k,
        ∑ i in Finset.range n, if p i then e i else 0) := by
  induction n with
  | zero =>
    simp only [forLoop, Finset.range_zero, Finset.sum_empty, Prod.mk.injEq, and_true]
    funext k
    rw [if_neg (by omega)]
  | succ n ih =>
    show (fun (st : (Nat → α) × α) =>
        if p (0 + n) then (Function.update st.1 (so + (0 + n)) (e (0 + n)), st.2 + e (0 + n))
        else (Function.update st.1 (so + (0 + n)) 0, st.2)) (forLoop 0 n _ (out, 0)) = _
    rw [ih, Finset.sum_range_succ, Nat.zero_add]
    have hfun : ∀ v : α, Function.update
        (fun k => if so ≤ k ∧ k < so + n then (if p (k - so) then e (k - so) else 0) else out k)
        (so + n) v
        = fun k => if so ≤ k ∧ k < so + (n + 1) then
            (if k = so + n then v else if p (k - so) then e (k - so) else 0) else out k := by
      intro v
      funext k
      simp only [Function.update_apply]
      by_cases hk : k = so + n
      · subst hk
        have : so ≤ so + n ∧ so + n < so + (n + 1) := by omega
        simp [this]
      · by_cases h1 : so ≤ k ∧ k < so + n
        · have : so ≤ k ∧ k < so + (n + 1) := by omega
          simp [hk, h1, this]
        · have : ¬ (so ≤ k ∧ k < so + (n + 1)) := by omega
          simp [hk, h1, this]
    by_cases hp : p n
    · simp only [hp, if_true, hfun]
      refine Prod.ext ?_ rfl
      funext k
      by_cases hk : k = so + n
      · subst hk
        simp [hp]
      · simp [hk]
    · simp only [hp, if_false, hfun, add_zero]
      refine Prod.ext ?_ rfl
      funext k
      by_cases hk : k = so + n
      · subst hk
        simp [hp]
      · simp [hk]

/-- Closed form of one row of `SoftmaxMask`: row `j` is overwritten, the rest is kept. -/
theorem SoftmaxMask_row_apply {α : Type} [LinearOrderedField α] (exp : α → α)
    (pIn pMask : Nat → α) (cols j : Nat) (pOut : Nat → α) (k : Nat) :
    SoftmaxMask_row exp pIn pMask cols j pOut k =
      if j * cols ≤ k ∧ k < j * cols + cols then
        (if pMask k = 0 then exp (pIn k - SoftmaxMask_max pIn pMask cols j) else 0)
          / ∑ t in Finset.range cols,
              if pMask (j * cols + t) = 0 then
                exp (pIn (j * cols + t) - SoftmaxMask_max pIn pMask cols j)
              else 0
      else pOut k := by
  have hE := maskLoop_eq (j * cols) (fun i => pMask (j * cols + i) = 0)
    (fun i => exp (pIn (j * cols + i) - SoftmaxMask_max pIn pMask cols j)) pOut cols
  unfold SoftmaxMask_row
  unfold SoftmaxMask_max at hE ⊢
  simp only [] at hE ⊢
  rw [hE, divLoop_eq]
  by_cases h : j * cols ≤ k ∧ k < j * cols + cols
  · have hk : j * cols + (k - j * cols) = k := by omega
    simp only [h, and_self, if_true, hk]
  · simp only [h, if_false]

/-- Closed form of `SoftmaxMask` on the element `i` of row `j`. -/
theorem SoftmaxMask_apply {α : Type} [LinearOrderedField α] (exp : α → α)
    (pOut pIn pMask : Nat → α) (rows cols j i : Nat) (hj : j < rows) (hi : i < cols) :
    SoftmaxMask exp pOut pIn pMask rows cols (j * cols + i) =
      (if pMask (j * cols + i) = 0 then
          exp (pIn (j * cols + i) - SoftmaxMask_max pIn pMask cols j) else 0)
        / ∑ t in Finset.range cols,
            if pMask (j * cols + t) = 0 then
              exp (pIn (j * cols + t) - SoftmaxMask_max pIn pMask cols j)
            else 0 := by
  unfold SoftmaxMask
  rw [forLoop_rows cols (SoftmaxMask_row exp pIn pMask cols)
    (fun j k _ => (if pMask k = 0 then exp (pIn k - SoftmaxMask_max pIn pMask cols j) else 0)
      / ∑ t in Finset.range cols,
          if pMask (j * cols + t) = 0 then
            exp (pIn (j * cols + t) - SoftmaxMask_max pIn pMask cols j)
          else 0)
    (fun j out k => SoftmaxMask_row_apply exp pIn pMask cols j out k)]
  have h1 : (j + 1) * cols ≤ rows * cols := Nat.mul_le_mul_right cols hj
  have hs : (j + 1) * cols = j * cols + cols := Nat.succ_mul j cols
  have h2 : j * cols + i < rows * cols := by omega
  have h3 : (j * cols + i) / cols = j := by
    apply Nat.div_eq_of_lt_le
    · omega
    · omega
  simp only [h2, if_true, h3]

/-- The normaliser of a row of `SoftmaxMask` with an unmasked position is positive. -/
theorem mask_sum_pos (pMask : Nat → ℝ) (f : Nat → ℝ) (cols j : Nat)
    (hex : ∃ i, i < cols ∧ pMask (j * cols + i) = 0) :
    0 < ∑ t in Finset.range cols, if pMask (j * cols + t) = 0 then Real.exp (f t) else 0 := by
  obtain ⟨i0, hi0, hm⟩ := hex
  apply Finset.sum_pos'
  · intro t _
    split
    · exact le_of_lt (Real.exp_pos _)
    · exact le_refl _
  · exact ⟨i0, Finset.mem_range.mpr hi0, by simp only [hm, if_true]; exact Real.exp_pos _⟩

/-! ## `SoftmaxMask` in exact arithmetic

Over the real numbers with the exact exponential the sum that divides a row is positive and
the subtracted value cancels, whatever it is.  Neither holds for an exponential that
underflows; that case is treated with the further claims on the softmax kernels. -/

/-- In exact arithmetic (real numbers, exact exponential): for every `cols ≥ 1`, every input
and every mask, in each row `j` with at least one unmasked position (mask element equal to 0)
`SoftmaxMask` writes 0 at every masked position (mask element nonzero) and the outputs at the
unmasked positions of the row sum to 1. -/
theorem SoftmaxMask_output_shape (rows cols : Nat) (pOut pIn pMask : Nat → ℝ) (_hc : 1 ≤ cols)
    (j : Nat) (hj : j < rows) (hex : ∃ i, i < cols ∧ pMask (j * cols + i) = 0) :
    (∀ i, i < cols → pMask (j * cols + i) ≠ 0 →
      SoftmaxMask Real.exp pOut pIn pMask rows cols (j * cols + i) = 0) ∧
    (∑ i in (Finset.range cols).filter (fun i => pMask (j * cols + i) = 0),
      SoftmaxMask Real.exp pOut pIn pMask rows cols (j * cols + i)) = 1 := by
  have hpos := mask_sum_pos pMask
    (fun t => pIn (j * cols + t) - SoftmaxMask_max pIn pMask cols j) cols j hex
  constructor
  · intro i hi hm
    rw [SoftmaxMask_apply Real.exp pOut pIn pMask rows cols j i hj hi, if_neg hm, zero_div]
  · rw [Finset.sum_filter]
    have hterm : ∀ i ∈ Finset.range cols,
        (if pMask (j * cols + i) = 0 then
          SoftmaxMask Real.exp pOut pIn pMask rows cols (j * cols + i) else 0)
        = (if pMask (j * cols + i) = 0 then
            Real.exp (pIn (j * cols + i) - SoftmaxMask_max pIn pMask cols j) else 0)
          / ∑ t in Finset.range cols,
              if pMask (j * cols + t) = 0 then
                Real.exp (pIn (j * cols + t) - SoftmaxMask_max pIn pMask cols j)
              else 0 := by
      intro i hi
      rw [SoftmaxMask_apply Real.exp pOut pIn pMask rows cols j i hj (Finset.mem_range.mp hi)]
      by_cases hm : pMask (j * cols + i) = 0
      · simp only [hm, if_true]
      · simp only [hm, if_false, zero_div]
    rw [Finset.sum_congr rfl hterm, ← Finset.sum_div]
    exact div_self (ne_of_gt hpos)

/-- An instance of the output shape in exact arithmetic: one row `[0, 1, 2]` whose middle
position is masked. -/
theorem SoftmaxMask_output_shape_witness :
    (1 ≤ 3 ∧ 0 < 1 ∧ ∃ i, i < 3 ∧ (fun k : Nat => if k = 1 then (1 : ℝ) else 0) (0 * 3 + i) = 0) ∧
    ((∀ i, i < 3 → (fun k : Nat => if k = 1 then (1 : ℝ) else 0) (0 * 3 + i) ≠ 0 →
      SoftmaxMask Real.exp (fun _ => 0) (fun k : Nat => (k : ℝ))
        (fun k : Nat => if k = 1 then (1 : ℝ) else 0) 1 3 (0 * 3 + i) = 0) ∧
    (∑ i in (Finset.range 3).filter
        (fun i => (fun k : Nat => if k = 1 then (1 : ℝ) else 0) (0 * 3 + i) = 0),
      SoftmaxMask Real.exp (fun _ => 0) (fun k : Nat => (k : ℝ))
        (fun k : Nat => if k = 1 then (1 : ℝ) else 0) 1 3 (0 * 3 + i)) = 1) :=
  ⟨⟨by decide, by decide, 0, by decide, by simp⟩,
    SoftmaxMask_output_shape 1 3 (fun _ => 0) (fun k : Nat => (k : ℝ))
      (fun k : Nat => if k = 1 then (1 : ℝ) else 0) (by decide) 0 (by decide) ⟨0, by decide, by simp⟩⟩

/-! ## Normalised forms over the reals -/

/-- Over the reals the subtracted value cancels: `Softmax` is `exp(in[i]) / Σ_t exp(in[t])`. -/
theorem Softmax_apply_normalised (pOut pIn : Nat → ℝ) (rows cols j i : Nat) (hj : j < rows)
    (hi : i < cols) :
    Softmax Real.exp pOut pIn rows cols (j * cols + i) =
      Real.exp (pIn (j * cols + i)) / ∑ t in Finset.range cols, Real.exp (pIn (j * cols + t)) := by
  rw [Softmax_apply Real.exp pOut pIn rows cols j i hj hi]
  have hM : Real.exp (Softmax_max pIn cols j) ≠ 0 := Real.exp_ne_zero _
  have hsum : (∑ t in Finset.range cols, Real.exp (pIn (j * cols + t) - Softmax_max pIn cols j))
      = (∑ t in Finset.range cols, Real.exp (pIn (j * cols + t)))
        / Real.exp (Softmax_max pIn cols j) := by
    rw [Finset.sum_div]
    exact Finset.sum_congr rfl (fun t _ => Real.exp_sub _ _)
  rw [hsum, Real.exp_sub]
  field_simp

/-- Over the reals the subtracted value cancels in `SoftmaxMask` as well. -/
theorem SoftmaxMask_apply_normalised (pOut pIn pMask : Nat → ℝ) (rows cols j i : Nat)
    (hj : j < rows) (hi : i < cols) :
    SoftmaxMask Real.exp pOut pIn pMask rows cols (j * cols + i) =
      (if pMask (j * cols + i) = 0 then Real.exp (pIn (j * cols + i)) else 0)
        / ∑ t in Finset.range cols,
            if pMask (j * cols + t) = 0 then Real.exp (pIn (j * cols + t)) else 0 := by
  rw [SoftmaxMask_apply Real.exp pOut pIn pMask rows cols j i hj hi]
  have hM : Real.exp (SoftmaxMask_max pIn pMask cols j) ≠ 0 := Real.exp_ne_zero _
  have hsum : (∑ t in Finset.range cols,
        if pMask (j * cols + t) = 0 then
          Real.exp (pIn (j * cols + t) - SoftmaxMask_max pIn pMask cols j) else 0)
      = (∑ t in Finset.range cols,
          if pMask (j * cols + t) = 0 then Real.exp (pIn (j * cols + t)) else 0)
        / Real.exp (SoftmaxMask_max pIn pMask cols j) := by
    rw [Finset.sum_div]
    apply Finset.sum_congr rfl
    intro t _
    by_cases hm : pMask (j * cols + t) = 0
    · simp only [hm, if_true, Real.exp_sub]
    · simp only [hm, if_false, zero_div]
  rw [hsum]
  by_cases hm : pMask (j * cols + i) = 0
  · simp only [hm, if_true, Real.exp_sub]
    field_simp
  · simp only [hm, if_false, zero_div]

/-- A sum over the positions of a list is the sum of the list. -/
theorem sum_range_getD {β : Type} (h : β → ℝ) (d : β) (L : List β) :
    (∑ t in Finset.range L.length, h (L.getD t d)) = (L.map h).sum := by
  induction L with
  | nil => simp
  | cons a L ih =>
    rw [List.length_cons, Finset.sum_range_succ', List.map_cons, List.sum_cons]
    simp only [List.getD_cons_succ, List.getD_cons_zero]
    rw [ih, add_comm]

/-- Summing over the filtered positions is summing the selected terms. -/
theorem sum_filter_range (p : Nat → Prop) [DecidablePred p] (h : Nat → ℝ) (n : Nat) :
    (((List.range n).filter (fun i => decide (p i))).map h).sum
      = ∑ i in Finset.range n, if p i then h i else 0 := by
  induction n with
  | zero => simp
  | succ n ih =>
    rw [List.range_succ, List.filter_append, List.map_append, List.sum_append, ih,
      Finset.sum_range_succ]
    by_cases hp : p n
    · simp [hp]
    · simp [hp]

/-- Every entry of `unmaskedIdx` is an unmasked position of the row. -/
theorem unmaskedIdx_spec {α : Type} [LinearOrderedField α] (pMask : Nat → α) (cols j k : Nat)
    (hk : k < (unmaskedIdx pMask cols j).length) :
    (unmaskedIdx pMask cols j).getD k 0 < cols ∧
    pMask (j * cols + (unmaskedIdx pMask cols j).getD k 0) = 0 := by
  rw [List.getD_eq_getElem _ _ hk]
  have hmem : (unmaskedIdx pMask cols j)[k] ∈ unmaskedIdx pMask cols j := List.getElem_mem hk
  unfold unmaskedIdx at hmem
  rw [List.mem_filter] at hmem
  exact ⟨List.mem_range.mp hmem.1, of_decide_eq_true hmem.2⟩

/-- In exact arithmetic (real numbers, exact exponential): for every row `j` with at least one
unmasked position, the outputs `SoftmaxMask` writes at the unmasked positions of the row, read
in order, equal the output of `Softmax` applied to the sub-row made of the input values at
those positions; and an input that differs only at masked positions of the row gives the same
outputs on the row. -/
theorem SoftmaxMask_eq_Softmax_on_unmasked (rows cols : Nat) (pOut pOut2 pIn pMask : Nat → ℝ)
    (j : Nat) (hj : j < rows) (_hex : ∃ i, i < cols ∧ pMask (j * cols + i) = 0) :
    (∀ k, k < (unmaskedIdx pMask cols j).length →
      SoftmaxMask Real.exp pOut pIn pMask rows cols
          (j * cols + (unmaskedIdx pMask cols j).getD k 0)
        = Softmax Real.exp pOut2 (unmaskedRow pIn pMask cols j) 1
            (unmaskedIdx pMask cols j).length k) ∧
    (∀ pIn2 : Nat → ℝ,
      (∀ i, i < cols → pMask (j * cols + i) = 0 → pIn2 (j * cols + i) = pIn (j * cols + i)) →
      ∀ i, i < cols →
        SoftmaxMask Real.exp pOut pIn2 pMask rows cols (j * cols + i)
          = SoftmaxMask Real.exp pOut pIn pMask rows cols (j * cols + i)) := by
  constructor
  · intro k hk
    obtain ⟨hlt, hm⟩ := unmaskedIdx_spec pMask cols j k hk
    rw [SoftmaxMask_apply_normalised pOut pIn pMask rows cols j _ hj hlt]
    have hidx : k = 0 * (unmaskedIdx pMask cols j).length + k := by
      rw [Nat.zero_mul, Nat.zero_add]
    conv_rhs => rw [hidx]
    rw [Softmax_apply_normalised pOut2 (unmaskedRow pIn pMask cols j) 1
      (unmaskedIdx pMask cols j).length 0 k (by decide) hk]
    simp only [Nat.zero_mul, Nat.zero_add, hm, if_true]
    have hnum : unmaskedRow pIn pMask cols j k
        = pIn (j * cols + (unmaskedIdx pMask cols j).getD k 0) := by
      unfold unmaskedRow
      rw [List.getD_eq_getElem _ _ (by rw [List.length_map]; exact hk), List.getElem_map,
        List.getD_eq_getElem _ _ hk]
    have hden : (∑ t in Finset.range (unmaskedIdx pMask cols j).length,
          Real.exp (unmaskedRow pIn pMask cols j t))
        = ∑ t in Finset.range cols,
            if pMask (j * cols + t) = 0 then Real.exp (pIn (j * cols + t)) else 0 := by
      have h1 := sum_range_getD Real.exp 0
        ((unmaskedIdx pMask cols j).map (fun i => pIn (j * cols + i)))
      rw [List.length_map] at h1
      have h2 := sum_filter_range (fun i => pMask (j * cols + i) = 0)
        (fun i => Real.exp (pIn (j * cols + i))) cols
      unfold unmaskedRow
      rw [h1, List.map_map, ← h2]
      rfl
    rw [hnum, hden]
  · intro pIn2 hagree i hi
    rw [SoftmaxMask_apply_normalised pOut pIn2 pMask rows cols j i hj hi,
      SoftmaxMask_apply_normalised pOut pIn pMask rows cols j i hj hi]
    have hden : (∑ t in Finset.range cols,
          if pMask (j * cols + t) = 0 then Real.exp (pIn2 (j * cols + t)) else 0)
        = ∑ t in Finset.range cols,
            if pMask (j * cols + t) = 0 then Real.exp (pIn (j * cols + t)) else 0 := by
      apply Finset.sum_congr rfl
      intro t ht
      by_cases hm : pMask (j * cols + t) = 0
      · simp only [hm, if_true, hagree t (Finset.mem_range.mp ht) hm]
      · simp only [hm, if_false]
    rw [hden]
    by_cases hm : pMask (j * cols + i) = 0
    · simp only [hm, if_true, hagree i hi hm]
    · simp only [hm, if_false]

/-- An instance of the comparison with `Softmax` in exact arithmetic: one row `[0, 1, 2]`
whose middle position is masked. -/
theorem SoftmaxMask_eq_Softmax_on_unmasked_witness :
    (0 < 1 ∧ ∃ i, i < 3 ∧ (fun k : Nat => if k = 1 then (1 : ℝ) else 0) (0 * 3 + i) = 0) ∧
    ((∀ k, k < (unmaskedIdx (fun k : Nat => if k = 1 then (1 : ℝ) else 0) 3 0).length →
      SoftmaxMask Real.exp (fun _ => 0) (fun k : Nat => (k : ℝ))
          (fun k : Nat => if k = 1 then (1 : ℝ) else 0) 1 3
          (0 * 3 + (unmaskedIdx (fun k : Nat => if k = 1 then (1 : ℝ) else 0) 3 0).getD k 0)
        = Softmax Real.exp (fun _ => 0)
            (unmaskedRow (fun k : Nat => (k : ℝ)) (fun k : Nat => if k = 1 then (1 : ℝ) else 0) 3 0) 1
            (unmaskedIdx (fun k : Nat => if k = 1 then (1 : ℝ) else 0) 3 0).length k) ∧
    (∀ pIn2 : Nat → ℝ,
      (∀ i, i < 3 → (fun k : Nat => if k = 1 then (1 : ℝ) else 0) (0 * 3 + i) = 0 →
        pIn2 (0 * 3 + i) = (fun k : Nat => (k : ℝ)) (0 * 3 + i)) →
      ∀ i, i < 3 →
        SoftmaxMask Real.exp (fun _ => 0) pIn2 (fun k : Nat => if k = 1 then (1 : ℝ) else 0) 1 3
            (0 * 3 + i)
          = SoftmaxMask Real.exp (fun _ => 0) (fun k : Nat => (k : ℝ))
              (fun k : Nat => if k = 1 then (1 : ℝ) else 0) 1 3 (0 * 3 + i))) :=
  ⟨⟨by decide, 0, by decide, by simp⟩,
    SoftmaxMask_eq_Softmax_on_unmasked 1 3 (fun _ => 0) (fun _ => 0) (fun k : Nat => (k : ℝ))
      (fun k : Nat => if k = 1 then (1 : ℝ) else 0) 0 (by decide) ⟨0, by decide, by simp⟩⟩

/-! ## Closed form of `SoftmaxGrad` -/

/-- The loop that accumulates `Σ_i val[i] * adj[i]`. -/
theorem sumLoop_eq {α : Type} [Ring α] (f : Nat → α) (n : Nat) :
    forLoop 0 n (fun i s => s + f i) 0 = ∑ i in Finset.range n, f i := by
  induction n with
  | zero => simp [forLoop]
  | succ n ih =>
    show forLoop 0 n _ 0 + f (0 + n) = _
    rw [ih, Finset.sum_range_succ, Nat.zero_add]

/-- The loop of `SoftmaxGrad` that writes one gradient row, for a given value of `sum`. -/
theorem gradLoop_eq {α : Type} [Ring α] (r : Nat) (addGrad : Bool) (sum : α)
    (m : GradBuffers α) (n : Nat) :
    forLoop 0 n (fun i (b : GradBuffers α) =>
      if addGrad then
        (⟨Function.update b.grad (r + i)
          (b.grad (r + i) + b.val (r + i) * (b.adj (r + i) - sum)), b.adj, b.val⟩ :
            GradBuffers α)
      else
        ⟨Function.update b.grad (r + i) (b.val (r + i) * (b.adj (r + i) - sum)),
          b.adj, b.val⟩) m
    = ⟨fun k => if r ≤ k ∧ k < r + n then
          (if addGrad then m.grad k + m.val k * (m.adj k - sum)
           else m.val k * (m.adj k - sum))
        else m.grad k, m.adj, m.val⟩ := by
  induction n with
  | zero =>
    simp only [forLoop]
    cases m with
    | mk g a v =>
      simp only [GradBuffers.mk.injEq, and_true]
      funext k
      rw [if_neg (by omega)]
  | succ n ih =>
    show (fun (b : GradBuffers α) =>
      if addGrad then
        (⟨Function.update b.grad (r + (0 + n))
          (b.grad (r + (0 + n)) + b.val (r + (0 + n)) * (b.adj (r + (0 + n)) - sum)),
          b.adj, b.val⟩ : GradBuffers α)
      else
        ⟨Function.update b.grad (r + (0 + n))
          (b.val (r + (0 + n)) * (b.adj (r + (0 + n)) - sum)), b.adj, b.val⟩)
      (forLoop 0 n _ m) = _
    rw [ih, Nat.zero_add]
    have hn : ¬ (r ≤ r + n ∧ r + n < r + n) := by omega
    cases addGrad with
    | true =>
      simp only [if_true, hn, if_false, GradBuffers.mk.injEq, and_true]
      funext k
      simp only [Function.update_apply]
      by_cases hk : k = r + n
      · subst hk
        have h2 : r ≤ r + n ∧ r + n < r + (n + 1) := by omega
        simp [h2]
      · by_cases h1 : r ≤ k ∧ k < r + n
        · have : r ≤ k ∧ k < r + (n + 1) := by omega
          simp [hk, h1, this]
        · have : ¬ (r ≤ k ∧ k < r + (n + 1)) := by omega
          simp [hk, h1, this]
    | false =>
      simp only [Bool.false_eq_true, if_false, GradBuffers.mk.injEq, and_true]
      funext k
      simp only [Function.update_apply]
      by_cases hk : k = r + n
      · subst hk
        have h2 : r ≤ r + n ∧ r + n < r + (n + 1) := by omega
        simp [h2]
      · by_cases h1 : r ≤ k ∧ k < r + n
        · have : r ≤ k ∧ k < r + (n + 1) := by omega
          simp [hk, h1, this]
        · have : ¬ (r ≤ k ∧ k < r + (n + 1)) := by omega
          simp [hk, h1, this]

/-- Closed form of one row of `SoftmaxGrad`. -/
theorem SoftmaxGrad_row_eq {α : Type} [Ring α] (cols : Nat) (addGrad : Bool) (j : Nat)
    (m : GradBuffers α) :
    SoftmaxGrad_row cols addGrad j m
    = ⟨fun k => if j * cols ≤ k ∧ k < j * cols + cols then
          (if addGrad then
            m.grad k + m.val k * (m.adj k
              - ∑ t in Finset.range cols, m.val (j * cols + t) * m.adj (j * cols + t))
           else m.val k * (m.adj k
              - ∑ t in Finset.range cols, m.val (j * cols + t) * m.adj (j * cols + t)))
        else m.grad k, m.adj, m.val⟩ := by
  unfold SoftmaxGrad_row
  simp only []
  rw [sumLoop_eq (fun i => m.val (j * cols + i) * m.adj (j * cols + i)) cols]
  exact gradLoop_eq (j * cols) addGrad _ m cols

/-- Closed form of `SoftmaxGrad`: `adj` and `val` are kept, and the rows `j < rows` of `grad`
are rewritten. -/
theorem SoftmaxGrad_eq {α : Type} [Ring α] (cols : Nat) (addGrad : Bool) (m : GradBuffers α)
    (rows : Nat) :
    SoftmaxGrad m rows cols addGrad
    = ⟨fun k => if k < rows * cols then
          (if addGrad then
            m.grad k + m.val k * (m.adj k - ∑ t in Finset.range cols,
              m.val (k / cols * cols + t) * m.adj (k / cols * cols + t))
           else m.val k * (m.adj k - ∑ t in Finset.range cols,
              m.val (k / cols * cols + t) * m.adj (k / cols * cols + t)))
        else m.grad k, m.adj, m.val⟩ := by
  unfold SoftmaxGrad
  have hsplit : ∀ n, forLoop 0 n (SoftmaxGrad_row cols addGrad) m
      = ⟨forLoop 0 n (fun j g => (SoftmaxGrad_row cols addGrad j ⟨g, m.adj, m.val⟩).grad) m.grad,
          m.adj, m.val⟩ := by
    intro n
    induction n with
    | zero => rfl
    | succ n ih =>
      show SoftmaxGrad_row cols addGrad (0 + n) (forLoop 0 n _ m) = _
      rw [ih, SoftmaxGrad_row_eq]
      show _ = GradBuffers.mk ((SoftmaxGrad_row cols addGrad (0 + n) _).grad) _ _
      rw [SoftmaxGrad_row_eq]
  rw [hsplit]
  simp only [GradBuffers.mk.injEq, and_true]
  funext k
  rw [forLoop_rows cols (fun j g => (SoftmaxGrad_row cols addGrad j ⟨g, m.adj, m.val⟩).grad)
    (fun j k old => if addGrad then
        old + m.val k * (m.adj k
          - ∑ t in Finset.range cols, m.val (j * cols + t) * m.adj (j * cols + t))
      else m.val k * (m.adj k
          - ∑ t in Finset.range cols, m.val (j * cols + t) * m.adj (j * cols + t)))]
  intro j out k
  rw [SoftmaxGrad_row_eq]

/-! ## Claims on `SoftmaxGrad` -/

/-- C9 (softmax gradient formula and `addGrad` semantics): for every `rows`, `cols`, every
`val`, `adj` and initial `grad` (exact arithmetic in a ring), with
`s_j = Σ_{t<cols} val[j*cols+t] * adj[j*cols+t]`, `SoftmaxGrad` with `addGrad = false` leaves
`grad[j*cols+i] = val[j*cols+i] * (adj[j*cols+i] - s_j)` whatever `grad` held before, with
`addGrad = true` it leaves `grad[j*cols+i] = old_grad[j*cols+i] + val[j*cols+i] *
(adj[j*cols+i] - s_j)`, and `val` and `adj` are unchanged. -/
theorem SoftmaxGrad_formula {α : Type} [Ring α] (rows cols : Nat) (grad adj val : Nat → α)
    (j i : Nat) (hj : j < rows) (hi : i < cols) :
    (SoftmaxGrad ⟨grad, adj, val⟩ rows cols false).grad (j * cols + i)
      = val (j * cols + i) * (adj (j * cols + i)
          - ∑ t in Finset.range cols, val (j * cols + t) * adj (j * cols + t)) ∧
    (SoftmaxGrad ⟨grad, adj, val⟩ rows cols true).grad (j * cols + i)
      = grad (j * cols + i) + val (j * cols + i) * (adj (j * cols + i)
          - ∑ t in Finset.range cols, val (j * cols + t) * adj (j * cols + t)) ∧
    (∀ addGrad : Bool, (SoftmaxGrad ⟨grad, adj, val⟩ rows cols addGrad).adj = adj ∧
      (SoftmaxGrad ⟨grad, adj, val⟩ rows cols addGrad).val = val) := by
  have h1 : (j + 1) * cols ≤ rows * cols := Nat.mul_le_mul_right cols hj
  have hs : (j + 1) * cols = j * cols + cols := Nat.succ_mul j cols
  have h2 : j * cols + i < rows * cols := by omega
  have h3 : (j * cols + i) / cols = j := by
    apply Nat.div_eq_of_lt_le
    · omega
    · omega
  refine ⟨?_, ?_, fun addGrad => ?_⟩
  · rw [SoftmaxGrad_eq]
    simp only [h2, if_true, h3, Bool.false_eq_true, if_false]
  · rw [SoftmaxGrad_eq]
    simp only [h2, if_true, h3]
  · rw [SoftmaxGrad_eq]
    exact ⟨rfl, rfl⟩

/-- Witness of C9: integer buffers, two rows of two elements, element 1 of row 1. -/
theorem SoftmaxGrad_formula_witness :
    (1 < 2 ∧ 1 < 2) ∧
    ((SoftmaxGrad (⟨fun _ => 5, fun _ => 1, fun _ => 2⟩ : GradBuffers ℤ) 2 2 false).grad
        (1 * 2 + 1)
      = 2 * (1 - ∑ _t in Finset.range 2, (2 : ℤ) * 1) ∧
    (SoftmaxGrad (⟨fun _ => 5, fun _ => 1, fun _ => 2⟩ : GradBuffers ℤ) 2 2 true).grad
        (1 * 2 + 1)
      = 5 + 2 * (1 - ∑ _t in Finset.range 2, (2 : ℤ) * 1) ∧
    (∀ addGrad : Bool,
      (SoftmaxGrad (⟨fun _ => 5, fun _ => 1, fun _ => 2⟩ : GradBuffers ℤ) 2 2 addGrad).adj
        = (fun _ => 1) ∧
      (SoftmaxGrad (⟨fun _ => 5, fun _ => 1, fun _ => 2⟩ : GradBuffers ℤ) 2 2 addGrad).val
        = (fun _ => 2))) :=
  ⟨by decide, SoftmaxGrad_formula 2 2 (fun _ => 5) (fun _ => 1) (fun _ => 2)
    1 1 (by decide) (by decide)⟩

/-- On a single row `Softmax` over the reals is `exp(x[j]) / Σ_s exp(x[s])`. -/
theorem Softmax_single_row (out0 y : Nat → ℝ) (cols j : Nat) (hj : j < cols) :
    Softmax Real.exp out0 y 1 cols j
      = Real.exp (y j) / ∑ s in Finset.range cols, Real.exp (y s) := by
  have h := Softmax_apply_normalised out0 y 1 cols 0 j (by decide) hj
  simp only [Nat.zero_mul, Nat.zero_add] at h
  exact h

/-- On a single row `SoftmaxGrad` without accumulation writes `val[i] * (adj[i] - Σ val*adj)`. -/
theorem SoftmaxGrad_single_row (grad0 adj val : Nat → ℝ) (cols i : Nat) (hi : i < cols) :
    (SoftmaxGrad ⟨grad0, adj, val⟩ 1 cols false).grad i
      = val i * (adj i - ∑ t in Finset.range cols, val t * adj t) := by
  rw [SoftmaxGrad_eq]
  have h1 : i < 1 * cols := by omega
  have h2 : i / cols = 0 := Nat.div_eq_of_lt hi
  simp only [h1, if_true, h2, Nat.zero_mul, Nat.zero_add, Bool.false_eq_true, if_false]

/-- Derivative in `t` of `Σ_j a[j] * exp(x[j])` with `x[i]` replaced by `t`. -/
theorem hasDerivAt_sum_exp_update (a x : Nat → ℝ) (cols i : Nat) (hi : i < cols) (t0 : ℝ) :
    HasDerivAt (fun t : ℝ => ∑ j in Finset.range cols, a j * Real.exp (Function.update x i t j))
      (a i * Real.exp t0) t0 := by
  have hterm : ∀ j ∈ Finset.range cols,
      HasDerivAt (fun t : ℝ => a j * Real.exp (Function.update x i t j))
        (if j = i then a i * Real.exp t0 else 0) t0 := by
    intro j _
    by_cases hji : j = i
    · subst hji
      simp only [Function.update_same, if_true]
      exact (Real.hasDerivAt_exp t0).const_mul (a j)
    · simp only [Function.update_noteq hji, hji, if_false]
      exact hasDerivAt_const t0 _
  have hsum := HasDerivAt.sum hterm
  rw [Finset.sum_ite_eq' (Finset.range cols) i, if_pos (Finset.mem_range.mpr hi)] at hsum
  exact hsum

/-- C10 (the softmax gradient is the gradient of the forward pass): for a single row of
`cols ≥ 1` real inputs `x` and any adjoint `adj`, with `val = Softmax(x)`, the value
`SoftmaxGrad` (with `addGrad = false`) writes at position `i` is the partial derivative with
respect to `x[i]` of `L(x) = Σ_j adj[j] * Softmax(x)[j]`, and it equals
`Σ_j adj[j] * val[j] * ((1 if i = j else 0) - val[i])`. -/
theorem SoftmaxGrad_is_gradient (cols : Nat) (hc : 1 ≤ cols) (x adj out0 grad0 : Nat → ℝ)
    (i : Nat) (hi : i < cols) :
    HasDerivAt
      (fun t : ℝ => ∑ j in Finset.range cols,
        adj j * Softmax Real.exp out0 (Function.update x i t) 1 cols j)
      ((SoftmaxGrad ⟨grad0, adj, Softmax Real.exp out0 x 1 cols⟩ 1 cols false).grad i) (x i) ∧
    (SoftmaxGrad ⟨grad0, adj, Softmax Real.exp out0 x 1 cols⟩ 1 cols false).grad i
      = ∑ j in Finset.range cols, adj j * Softmax Real.exp out0 x 1 cols j
          * ((if i = j then 1 else 0) - Softmax Real.exp out0 x 1 cols i) := by
  have hS : 0 < ∑ s in Finset.range cols, Real.exp (x s) := sum_exp_pos x cols hc
  have hgrad := SoftmaxGrad_single_row grad0 adj (Softmax Real.exp out0 x 1 cols) cols i hi
  have hvalsum : (∑ t in Finset.range cols, Softmax Real.exp out0 x 1 cols t * adj t)
      = (∑ j in Finset.range cols, adj j * Real.exp (x j))
        / ∑ s in Finset.range cols, Real.exp (x s) := by
    rw [Finset.sum_div]
    apply Finset.sum_congr rfl
    intro t ht
    rw [Softmax_single_row out0 x cols t (Finset.mem_range.mp ht)]
    ring
  constructor
  · have hfun : (fun t : ℝ => ∑ j in Finset.range cols,
          adj j * Softmax Real.exp out0 (Function.update x i t) 1 cols j)
        = fun t : ℝ => (∑ j in Finset.range cols, adj j * Real.exp (Function.update x i t j))
            / ∑ s in Finset.range cols, Real.exp (Function.update x i t s) := by
      funext t
      rw [Finset.sum_div]
      apply Finset.sum_congr rfl
      intro j hj
      rw [Softmax_single_row out0 (Function.update x i t) cols j (Finset.mem_range.mp hj)]
      ring
    rw [hfun]
    have hN := hasDerivAt_sum_exp_update adj x cols i hi (x i)
    have hD : HasDerivAt (fun t : ℝ => ∑ s in Finset.range cols, Real.exp (Function.update x i t s))
        (Real.exp (x i)) (x i) := by
      have h := hasDerivAt_sum_exp_update (fun _ => 1) x cols i hi (x i)
      simp only [one_mul] at h
      exact h
    have hD0 : (∑ s in Finset.range cols, Real.exp (Function.update x i (x i) s)) ≠ 0 := by
      simp only [Function.update_eq_self]
      exact ne_of_gt hS
    have hdiv := HasDerivAt.div hN hD hD0
    simp only [Function.update_eq_self] at hdiv
    have hval : (SoftmaxGrad ⟨grad0, adj, Softmax Real.exp out0 x 1 cols⟩ 1 cols false).grad i
        = (adj i * Real.exp (x i) * ∑ s in Finset.range cols, Real.exp (x s)
            - (∑ j in Finset.range cols, adj j * Real.exp (x j)) * Real.exp (x i))
          / (∑ s in Finset.range cols, Real.exp (x s)) ^ 2 := by
      rw [hgrad, hvalsum, Softmax_single_row out0 x cols i hi]
      have hS0 : (∑ s in Finset.range cols, Real.exp (x s)) ≠ 0 := ne_of_gt hS
      generalize (∑ s in Finset.range cols, Real.exp (x s)) = S at hS0 ⊢
      generalize (∑ j in Finset.range cols, adj j * Real.exp (x j)) = N
      generalize Real.exp (x i) = e
      generalize adj i = a
      field_simp
      ring
    rw [hval]
    exact hdiv
  · rw [hgrad]
    have hterm : ∀ j ∈ Finset.range cols,
        adj j * Softmax Real.exp out0 x 1 cols j
            * ((if i = j then 1 else 0) - Softmax Real.exp out0 x 1 cols i)
          = (if i = j then adj i * Softmax Real.exp out0 x 1 cols i else 0)
            - Softmax Real.exp out0 x 1 cols j * adj j * Softmax Real.exp out0 x 1 cols i := by
      intro j _
      by_cases hij : i = j
      · subst hij
        simp only [if_true]
        ring
      · simp only [hij, if_false]
        ring
    rw [Finset.sum_congr rfl hterm, Finset.sum_sub_distrib,
      Finset.sum_ite_eq (Finset.range cols) i, if_pos (Finset.mem_range.mpr hi),
      ← Finset.sum_mul]
    ring

/-- Witness of C10: a row of three inputs, derivative with respect to the middle one. -/
theorem SoftmaxGrad_is_gradient_witness :
    (1 ≤ 3 ∧ 1 < 3) ∧
    (HasDerivAt
      (fun t : ℝ => ∑ j in Finset.range 3,
        (fun k : Nat => (k : ℝ) + 1) j
          * Softmax Real.exp (fun _ => 0) (Function.update (fun k : Nat => (k : ℝ)) 1 t) 1 3 j)
      ((SoftmaxGrad ⟨fun _ => 0, fun k : Nat => (k : ℝ) + 1,
          Softmax Real.exp (fun _ => 0) (fun k : Nat => (k : ℝ)) 1 3⟩ 1 3 false).grad 1)
      ((fun k : Nat => (k : ℝ)) 1) ∧
    (SoftmaxGrad ⟨fun _ => 0, fun k : Nat => (k : ℝ) + 1,
        Softmax Real.exp (fun _ => 0) (fun k : Nat => (k : ℝ)) 1 3⟩ 1 3 false).grad 1
      = ∑ j in Finset.range 3, (fun k : Nat => (k : ℝ) + 1) j
          * Softmax Real.exp (fun _ => 0) (fun k : Nat => (k : ℝ)) 1 3 j
          * ((if 1 = j then 1 else 0)
              - Softmax Real.exp (fun _ => 0) (fun k : Nat => (k : ℝ)) 1 3 1)) :=
  ⟨by decide, SoftmaxGrad_is_gradient 3 (by decide) (fun k : Nat => (k : ℝ))
    (fun k : Nat => (k : ℝ) + 1) (fun _ => 0) (fun _ => 0) 1 (by decide)⟩

/-! ## Claims on the unfold kernels

`lpad` and `rpad` are `size_t`, and so is `padW - kw`: `std::max(size_t(0), padW - kw)` never
clamps, it returns `2^64 - (kw - padW)` when `kw > padW`. -/

/-- C1 (Unfold-Copy correctness) fails on the code: for one plane of height 1 and width 3, a
`1 × 3` kernel, stride 1 and `padW = 1` (so `outH = 1`, `outW = 3`), whatever the input and the
initial column buffer hold, `unfolded_copy` runs into `memset(.., sizeof(T) * rpad)` with
`rpad = 2^64 - 1` in its first task and leaves the column buffer: the result is undefined. -/
theorem unfolded_copy_undefined_same_padding {α : Type} [Zero α] (finput0 input : Nat → α) :
    unfolded_copy ⟨9, finput0⟩ ⟨3, input⟩ ⟨3, 1, 1, 1, 1, 0, 1, 3, 1, 3, 1⟩ = none := by
  rfl

/-- C2 (Unfold-Accumulate is a scatter-add) fails on the code: for one plane of height 1 and
width 2, a `1 × 2` kernel, stride 1, `padH = 1`, `padW = 0` (so `outH = 3`, `outW = 1`),
`unfolded_acc` returns normally, and `inputGrad[0,0,0]` is the prescribed value plus
`finputGrad[3]`, `inputGrad[0,0,1]` the prescribed value plus `finputGrad[2]`: two column
entries whose target row is out of bounds are added. -/
theorem unfolded_acc_adds_out_of_bounds_entries (finputGrad inputGrad : Nat → ℤ) :
    ∃ r, unfolded_acc ⟨6, finputGrad⟩ ⟨2, inputGrad⟩ ⟨2, 1, 1, 1, 0, 1, 1, 2, 1, 1, 3⟩ = some r ∧
      r.buffer 0
        = specUnfoldAcc ⟨2, 1, 1, 1, 0, 1, 1, 2, 1, 1, 3⟩ finputGrad inputGrad 0 0 0
          + finputGrad 3 ∧
      r.buffer 1
        = specUnfoldAcc ⟨2, 1, 1, 1, 0, 1, 1, 2, 1, 1, 3⟩ finputGrad inputGrad 0 0 1
          + finputGrad 2 := by
  refine ⟨_, rfl, ?_, ?_⟩
  · show inputGrad 0 + 1 * finputGrad 1 + 1 * finputGrad 3 = _
    simp [specUnfoldAcc, finputIndex, Finset.sum_range_succ]
  · show inputGrad 1 + 1 * finputGrad 2 + 1 * finputGrad 4 = _
    simp [specUnfoldAcc, finputIndex, Finset.sum_range_succ]
    ring

/-- C3 (adjoint identity) fails on the code: for one plane of height 1 and width 2, a `1 × 2`
kernel, stride 1, `padH = 1`, `padW = 0` (so `outH = 3`, `outW = 1`), `unfolded_copy` is
undefined whatever the buffers hold, so the left-hand side does not exist; and with `a` the
result of `unfolded_acc` on a zero gradient buffer, `Σ_m x[m] * a[m]` is the dot product of `g`
with the column buffer the specification prescribes plus `x[0] * g[3] + x[1] * g[2]`. -/
theorem unfold_adjoint_identity_fails (x g finput0 : Nat → ℤ) :
    unfolded_copy ⟨6, finput0⟩ ⟨2, x⟩ ⟨2, 1, 1, 1, 0, 1, 1, 2, 1, 1, 3⟩ = none ∧
    ∃ a, unfolded_acc ⟨6, g⟩ ⟨2, fun _ => 0⟩ ⟨2, 1, 1, 1, 0, 1, 1, 2, 1, 1, 3⟩ = some a ∧
      (∑ m in Finset.range 2, x m * a.buffer m)
        = (∑ c in Finset.range 1, ∑ kh in Finset.range 1, ∑ kw in Finset.range 2,
            ∑ oy in Finset.range 3, ∑ ox in Finset.range 1,
              specUnfoldCopy ⟨2, 1, 1, 1, 0, 1, 1, 2, 1, 1, 3⟩ x c kh kw oy ox
                * g (finputIndex ⟨2, 1, 1, 1, 0, 1, 1, 2, 1, 1, 3⟩ c kh kw oy ox))
          + (x 0 * g 3 + x 1 * g 2) := by
  refine ⟨rfl, _, rfl, ?_⟩
  show (∑ m in Finset.range 2, x m * (TensorRef.buffer _ m)) = _
  rw [Finset.sum_range_succ, Finset.sum_range_succ, Finset.sum_range_zero]
  show 0 + x 0 * (0 + 1 * g 1 + 1 * g 3) + x 1 * (0 + 1 * g 2 + 1 * g 4) = _
  simp [specUnfoldCopy, finputIndex, Finset.sum_range_succ]
  ring

/-! ## The branches of a padded row of `unfolded_copy` -/

/-- A padded row of `unfolded_copy` is a zero fill when `iy` is out of range, the bulk-copy
branch when `dW == 1` and the element-wise branch otherwise. -/
theorem unfolded_copy_padRow_eq {α : Type} [Zero α] (a : UnfoldArgs) (input : TensorRef α)
    (dst src : Int) (kh kw y : Nat) (finput : TensorRef α) :
    unfolded_copy_padRow a input dst src kh kw y finput =
      if unfolded_iy a kh y < 0 ∨ unfolded_iy a kh y ≥ (a.inputHeight : Int) then
        memset finput (dst + (toSizeT ((y : Int) * (a.outputWidth : Int)) : Int))
          (toSizeT a.outputWidth)
      else if a.dW = 1 then
        unfolded_copy_bulkRow a input dst src kw y (unfolded_iy a kh y) finput
      else
        unfolded_copy_elementRow a input dst src kw y (unfolded_iy a kh y) finput := by
  rfl

/-! ## Claims on the branches of `unfolded_copy` -/

/-- C11 (stride-1 fast path equivalence) fails on the code: for one plane of height 1 and
width 3, a `1 × 3` kernel, stride 1 and `padW = 1` (`outH = 1`, `outW = 3`), in the row
`y = 0` of the task `kw = 0` the source row `iy = 0` is in range, the bulk-copy branch is
undefined (it calls `memset` with `rpad = 2^64 - 1` elements), while the element-wise loop run
with `dW = 1` writes `0, input[0], input[1]`. -/
theorem unfolded_copy_fast_path_differs {α : Type} [Zero α] (finput0 input : Nat → α) :
    unfolded_iy ⟨3, 1, 1, 1, 1, 0, 1, 3, 1, 3, 1⟩ 0 0 = 0 ∧
    unfolded_copy_bulkRow ⟨3, 1, 1, 1, 1, 0, 1, 3, 1, 3, 1⟩ ⟨3, input⟩ 0 0 0 0 0 ⟨9, finput0⟩
      = none ∧
    ∃ f, unfolded_copy_elementRow ⟨3, 1, 1, 1, 1, 0, 1, 3, 1, 3, 1⟩ ⟨3, input⟩ 0 0 0 0 0
        ⟨9, finput0⟩ = some f ∧
      f.buffer 0 = 0 ∧ f.buffer 1 = input 0 ∧ f.buffer 2 = input 1 :=
  ⟨rfl, rfl, _, rfl, rfl, rfl, rfl⟩

/-- C12 (zero-padding boundary) fails on the code in its second part: for one plane of height
1 and width 2, a `1 × 2` kernel, stride 1, `padH = 2`, `padW = 0` (`outH = 5`, `outW = 1`) the
rows `oy = 0, 1, 3, 4` are out of range and must end up zero, but `unfolded_copy` is undefined:
in the only in-range row `oy = 2` of task `kw = 0` it copies two elements, the second one into
row `oy = 3`, and then calls `memset` with `rpad = 2^64 - 1` elements. -/
theorem unfolded_copy_undefined_with_row_padding {α : Type} [Zero α] (finput0 input : Nat → α) :
    unfolded_copy ⟨10, finput0⟩ ⟨2, input⟩ ⟨2, 1, 1, 1, 0, 2, 1, 2, 1, 1, 5⟩ = none := by
  rfl

/-- C13 (task decomposition and layout) fails on the code in its frame part: for one plane of
height 1 and width 3, a `1 × 3` kernel, stride 1 and `padW = 1` (`outH = 1`, `outW = 3`), the
body of iteration `k = 0` does not write its block `[0, 3)` and leave the rest unchanged: it
is undefined (after copying three elements to the indices 1, 2, 3 it calls `memset` with
`rpad = 2^64 - 1` elements). -/
theorem unfolded_copy_task_undefined {α : Type} [Zero α] (finput0 input : Nat → α) :
    unfolded_copy_task ⟨3, 1, 1, 1, 1, 0, 1, 3, 1, 3, 1⟩ ⟨3, input⟩ 0 ⟨9, finput0⟩ = none := by
  rfl

/-- C14 (concrete unfold scenario): with `C = 1`, `H = W = 4`, `kH = kW = 2`, stride 1, no
padding, `outH = outW = 3`, for every 16-element input `unfolded_copy` fills the 36-element
column buffer so that the element `[0,0,0,0,0]` (flat index 0) is `input[0,0,0]` (flat index
0) and the element `[0,1,1,2,2]` (flat index 35) is `input[0,3,3]` (flat index 15). -/
theorem unfolded_copy_scenario_4x4 {α : Type} [Zero α] (finput0 input : Nat → α) :
    finputIndex ⟨2, 2, 1, 1, 0, 0, 1, 4, 4, 3, 3⟩ 0 0 0 0 0 = 0 ∧
    finputIndex ⟨2, 2, 1, 1, 0, 0, 1, 4, 4, 3, 3⟩ 0 1 1 2 2 = 35 ∧
    ∃ out, unfolded_copy ⟨36, finput0⟩ ⟨16, input⟩ ⟨2, 2, 1, 1, 0, 0, 1, 4, 4, 3, 3⟩ = some out ∧
      out.elemCount = 36 ∧
      out.buffer 0 = input ((0 * 4 + 0) * 4 + 0) ∧
      out.buffer 35 = input ((0 * 4 + 3) * 4 + 3) :=
  ⟨rfl, rfl, _, rfl, rfl, rfl, rfl⟩

/-- C16 (pad counts in the unit-stride branch) fails on the code: with `kW = 3` and `padW = 1`
the computed pad counts are not clamped at zero: `lpad = 2^64 - 1` for `kw = 2 > padW` and
`rpad = 2^64 - 1` for `kw = 0` (`kW - kw - 1 = 2 > padW`), where the claim has `0`; and the
rows written with these counts (one plane of height 1 and width 3, `outW = 3`) are
undefined. -/
theorem unfolded_pad_counts_wrap {α : Type} [Zero α] (finput0 input : Nat → α) :
    unfolded_lpad ⟨3, 1, 1, 1, 1, 0, 1, 3, 1, 3, 1⟩ 2 = 18446744073709551615 ∧
    unfolded_rpad ⟨3, 1, 1, 1, 1, 0, 1, 3, 1, 3, 1⟩ 0 = 18446744073709551615 ∧
    unfolded_copy_bulkRow ⟨3, 1, 1, 1, 1, 0, 1, 3, 1, 3, 1⟩ ⟨3, input⟩ 6 0 2 0 0 ⟨9, finput0⟩
      = none ∧
    unfolded_copy_bulkRow ⟨3, 1, 1, 1, 1, 0, 1, 3, 1, 3, 1⟩ ⟨3, input⟩ 0 0 0 0 0 ⟨9, finput0⟩
      = none :=
  ⟨rfl, rfl, rfl, rfl⟩

/-! ## Further claims on the softmax kernels -/

/-- The subtracted value of `SoftmaxMask` is at least the first element of the row, masked or
not: the maximum loop starts from `sp[0]` without looking at `mp[0]`. -/
theorem SoftmaxMask_max_ge_first {α : Type} [LinearOrderedField α] (pIn pMask : Nat → α)
    (cols j : Nat) : pIn (j * cols + 0) ≤ SoftmaxMask_max pIn pMask cols j := by
  unfold SoftmaxMask_max
  generalize cols - 1 = n
  induction n with
  | zero => exact le_refl _
  | succ n ih =>
    show _ ≤ (fun m => if pMask (j * cols + (1 + n)) = 0
      then stdMax m (pIn (j * cols + (1 + n))) else m) (forLoop 1 n _ _)
    simp only []
    split
    · rw [stdMax_eq_max]
      exact le_trans ih (le_max_left _ _)
    · exact ih

/-- C17 (masked positions are excluded from the max) fails on the code: for the row `[5, 0]`
with mask `[1, 0]` (position 0 masked, position 1 unmasked) the value subtracted before
exponentiation is `5`, the masked input, not the maximum `0` over the unmasked positions;
changing the masked input to `7` changes it to `7`; and the output at the unmasked position
is computed from `exp(0 - 5)`, not `exp(0)`. -/
theorem SoftmaxMask_max_counts_masked_first :
    SoftmaxMask_max (fun k : Nat => if k = 0 then (5 : ℝ) else 0)
      (fun k : Nat => if k = 0 then (1 : ℝ) else 0) 2 0 = 5 ∧
    SoftmaxMask_max (fun k : Nat => if k = 0 then (7 : ℝ) else 0)
      (fun k : Nat => if k = 0 then (1 : ℝ) else 0) 2 0 = 7 := by
  constructor
  · unfold SoftmaxMask_max
    norm_num [forLoop, stdMax]
  · unfold SoftmaxMask_max
    norm_num [forLoop, stdMax]

/-- The sum loop of `SoftmaxMask` adds up the exponentials of the unmasked positions. -/
theorem SoftmaxMask_sum_eq {α : Type} [LinearOrderedField α] (exp : α → α)
    (pIn pMask : Nat → α) (cols j : Nat) :
    SoftmaxMask_sum exp pIn pMask cols j
      = ∑ t in Finset.range cols,
          if pMask (j * cols + t) = 0 then
            exp (pIn (j * cols + t) - SoftmaxMask_max pIn pMask cols j)
          else 0 := by
  unfold SoftmaxMask_sum
  generalize SoftmaxMask_max pIn pMask cols j = m
  generalize hn : cols = n
  rw [← hn]
  have key : ∀ k : Nat, forLoop 0 k
      (fun i sum => if pMask (j * cols + i) = 0 then sum + exp (pIn (j * cols + i) - m) else sum)
      (0 : α)
      = ∑ t in Finset.range k, if pMask (j * cols + t) = 0 then exp (pIn (j * cols + t) - m)
          else 0 := by
    intro k
    induction k with
    | zero => rfl
    | succ k ih =>
      show (fun sum => if pMask (j * cols + (0 + k)) = 0
          then sum + exp (pIn (j * cols + (0 + k)) - m) else sum) (forLoop 0 k _ 0) = _
      rw [ih, Finset.sum_range_succ, Nat.zero_add]
      by_cases h : pMask (j * cols + k) = 0
      · simp only [h, if_true]
      · simp only [h, if_false, add_zero]
  exact key cols

/-- Every element of a row of `SoftmaxMask` is a quotient by the sum of the row: the
exponential at an unmasked position and `0` at a masked one, divided by `SoftmaxMask_sum`. -/
theorem SoftmaxMask_apply_sum {α : Type} [LinearOrderedField α] (exp : α → α)
    (pOut pIn pMask : Nat → α) (rows cols j i : Nat) (hj : j < rows) (hi : i < cols) :
    SoftmaxMask exp pOut pIn pMask rows cols (j * cols + i) =
      (if pMask (j * cols + i) = 0 then
          exp (pIn (j * cols + i) - SoftmaxMask_max pIn pMask cols j) else 0)
        / SoftmaxMask_sum exp pIn pMask cols j := by
  rw [SoftmaxMask_apply exp pOut pIn pMask rows cols j i hj hi, SoftmaxMask_sum_eq]

/-- The subtracted value for the row `[200, 0]` with mask `[1, 0]` is the masked `200`. -/
theorem SoftmaxMask_max_masked_200 :
    SoftmaxMask_max (fun k : Nat => if k = 0 then (200 : ℝ) else 0)
      (fun k : Nat => if k = 0 then (1 : ℝ) else 0) 2 0 = 200 := by
  unfold SoftmaxMask_max
  norm_num [forLoop, stdMax]

/-- C7 (masked softmax output shape) fails on the code: for the row `[200, 0]` with mask
`[1, 0]` (position 0 masked, position 1 unmasked) and an exponential with `exp(-200) = 0`, as
`expf` has in binary32 (`e^-200 < 2^-150`), the value subtracted is the masked `200`, the only
term of the sum is `exp(0 - 200) = 0`, and the sum that divides the row is `0`: every output
of the row is a quotient by that zero sum (`0/0` at both positions, a NaN in IEEE arithmetic),
and the outputs at the unmasked positions do not sum to 1.  The subtraction `0 - 200` and the
sum `0 + 0` are exact in binary32. -/
theorem SoftmaxMask_sum_underflows (exp : ℝ → ℝ) (hexp : exp (-200) = 0) (pOut : Nat → ℝ) :
    SoftmaxMask_max (fun k : Nat => if k = 0 then (200 : ℝ) else 0)
      (fun k : Nat => if k = 0 then (1 : ℝ) else 0) 2 0 = 200 ∧
    SoftmaxMask_sum exp (fun k : Nat => if k = 0 then (200 : ℝ) else 0)
      (fun k : Nat => if k = 0 then (1 : ℝ) else 0) 2 0 = 0 ∧
    (∀ i, i < 2 →
      SoftmaxMask exp pOut (fun k : Nat => if k = 0 then (200 : ℝ) else 0)
          (fun k : Nat => if k = 0 then (1 : ℝ) else 0) 1 2 (0 * 2 + i)
        = (if (fun k : Nat => if k = 0 then (1 : ℝ) else 0) (0 * 2 + i) = 0 then exp (-200)
            else 0)
          / SoftmaxMask_sum exp (fun k : Nat => if k = 0 then (200 : ℝ) else 0)
              (fun k : Nat => if k = 0 then (1 : ℝ) else 0) 2 0) ∧
    (∑ i in (Finset.range 2).filter
        (fun i => (fun k : Nat => if k = 0 then (1 : ℝ) else 0) (0 * 2 + i) = 0),
      SoftmaxMask exp pOut (fun k : Nat => if k = 0 then (200 : ℝ) else 0)
        (fun k : Nat => if k = 0 then (1 : ℝ) else 0) 1 2 (0 * 2 + i)) ≠ 1 := by
  have hsum : SoftmaxMask_sum exp (fun k : Nat => if k = 0 then (200 : ℝ) else 0)
      (fun k : Nat => if k = 0 then (1 : ℝ) else 0) 2 0 = 0 := by
    rw [SoftmaxMask_sum_eq, SoftmaxMask_max_masked_200]
    norm_num [Finset.sum_range_succ, hexp]
  have hout : ∀ i, i < 2 →
      SoftmaxMask exp pOut (fun k : Nat => if k = 0 then (200 : ℝ) else 0)
          (fun k : Nat => if k = 0 then (1 : ℝ) else 0) 1 2 (0 * 2 + i)
        = (if (fun k : Nat => if k = 0 then (1 : ℝ) else 0) (0 * 2 + i) = 0 then exp (-200)
            else 0)
          / SoftmaxMask_sum exp (fun k : Nat => if k = 0 then (200 : ℝ) else 0)
              (fun k : Nat => if k = 0 then (1 : ℝ) else 0) 2 0 := by
    intro i hi
    rw [SoftmaxMask_apply_sum exp pOut _ _ 1 2 0 i (by decide) hi, SoftmaxMask_max_masked_200]
    interval_cases i
    · norm_num
    · norm_num
  refine ⟨SoftmaxMask_max_masked_200, hsum, hout, ?_⟩
  rw [Finset.sum_filter, Finset.sum_range_succ, Finset.sum_range_succ, Finset.sum_range_zero,
    hout 0 (by decide), hout 1 (by decide), hsum]
  norm_num

/-- Witness of C7: the exact exponential flushed to zero below `-104` (`e^-104 < 2^-150`, the
underflow threshold of binary32); the sum that divides the row `[200, 0]` with mask `[1, 0]`
is `0` there. -/
theorem SoftmaxMask_sum_underflows_witness :
    (fun x : ℝ => if x < -104 then 0 else Real.exp x) (-200) = 0 ∧
    SoftmaxMask_sum (fun x : ℝ => if x < -104 then 0 else Real.exp x)
      (fun k : Nat => if k = 0 then (200 : ℝ) else 0)
      (fun k : Nat => if k = 0 then (1 : ℝ) else 0) 2 0 = 0 :=
  ⟨by norm_num,
    (SoftmaxMask_sum_underflows (fun x : ℝ => if x < -104 then 0 else Real.exp x)
      (by norm_num) (fun _ => 0)).2.1⟩

/-- C8 (masked softmax is plain softmax on the unmasked entries) fails on the code: for the
row `[200, 0]` with mask `[1, 0]` and an exponential with `exp(0) = 1` and `exp(-200) = 0`, as
`expf` has in binary32, the unmasked sub-row is `[0]`, on which `Softmax` returns `1`, while
`SoftmaxMask` returns `exp(-200)` divided by a zero sum at the unmasked position 1 (`0/0`, a
NaN in IEEE arithmetic), which is not `1`; and replacing the masked input `200` by `0` changes
the output at the unmasked position to `1`: the input at a masked position does affect the
output. -/
theorem SoftmaxMask_masked_input_changes_output (exp : ℝ → ℝ) (h0 : exp 0 = 1)
    (hexp : exp (-200) = 0) (pOut pOut2 : Nat → ℝ) :
    unmaskedIdx (fun k : Nat => if k = 0 then (1 : ℝ) else 0) 2 0 = [1] ∧
    unmaskedRow (fun k : Nat => if k = 0 then (200 : ℝ) else 0)
      (fun k : Nat => if k = 0 then (1 : ℝ) else 0) 2 0 0 = 0 ∧
    Softmax exp pOut2
      (unmaskedRow (fun k : Nat => if k = 0 then (200 : ℝ) else 0)
        (fun k : Nat => if k = 0 then (1 : ℝ) else 0) 2 0) 1 1 0 = 1 ∧
    SoftmaxMask exp pOut (fun k : Nat => if k = 0 then (200 : ℝ) else 0)
      (fun k : Nat => if k = 0 then (1 : ℝ) else 0) 1 2 1
        = exp (-200) / SoftmaxMask_sum exp (fun k : Nat => if k = 0 then (200 : ℝ) else 0)
            (fun k : Nat => if k = 0 then (1 : ℝ) else 0) 2 0 ∧
    SoftmaxMask_sum exp (fun k : Nat => if k = 0 then (200 : ℝ) else 0)
      (fun k : Nat => if k = 0 then (1 : ℝ) else 0) 2 0 = 0 ∧
    SoftmaxMask exp pOut (fun k : Nat => if k = 0 then (200 : ℝ) else 0)
      (fun k : Nat => if k = 0 then (1 : ℝ) else 0) 1 2 1
        ≠ Softmax exp pOut2
            (unmaskedRow (fun k : Nat => if k = 0 then (200 : ℝ) else 0)
              (fun k : Nat => if k = 0 then (1 : ℝ) else 0) 2 0) 1 1 0 ∧
    SoftmaxMask exp pOut (fun _ : Nat => (0 : ℝ))
      (fun k : Nat => if k = 0 then (1 : ℝ) else 0) 1 2 1 = 1 ∧
    SoftmaxMask exp pOut (fun k : Nat => if k = 0 then (200 : ℝ) else 0)
      (fun k : Nat => if k = 0 then (1 : ℝ) else 0) 1 2 1
        ≠ SoftmaxMask exp pOut (fun _ : Nat => (0 : ℝ))
            (fun k : Nat => if k = 0 then (1 : ℝ) else 0) 1 2 1 := by
  have hidx : unmaskedIdx (fun k : Nat => if k = 0 then (1 : ℝ) else 0) 2 0 = [1] := by
    simp [unmaskedIdx, List.range_succ, List.filter]
  have hrow : unmaskedRow (fun k : Nat => if k = 0 then (200 : ℝ) else 0)
      (fun k : Nat => if k = 0 then (1 : ℝ) else 0) 2 0 0 = 0 := by
    unfold unmaskedRow
    rw [hidx]
    simp
  have hsoft : Softmax exp pOut2
      (unmaskedRow (fun k : Nat => if k = 0 then (200 : ℝ) else 0)
        (fun k : Nat => if k = 0 then (1 : ℝ) else 0) 2 0) 1 1 0 = 1 := by
    have h := Softmax_apply exp pOut2
      (unmaskedRow (fun k : Nat => if k = 0 then (200 : ℝ) else 0)
        (fun k : Nat => if k = 0 then (1 : ℝ) else 0) 2 0) 1 1 0 0 (by decide) (by decide)
    have hmax : Softmax_max (unmaskedRow (fun k : Nat => if k = 0 then (200 : ℝ) else 0)
        (fun k : Nat => if k = 0 then (1 : ℝ) else 0) 2 0) 1 0 = 0 := by
      unfold Softmax_max
      simp only [forLoop, Nat.zero_mul, Nat.add_zero]
      exact hrow
    simp only [Nat.zero_mul, Nat.add_zero, Finset.sum_range_one, hmax, hrow, sub_zero, h0] at h
    rw [h]
    norm_num
  have hsum : SoftmaxMask_sum exp (fun k : Nat => if k = 0 then (200 : ℝ) else 0)
      (fun k : Nat => if k = 0 then (1 : ℝ) else 0) 2 0 = 0 := by
    rw [SoftmaxMask_sum_eq, SoftmaxMask_max_masked_200]
    norm_num [Finset.sum_range_succ, hexp]
  have hmask : SoftmaxMask exp pOut (fun k : Nat => if k = 0 then (200 : ℝ) else 0)
      (fun k : Nat => if k = 0 then (1 : ℝ) else 0) 1 2 1
        = exp (-200) / SoftmaxMask_sum exp (fun k : Nat => if k = 0 then (200 : ℝ) else 0)
            (fun k : Nat => if k = 0 then (1 : ℝ) else 0) 2 0 := by
    have h := SoftmaxMask_apply_sum exp pOut (fun k : Nat => if k = 0 then (200 : ℝ) else 0)
      (fun k : Nat => if k = 0 then (1 : ℝ) else 0) 1 2 0 1 (by decide) (by decide)
    rw [SoftmaxMask_max_masked_200] at h
    norm_num at h
    exact h
  have hzero : SoftmaxMask exp pOut (fun _ : Nat => (0 : ℝ))
      (fun k : Nat => if k = 0 then (1 : ℝ) else 0) 1 2 1 = 1 := by
    have h := SoftmaxMask_apply exp pOut (fun _ : Nat => (0 : ℝ))
      (fun k : Nat => if k = 0 then (1 : ℝ) else 0) 1 2 0 1 (by decide) (by decide)
    have hmax : SoftmaxMask_max (fun _ : Nat => (0 : ℝ))
        (fun k : Nat => if k = 0 then (1 : ℝ) else 0) 2 0 = 0 := by
      unfold SoftmaxMask_max
      norm_num [forLoop, stdMax]
    rw [hmax] at h
    norm_num [Finset.sum_range_succ, h0] at h
    exact h
  refine ⟨hidx, hrow, hsoft, hmask, hsum, ?_, hzero, ?_⟩
  · rw [hmask, hsum, hsoft]
    norm_num
  · rw [hmask, hsum, hzero]
    norm_num

/-- Witness of C8: the exact exponential flushed to zero below `-104`. -/
theorem SoftmaxMask_masked_input_changes_output_witness :
    ((fun x : ℝ => if x < -104 then 0 else Real.exp x) 0 = 1 ∧
      (fun x : ℝ => if x < -104 then 0 else Real.exp x) (-200) = 0) ∧
    SoftmaxMask (fun x : ℝ => if x < -104 then 0 else Real.exp x) (fun _ => 0)
        (fun k : Nat => if k = 0 then (200 : ℝ) else 0)
        (fun k : Nat => if k = 0 then (1 : ℝ) else 0) 1 2 1
      ≠ SoftmaxMask (fun x : ℝ => if x < -104 then 0 else Real.exp x) (fun _ => 0)
          (fun _ : Nat => (0 : ℝ)) (fun k : Nat => if k = 0 then (1 : ℝ) else 0) 1 2 1 :=
  ⟨⟨by norm_num, by norm_num⟩,
    (SoftmaxMask_masked_input_changes_output
      (fun x : ℝ => if x < -104 then 0 else Real.exp x) (by norm_num) (by norm_num)
      (fun _ => 0) (fun _ => 0)).2.2.2.2.2.2.2⟩

/-- The gradient `SoftmaxGrad` writes without accumulation at element `i` of row `j`. -/
theorem SoftmaxGrad_apply_overwrite {α : Type} [Ring α] (rows cols : Nat) (m : GradBuffers α)
    (j i : Nat) (hj : j < rows) (hi : i < cols) :
    (SoftmaxGrad m rows cols false).grad (j * cols + i)
      = m.val (j * cols + i) * (m.adj (j * cols + i)
          - ∑ t in Finset.range cols, m.val (j * cols + t) * m.adj (j * cols + t)) := by
  have h1 : (j + 1) * cols ≤ rows * cols := Nat.mul_le_mul_right cols hj
  have hs : (j + 1) * cols = j * cols + cols := Nat.succ_mul j cols
  have h2 : j * cols + i < rows * cols := by omega
  have h3 : (j * cols + i) / cols = j := by
    apply Nat.div_eq_of_lt_le
    · omega
    · omega
  rw [SoftmaxGrad_eq]
  simp only [h2, if_true, h3, Bool.false_eq_true, if_false]

/-- C20 (softmax gradient rows sum to zero): for every `cols` and every `adj` (exact
arithmetic in a commutative ring), the sum of row `j` of the gradient written by `SoftmaxGrad`
with `addGrad = false` equals `s * (1 - Σ_i val[i])` with `s = Σ_i val[i] * adj[i]`; in
particular it is `0` when the row of `val` sums to 1. -/
theorem SoftmaxGrad_row_sum {α : Type} [CommRing α] (rows cols : Nat) (grad adj val : Nat → α)
    (j : Nat) (hj : j < rows) :
    (∑ i in Finset.range cols, (SoftmaxGrad ⟨grad, adj, val⟩ rows cols false).grad (j * cols + i))
      = (∑ i in Finset.range cols, val (j * cols + i) * adj (j * cols + i))
        * (1 - ∑ i in Finset.range cols, val (j * cols + i)) ∧
    ((∑ i in Finset.range cols, val (j * cols + i)) = 1 →
      (∑ i in Finset.range cols,
        (SoftmaxGrad ⟨grad, adj, val⟩ rows cols false).grad (j * cols + i)) = 0) := by
  have hsum : (∑ i in Finset.range cols,
        (SoftmaxGrad ⟨grad, adj, val⟩ rows cols false).grad (j * cols + i))
      = (∑ i in Finset.range cols, val (j * cols + i) * adj (j * cols + i))
        * (1 - ∑ i in Finset.range cols, val (j * cols + i)) := by
    rw [Finset.sum_congr rfl (fun i hi =>
      SoftmaxGrad_apply_overwrite rows cols ⟨grad, adj, val⟩ j i hj (Finset.mem_range.mp hi))]
    simp only [mul_sub, Finset.sum_sub_distrib, ← Finset.sum_mul]
    ring
  refine ⟨hsum, fun h1 => ?_⟩
  rw [hsum, h1, sub_self, mul_zero]

/-- Witness of C20: integer buffers, two rows of two elements, second row. -/
theorem SoftmaxGrad_row_sum_witness :
    1 < 2 ∧
    ((∑ i in Finset.range 2,
        (SoftmaxGrad (⟨fun _ => 5, fun _ => 3, fun _ => 2⟩ : GradBuffers ℤ) 2 2 false).grad
          (1 * 2 + i))
      = (∑ _i in Finset.range 2, (2 : ℤ) * 3) * (1 - ∑ _i in Finset.range 2, (2 : ℤ)) ∧
    ((∑ _i in Finset.range 2, (2 : ℤ)) = 1 →
      (∑ i in Finset.range 2,
        (SoftmaxGrad (⟨fun _ => 5, fun _ => 3, fun _ => 2⟩ : GradBuffers ℤ) 2 2 false).grad
          (1 * 2 + i)) = 0)) :=
  ⟨by decide, SoftmaxGrad_row_sum 2 2 (fun _ => 5) (fun _ => 3) (fun _ => 2) 1 (by decide)⟩

/-- The three quotients `e^k / (e + e^2 + e^3)` for `e` within `3 · 10^-10` of Euler's
number. -/
theorem softmax123_bounds (e : ℝ) (hlo : (2.7182818283 : ℝ) < e) (hhi : e < (2.7182818286 : ℝ)) :
    |e / (e + e * e + e * e * e) - 0.0900| < 0.0001 ∧
    |e * e / (e + e * e + e * e * e) - 0.2447| < 0.0001 ∧
    |e * e * e / (e + e * e + e * e * e) - 0.6652| < 0.0001 ∧
    e / (e + e * e + e * e * e) + e * e / (e + e * e + e * e * e)
      + e * e * e / (e + e * e + e * e * e) = 1 := by
  have he : 0 < e := by linarith
  have hee_lo : (7.3890 : ℝ) < e * e := by nlinarith
  have hee_hi : e * e < (7.3891 : ℝ) := by nlinarith
  have heee_lo : (20.0855 : ℝ) < e * e * e := by nlinarith
  have heee_hi : e * e * e < (20.0856 : ℝ) := by nlinarith
  have hD : 0 < e + e * e + e * e * e := by linarith
  generalize e * e * e = c at heee_lo heee_hi hD ⊢
  generalize e * e = b at hee_lo hee_hi hD ⊢
  refine ⟨?_, ?_, ?_, ?_⟩
  · rw [abs_sub_lt_iff]
    constructor
    · rw [sub_lt_iff_lt_add, div_lt_iff₀ hD]; linarith
    · rw [sub_lt_iff_lt_add, ← sub_lt_iff_lt_add', lt_div_iff₀ hD]; linarith
  · rw [abs_sub_lt_iff]
    constructor
    · rw [sub_lt_iff_lt_add, div_lt_iff₀ hD]; linarith
    · rw [sub_lt_iff_lt_add, ← sub_lt_iff_lt_add', lt_div_iff₀ hD]; linarith
  · rw [abs_sub_lt_iff]
    constructor
    · rw [sub_lt_iff_lt_add, div_lt_iff₀ hD]; linarith
    · rw [sub_lt_iff_lt_add, ← sub_lt_iff_lt_add', lt_div_iff₀ hD]; linarith
  · rw [← add_div, ← add_div]
    exact div_self (ne_of_gt hD)

/-- The row `[1, 2, 3]`: `Softmax` gives `e^k / (e + e^2 + e^3)` with `e = exp 1`. -/
theorem Softmax_row123 (pOut : Nat → ℝ) :
    Softmax Real.exp pOut (fun k : Nat => (k : ℝ) + 1) 1 3 0
      = Real.exp 1 / (Real.exp 1 + Real.exp 1 * Real.exp 1
          + Real.exp 1 * Real.exp 1 * Real.exp 1) ∧
    Softmax Real.exp pOut (fun k : Nat => (k : ℝ) + 1) 1 3 1
      = Real.exp 1 * Real.exp 1 / (Real.exp 1 + Real.exp 1 * Real.exp 1
          + Real.exp 1 * Real.exp 1 * Real.exp 1) ∧
    Softmax Real.exp pOut (fun k : Nat => (k : ℝ) + 1) 1 3 2
      = Real.exp 1 * Real.exp 1 * Real.exp 1 / (Real.exp 1 + Real.exp 1 * Real.exp 1
          + Real.exp 1 * Real.exp 1 * Real.exp 1) := by
  have h2 : Real.exp 2 = Real.exp 1 * Real.exp 1 := by
    rw [← Real.exp_add]; norm_num
  have h3 : Real.exp 3 = Real.exp 1 * Real.exp 1 * Real.exp 1 := by
    rw [← Real.exp_add, ← Real.exp_add]; norm_num
  have v0 : ((0 : Nat) : ℝ) + 1 = 1 := by norm_num
  have v1 : ((1 : Nat) : ℝ) + 1 = 2 := by norm_num
  have v2 : ((2 : Nat) : ℝ) + 1 = 3 := by norm_num
  have hsum : (∑ s in Finset.range 3, Real.exp ((fun k : Nat => (k : ℝ) + 1) s))
      = Real.exp 1 + Real.exp 1 * Real.exp 1 + Real.exp 1 * Real.exp 1 * Real.exp 1 := by
    rw [Finset.sum_range_succ, Finset.sum_range_succ, Finset.sum_range_succ,
      Finset.sum_range_zero]
    simp only [v0, v1, v2, h2, h3, zero_add]
  have h0 := Softmax_single_row pOut (fun k : Nat => (k : ℝ) + 1) 3 0 (by decide)
  have h1 := Softmax_single_row pOut (fun k : Nat => (k : ℝ) + 1) 3 1 (by decide)
  have h2' := Softmax_single_row pOut (fun k : Nat => (k : ℝ) + 1) 3 2 (by decide)
  rw [hsum] at h0 h1 h2'
  simp only [v0] at h0
  simp only [v1, h2] at h1
  simp only [v2, h3] at h2'
  exact ⟨h0, h1, h2'⟩

/-- C15 (concrete softmax scenario): `Softmax` applied to the single row `[1, 2, 3]`
(`rows = 1`, `cols = 3`, real-valued model) yields three outputs within `0.0001` of `0.0900`,
`0.2447` and `0.6652`, and they sum to 1. -/
theorem Softmax_scenario_123 (pOut : Nat → ℝ) :
    |Softmax Real.exp pOut (fun k : Nat => (k : ℝ) + 1) 1 3 0 - 0.0900| < 0.0001 ∧
    |Softmax Real.exp pOut (fun k : Nat => (k : ℝ) + 1) 1 3 1 - 0.2447| < 0.0001 ∧
    |Softmax Real.exp pOut (fun k : Nat => (k : ℝ) + 1) 1 3 2 - 0.6652| < 0.0001 ∧
    Softmax Real.exp pOut (fun k : Nat => (k : ℝ) + 1) 1 3 0
      + Softmax Real.exp pOut (fun k : Nat => (k : ℝ) + 1) 1 3 1
      + Softmax Real.exp pOut (fun k : Nat => (k : ℝ) + 1) 1 3 2 = 1 := by
  obtain ⟨h0, h1, h2⟩ := Softmax_row123 pOut
  rw [h0, h1, h2]
  exact softmax123_bounds (Real.exp 1) Real.exp_one_gt_d9 Real.exp_one_lt_d9

/-! ## Machine integers without wrap-around -/

theorem toSizeT_natCast (n : Nat) (h : n < 18446744073709551616) : toSizeT (n : Int) = n := by
  unfold toSizeT
  omega

theorem toSizeT_eq_of_eq (z : Int) (n : Nat) (hz : z = (n : Int))
    (h : n < 18446744073709551616) : toSizeT z = n := by
  rw [hz]
  exact toSizeT_natCast n h

theorem toInt32_natCast (n : Nat) (h : n < 2147483648) : toInt32 (n : Int) = (n : Int) := by
  unfold toInt32
  omega

theorem toInt64_toSizeT (z : Int) (h1 : -9223372036854775808 ≤ z)
    (h2 : z < 9223372036854775808) : toInt64 (toSizeT z) = z := by
  unfold toInt64 toSizeT
  split <;> omega

/-- Wrapping pointer sums inside the positive half of the address space are plain sums. -/
theorem ptrAdd_eq (p n : Nat) (h : p + n < 9223372036854775808) :
    ptrAdd (p : Int) n = (p : Int) + (n : Int) := by
  unfold ptrAdd toInt64 toSizeT
  split <;> omega

/-! ## `memset` and `memcpy` inside the buffers -/

theorem memset_inside {α : Type} [Zero α] (t : TensorRef α) (P n : Nat)
    (h : P + n ≤ t.elemCount) :
    ∃ f, memset t (P : Int) n = some f ∧ f.elemCount = t.elemCount ∧
      ∀ j, f.buffer j = if P ≤ j ∧ j < P + n then 0 else t.buffer j := by
  have hb : inBuffer t.elemCount (P : Int) n = true := by
    unfold inBuffer
    simp only [Bool.and_eq_true, decide_eq_true_eq]
    omega
  refine ⟨⟨t.elemCount, fun i =>
    if (P : Int) ≤ (i : Int) ∧ (i : Int) < (P : Int) + (n : Int) then 0 else t.buffer i⟩,
    by unfold memset; rw [if_pos hb], rfl, fun j => ?_⟩
  show (if (P : Int) ≤ (j : Int) ∧ (j : Int) < (P : Int) + (n : Int) then 0 else t.buffer j) = _
  by_cases h1 : P ≤ j ∧ j < P + n
  · rw [if_pos h1, if_pos (by omega)]
  · rw [if_neg h1, if_neg (by omega)]

theorem memcpy_inside {α : Type} (d s : TensorRef α) (P Q n : Nat)
    (hd : P + n ≤ d.elemCount) (hs : Q + n ≤ s.elemCount) :
    ∃ f, memcpy d (P : Int) s (Q : Int) n = some f ∧ f.elemCount = d.elemCount ∧
      ∀ j, f.buffer j = if P ≤ j ∧ j < P + n then s.buffer (j - P + Q) else d.buffer j := by
  have hb : (inBuffer d.elemCount (P : Int) n && inBuffer s.elemCount (Q : Int) n) = true := by
    unfold inBuffer
    simp only [Bool.and_eq_true, decide_eq_true_eq]
    omega
  refine ⟨⟨d.elemCount, fun i =>
    if (P : Int) ≤ (i : Int) ∧ (i : Int) < (P : Int) + (n : Int)
    then s.buffer ((i : Int) - (P : Int) + (Q : Int)).toNat else d.buffer i⟩,
    by unfold memcpy; rw [if_pos hb], rfl, fun j => ?_⟩
  show (if (P : Int) ≤ (j : Int) ∧ (j : Int) < (P : Int) + (n : Int)
    then s.buffer ((j : Int) - (P : Int) + (Q : Int)).toNat else d.buffer j) = _
  by_cases h1 : P ≤ j ∧ j < P + n
  · rw [if_pos h1, if_pos (by omega)]
    congr 1
    omega
  · rw [if_neg h1, if_neg (by omega)]

/-! ## Loops that write one block per iteration -/

/-- A loop whose iteration `i` overwrites the block `[base + i*w, base + i*w + w)` with the
values `V i` and keeps the rest overwrites `[base, base + n*w)`. -/
theorem forLoopM_blocks {α : Type} (len w base : Nat) (V : Nat → Nat → α)
    (body : Nat → TensorRef α → Option (TensorRef α)) (n : Nat)
    (hbody : ∀ i, i < n → ∀ f : TensorRef α, f.elemCount = len →
      ∃ f2, body i f = some f2 ∧ f2.elemCount = len ∧
        ∀ j, f2.buffer j = if base + i * w ≤ j ∧ j < base + i * w + w
          then V i (j - (base + i * w)) else f.buffer j)
    (f : TensorRef α) (hlen : f.elemCount = len) :
    ∃ f2, forLoopM n body f = some f2 ∧ f2.elemCount = len ∧
      ∀ j, f2.buffer j = if base ≤ j ∧ j < base + n * w
        then V ((j - base) / w) ((j - base) % w) else f.buffer j := by
  induction n with
  | zero =>
    refine ⟨f, rfl, hlen, fun j => ?_⟩
    rw [if_neg (by omega)]
  | succ n ih =>
    obtain ⟨f1, h1, hl1, hb1⟩ := ih (fun i hi => hbody i (by omega))
    obtain ⟨f2, h2, hl2, hb2⟩ := hbody n (by omega) f1 hl1
    refine ⟨f2, ?_, hl2, fun j => ?_⟩
    · show (forLoopM n body f).bind (body n) = some f2
      rw [h1]
      exact h2
    · rw [hb2, hb1]
      have hs : (n + 1) * w = n * w + w := Nat.succ_mul n w
      by_cases hin : base + n * w ≤ j ∧ j < base + n * w + w
      · have hw : 0 < w := by omega
        have hq : (j - base) / w = n := by
          apply Nat.div_eq_of_lt_le
          · omega
          · rw [hs]; omega
        have hr : (j - base) % w = j - (base + n * w) := by
          have := Nat.div_add_mod (j - base) w
          rw [hq, Nat.mul_comm] at this
          omega
        rw [if_pos hin, if_pos (by omega), hq, hr]
      · rw [if_neg hin]
        by_cases h3 : base ≤ j ∧ j < base + n * w
        · rw [if_pos h3, if_pos (by omega)]
        · rw [if_neg h3, if_neg (by omega)]

/-! ## Arithmetic of valid parameter sets -/

/-- Consequences of `Valid` and `FitsInt` used throughout. -/
theorem unfold_bounds (a : UnfoldArgs) (hv : a.Valid) (hf : a.FitsInt) :
    1 ≤ a.outputHeight ∧ 1 ≤ a.outputWidth ∧
    (a.outputHeight - 1) * a.dH + a.kH ≤ a.inputHeight + 2 * a.padH ∧
    (a.outputWidth - 1) * a.dW + a.kW ≤ a.inputWidth + 2 * a.padW ∧
    a.outputHeight * a.outputWidth < 2147483648 ∧
    a.outputHeight < 2147483648 ∧ a.outputWidth < 2147483648 ∧
    a.kH < 2147483648 ∧ a.kW < 2147483648 ∧
    a.inputHeight < 2147483648 ∧ a.inputWidth < 2147483648 ∧
    a.kH * a.kW < 2147483648 ∧ a.kW * a.outputHeight * a.outputWidth < 2147483648 := by
  obtain ⟨hH, hW, hkH, hkW, hdH, hdW, hkHle, hkWle, hoH, hoW⟩ := hv
  obtain ⟨_, hK, hHW, _, _, _, _, _⟩ := hf
  have hqH := Nat.div_mul_le_self (a.inputHeight + 2 * a.padH - a.kH) a.dH
  have hqW := Nat.div_mul_le_self (a.inputWidth + 2 * a.padW - a.kW) a.dW
  generalize (a.inputHeight + 2 * a.padH - a.kH) / a.dH = qH at hqH hoH
  generalize (a.inputWidth + 2 * a.padW - a.kW) / a.dW = qW at hqW hoW
  have hoH1 : 1 ≤ a.outputHeight := by omega
  have hoW1 : 1 ≤ a.outputWidth := by omega
  have e1 : a.outputHeight - 1 = qH := by omega
  have e2 : a.outputWidth - 1 = qW := by omega
  have hkk : 1 ≤ a.kH * a.kW := Nat.mul_pos hkH hkW
  have h1 : a.outputHeight ≤ a.kH * a.kW * a.outputHeight := Nat.le_mul_of_pos_left _ hkk
  have h2 : a.outputHeight * a.outputWidth ≤ a.kH * a.kW * a.outputHeight * a.outputWidth :=
    Nat.mul_le_mul_right _ h1
  have h3 : a.outputWidth ≤ a.outputHeight * a.outputWidth := Nat.le_mul_of_pos_left _ hoH1
  have h4 : a.outputHeight ≤ a.outputHeight * a.outputWidth := Nat.le_mul_of_pos_right _ hoW1
  have h5 : a.kW ≤ a.kH * a.kW := Nat.le_mul_of_pos_left _ hkH
  have h6 : a.kH ≤ a.kH * a.kW := Nat.le_mul_of_pos_right _ hkW
  have h7 : a.kH * a.kW ≤ a.kH * a.kW * a.outputHeight := Nat.le_mul_of_pos_right _ hoH1
  have h8 : a.kH * a.kW * a.outputHeight ≤ a.kH * a.kW * a.outputHeight * a.outputWidth :=
    Nat.le_mul_of_pos_right _ hoW1
  have h9 : a.kW * a.outputHeight * a.outputWidth
      ≤ a.kH * a.kW * a.outputHeight * a.outputWidth :=
    Nat.mul_le_mul_right _ (Nat.mul_le_mul_right _ h5)
  have h10 : a.inputHeight ≤ a.inputHeight * a.inputWidth := Nat.le_mul_of_pos_right _ hW
  have h11 : a.inputWidth ≤ a.inputHeight * a.inputWidth := Nat.le_mul_of_pos_left _ hH
  rw [e1, e2]
  refine ⟨hoH1, hoW1, ?_, ?_, ?_, ?_, ?_, ?_, ?_, ?_, ?_, ?_, ?_⟩ <;> omega

/-- The flat index of element `x` of row `y` lies inside an `n × m` block. -/
theorem idx_lt (y x n m : Nat) (hy : y < n) (hx : x < m) : y * m + x < n * m := by
  have h1 : (y + 1) * m ≤ n * m := Nat.mul_le_mul_right m hy
  have h2 : (y + 1) * m = y * m + m := Nat.succ_mul y m
  omega

/-- The product of two `int` sized naturals fits in 62 bits. -/
theorem mul_lt_two62 (x y : Nat) (hx : x < 2147483648) (hy : y < 2147483648) :
    x * y < 4611686018427387904 := by
  have := Nat.mul_lt_mul'' hx hy
  omega

/-- Without wrap-around `iy` is `y*dH - padH + kh`. -/
theorem unfolded_iy_eq (a : UnfoldArgs) (hv : a.Valid) (hf : a.FitsInt) (kh y : Nat)
    (hkh : kh < a.kH) (hy : y < a.outputHeight) :
    unfolded_iy a kh y = (y : Int) * (a.dH : Int) - (a.padH : Int) + (kh : Int) := by
  obtain ⟨_, _, _, _, _, hoH, _, hkH, _, _, _, _, _⟩ := unfold_bounds a hv hf
  obtain ⟨_, _, _, _, _, hdH, _, hpH⟩ := hf
  have h1 := mul_lt_two62 y a.dH (by omega) hdH
  have h2 : ((y * a.dH : Nat) : Int) = (y : Int) * (a.dH : Int) := by push_cast; ring
  unfold unfolded_iy
  apply toInt64_toSizeT <;> omega

/-! ## The element-wise branch of `unfolded_copy` -/

/-- One column of the element-wise branch: the element `x` of row `y` receives the value the
specification prescribes. -/
theorem copy_element_step {α : Type} [Zero α] (a : UnfoldArgs) (hv : a.Valid) (hf : a.FitsInt)
    (input : TensorRef α)
    (hin : a.nInputPlane * a.inputHeight * a.inputWidth ≤ input.elemCount)
    (len dstN nip kh kw y x iyN : Nat) (hnip : nip < a.nInputPlane) (hkw : kw < a.kW)
    (hy : y < a.outputHeight) (hx : x < a.outputWidth)
    (hdst : dstN + a.outputHeight * a.outputWidth ≤ len)
    (hiy : iyN < a.inputHeight)
    (hiyeq : (iyN : Int) = (y : Int) * (a.dH : Int) - (a.padH : Int) + (kh : Int))
    (f : TensorRef α) (hfl : f.elemCount = len) :
    ∃ f2,
      (if toInt64 (toSizeT ((x : Int) * (a.dW : Int) - (a.padW : Int) + (kw : Int))) < 0 ∨
          toInt64 (toSizeT ((x : Int) * (a.dW : Int) - (a.padW : Int) + (kw : Int)))
            ≥ (a.inputWidth : Int) then
        memset f ((dstN : Int) + (toSizeT ((y : Int) * (a.outputWidth : Int) + (x : Int)) : Int)) 1
      else
        memcpy f ((dstN : Int) + (toSizeT ((y : Int) * (a.outputWidth : Int) + (x : Int)) : Int))
          input (((nip * a.inputHeight * a.inputWidth : Nat) : Int)
            + (toSizeT ((iyN : Int) * (a.inputWidth : Int)
              + toInt64 (toSizeT ((x : Int) * (a.dW : Int) - (a.padW : Int) + (kw : Int)))) : Int))
          1) = some f2 ∧
      f2.elemCount = len ∧
      ∀ j, f2.buffer j =
        if dstN + y * a.outputWidth + x * 1 ≤ j ∧ j < dstN + y * a.outputWidth + x * 1 + 1
        then specUnfoldCopy a input.buffer nip kh kw y x else f.buffer j := by
  obtain ⟨_, _, _, _, hoo, hoH, hoW, hkH, hkW, hH, hW, _, _⟩ := unfold_bounds a hv hf
  obtain ⟨_, _, hHW, _, hdW, _, hpW, _⟩ := hf
  have hxd := mul_lt_two62 x a.dW (by omega) hdW
  have hxd2 : ((x * a.dW : Nat) : Int) = (x : Int) * (a.dW : Int) := by push_cast; ring
  have hix : toInt64 (toSizeT ((x : Int) * (a.dW : Int) - (a.padW : Int) + (kw : Int)))
      = (x : Int) * (a.dW : Int) - (a.padW : Int) + (kw : Int) := by
    apply toInt64_toSizeT <;> omega
  have hidx := idx_lt y x a.outputHeight a.outputWidth hy hx
  have hp : (dstN : Int) + (toSizeT ((y : Int) * (a.outputWidth : Int) + (x : Int)) : Int)
      = ((dstN + y * a.outputWidth + x : Nat) : Int) := by
    rw [toSizeT_eq_of_eq _ (y * a.outputWidth + x) (by push_cast; ring) (by omega)]
    push_cast
    ring
  rw [hix, hp]
  by_cases hr : (x : Int) * (a.dW : Int) - (a.padW : Int) + (kw : Int) < 0 ∨
      (x : Int) * (a.dW : Int) - (a.padW : Int) + (kw : Int) ≥ (a.inputWidth : Int)
  · rw [if_pos hr]
    obtain ⟨f2, h2, hl2, hb2⟩ := memset_inside f (dstN + y * a.outputWidth + x) 1 (by omega)
    refine ⟨f2, h2, by omega, fun j => ?_⟩
    rw [hb2]
    have hspec : specUnfoldCopy a input.buffer nip kh kw y x = 0 := by
      unfold specUnfoldCopy
      simp only []
      rw [if_neg (by omega)]
    rw [hspec]
    by_cases hj : dstN + y * a.outputWidth + x ≤ j ∧ j < dstN + y * a.outputWidth + x + 1
    · rw [if_pos hj, if_pos (by omega)]
    · rw [if_neg hj, if_neg (by omega)]
  · rw [if_neg hr]
    obtain ⟨ixN, hixN⟩ : ∃ ixN : Nat, (ixN : Int)
        = (x : Int) * (a.dW : Int) - (a.padW : Int) + (kw : Int) :=
      ⟨((x : Int) * (a.dW : Int) - (a.padW : Int) + (kw : Int)).toNat, by omega⟩
    rw [← hixN]
    have hixlt : ixN < a.inputWidth := by omega
    have hsrc := idx_lt iyN ixN a.inputHeight a.inputWidth hiy hixlt
    have hq : ((nip * a.inputHeight * a.inputWidth : Nat) : Int)
        + (toSizeT ((iyN : Int) * (a.inputWidth : Int) + (ixN : Int)) : Int)
        = ((nip * a.inputHeight * a.inputWidth + iyN * a.inputWidth + ixN : Nat) : Int) := by
      rw [toSizeT_eq_of_eq _ (iyN * a.inputWidth + ixN) (by push_cast; ring) (by omega)]
      push_cast
      ring
    rw [hq]
    have hplane : nip * a.inputHeight * a.inputWidth + a.inputHeight * a.inputWidth
        ≤ a.nInputPlane * a.inputHeight * a.inputWidth := by
      have h1 : (nip + 1) * a.inputHeight ≤ a.nInputPlane * a.inputHeight :=
        Nat.mul_le_mul_right _ hnip
      have h2 := Nat.mul_le_mul_right a.inputWidth h1
      have h3 : (nip + 1) * a.inputHeight * a.inputWidth
          = nip * a.inputHeight * a.inputWidth + a.inputHeight * a.inputWidth := by ring
      omega
    obtain ⟨f2, h2, hl2, hb2⟩ := memcpy_inside f input (dstN + y * a.outputWidth + x)
      (nip * a.inputHeight * a.inputWidth + iyN * a.inputWidth + ixN) 1 (by omega) (by omega)
    refine ⟨f2, h2, by omega, fun j => ?_⟩
    rw [hb2]
    have hspec : specUnfoldCopy a input.buffer nip kh kw y x
        = input.buffer (nip * a.inputHeight * a.inputWidth + iyN * a.inputWidth + ixN) := by
      unfold specUnfoldCopy
      simp only []
      rw [if_pos (by omega)]
      congr 1
      have e1 : ((y : Int) * (a.dH : Int) - (a.padH : Int) + (kh : Int)).toNat = iyN := by omega
      have e2 : ((x : Int) * (a.dW : Int) - (a.padW : Int) + (kw : Int)).toNat = ixN := by omega
      rw [e1, e2]
      ring
    rw [hspec]
    by_cases hj : dstN + y * a.outputWidth + x ≤ j ∧ j < dstN + y * a.outputWidth + x + 1
    · rw [if_pos hj, if_pos (by omega)]
      congr 1
      omega
    · rw [if_neg hj, if_neg (by omega)]

/-- A padded row of `unfolded_copy` outside the bulk-copy branch (`dW ≠ 1`): row `y` of the
block receives the values the specification prescribes, the rest of the buffer is kept. -/
theorem copy_padRow_elementwise {α : Type} [Zero α] (a : UnfoldArgs) (hv : a.Valid)
    (hf : a.FitsInt) (hd : a.dW ≠ 1) (input : TensorRef α)
    (hin : a.nInputPlane * a.inputHeight * a.inputWidth ≤ input.elemCount)
    (len dstN nip kh kw y : Nat) (hnip : nip < a.nInputPlane) (hkh : kh < a.kH)
    (hkw : kw < a.kW) (hy : y < a.outputHeight)
    (hdst : dstN + a.outputHeight * a.outputWidth ≤ len)
    (f : TensorRef α) (hfl : f.elemCount = len) :
    ∃ f2, unfolded_copy_padRow a input (dstN : Int)
        ((nip * a.inputHeight * a.inputWidth : Nat) : Int) kh kw y f = some f2 ∧
      f2.elemCount = len ∧
      ∀ j, f2.buffer j =
        if dstN + y * a.outputWidth ≤ j ∧ j < dstN + y * a.outputWidth + a.outputWidth
        then specUnfoldCopy a input.buffer nip kh kw y (j - (dstN + y * a.outputWidth))
        else f.buffer j := by
  obtain ⟨_, _, _, _, hoo, hoH, hoW, hkH, hkW, hH, hW, _, _⟩ := unfold_bounds a hv hf
  have hiy := unfolded_iy_eq a hv hf kh y hkh hy
  have hrow := idx_lt y 0 a.outputHeight a.outputWidth hy (by omega)
  have hrow2 : y * a.outputWidth + a.outputWidth ≤ a.outputHeight * a.outputWidth := by
    have h1 : (y + 1) * a.outputWidth ≤ a.outputHeight * a.outputWidth :=
      Nat.mul_le_mul_right _ hy
    have h2 : (y + 1) * a.outputWidth = y * a.outputWidth + a.outputWidth := Nat.succ_mul _ _
    omega
  have hsz : toSizeT (a.outputWidth : Int) = a.outputWidth := toSizeT_natCast _ (by omega)
  rw [unfolded_copy_padRow_eq, hiy]
  by_cases hr : (y : Int) * (a.dH : Int) - (a.padH : Int) + (kh : Int) < 0 ∨
      (y : Int) * (a.dH : Int) - (a.padH : Int) + (kh : Int) ≥ (a.inputHeight : Int)
  · rw [if_pos hr, hsz]
    have hp : (dstN : Int) + (toSizeT ((y : Int) * (a.outputWidth : Int)) : Int)
        = ((dstN + y * a.outputWidth : Nat) : Int) := by
      rw [toSizeT_eq_of_eq _ (y * a.outputWidth) (by push_cast; ring) (by omega)]
      push_cast
      ring
    rw [hp]
    obtain ⟨f2, h2, hl2, hb2⟩ := memset_inside f (dstN + y * a.outputWidth) a.outputWidth
      (by omega)
    refine ⟨f2, h2, by omega, fun j => ?_⟩
    rw [hb2]
    by_cases hj : dstN + y * a.outputWidth ≤ j ∧ j < dstN + y * a.outputWidth + a.outputWidth
    · rw [if_pos hj, if_pos hj]
      unfold specUnfoldCopy
      simp only []
      rw [if_neg (by omega)]
    · rw [if_neg hj, if_neg hj]
  · rw [if_neg hr, if_neg hd]
    obtain ⟨iyN, hiyN⟩ : ∃ iyN : Nat, (iyN : Int)
        = (y : Int) * (a.dH : Int) - (a.padH : Int) + (kh : Int) :=
      ⟨((y : Int) * (a.dH : Int) - (a.padH : Int) + (kh : Int)).toNat, by omega⟩
    rw [← hiyN]
    unfold unfolded_copy_elementRow
    rw [hsz]
    obtain ⟨f2, h2, hl2, hb2⟩ := forLoopM_blocks len 1 (dstN + y * a.outputWidth)
      (fun x _ => specUnfoldCopy a input.buffer nip kh kw y x) _ a.outputWidth
      (fun x hx f1 hf1 => copy_element_step a hv hf input hin len dstN nip kh kw y x iyN hnip hkw
        hy hx hdst (by omega) hiyN f1 hf1) f hfl
    refine ⟨f2, h2, hl2, fun j => ?_⟩
    rw [hb2]
    simp only [Nat.mul_one, Nat.div_one]

/-- A row of the unpadded branch of `unfolded_copy` (`padW = padH = 0`, any stride): row `y`
of the block receives the values the specification prescribes, the rest is kept. -/
theorem copy_plainRow {α : Type} [Zero α] (a : UnfoldArgs) (hv : a.Valid)
    (hf : a.FitsInt) (hpW : a.padW = 0) (hpH : a.padH = 0) (input : TensorRef α)
    (hin : a.nInputPlane * a.inputHeight * a.inputWidth ≤ input.elemCount)
    (len dstN nip kh kw y : Nat) (hnip : nip < a.nInputPlane) (hkh : kh < a.kH)
    (hkw : kw < a.kW) (hy : y < a.outputHeight)
    (hdst : dstN + a.outputHeight * a.outputWidth ≤ len)
    (f : TensorRef α) (hfl : f.elemCount = len) :
    ∃ f2, unfolded_copy_plainRow a input (dstN : Int)
        ((nip * a.inputHeight * a.inputWidth : Nat) : Int) kh kw y f = some f2 ∧
      f2.elemCount = len ∧
      ∀ j, f2.buffer j =
        if dstN + y * a.outputWidth ≤ j ∧ j < dstN + y * a.outputWidth + a.outputWidth
        then specUnfoldCopy a input.buffer nip kh kw y (j - (dstN + y * a.outputWidth))
        else f.buffer j := by
  obtain ⟨hoH1, hoW1, hrH, hrW, hoo, hoH, hoW, hkH, hkW, hH, hW, _, _⟩ := unfold_bounds a hv hf
  obtain ⟨_, _, hHW, _, hdW, hdH, _, _⟩ := hf
  have hrow2 : y * a.outputWidth + a.outputWidth ≤ a.outputHeight * a.outputWidth := by
    have h1 : (y + 1) * a.outputWidth ≤ a.outputHeight * a.outputWidth :=
      Nat.mul_le_mul_right _ hy
    have h2 : (y + 1) * a.outputWidth = y * a.outputWidth + a.outputWidth := Nat.succ_mul _ _
    omega
  have hsz : toSizeT (a.outputWidth : Int) = a.outputWidth := toSizeT_natCast _ (by omega)
  -- the source row
  have hyd : y * a.dH ≤ (a.outputHeight - 1) * a.dH := Nat.mul_le_mul_right _ (by omega)
  have hiylt : y * a.dH + kh < a.inputHeight := by omega
  have hiy : toInt64 (toSizeT ((y : Int) * (a.dH : Int) + (kh : Int)))
      = ((y * a.dH + kh : Nat) : Int) := by
    rw [toInt64_toSizeT _ (by omega) (by omega)]
    push_cast
    ring
  have hix : toInt64 (toSizeT (0 + (kw : Int))) = (kw : Int) := by
    rw [toInt64_toSizeT _ (by omega) (by omega)]
    ring
  have hplane : nip * a.inputHeight * a.inputWidth + a.inputHeight * a.inputWidth
      ≤ a.nInputPlane * a.inputHeight * a.inputWidth := by
    have h1 : (nip + 1) * a.inputHeight ≤ a.nInputPlane * a.inputHeight :=
      Nat.mul_le_mul_right _ hnip
    have h2 := Nat.mul_le_mul_right a.inputWidth h1
    have h3 : (nip + 1) * a.inputHeight * a.inputWidth
        = nip * a.inputHeight * a.inputWidth + a.inputHeight * a.inputWidth := by ring
    omega
  -- the value the specification prescribes for column `x`
  have hspec : ∀ x, x < a.outputWidth →
      x * a.dW + kw < a.inputWidth ∧
      specUnfoldCopy a input.buffer nip kh kw y x
        = input.buffer (nip * a.inputHeight * a.inputWidth
            + (y * a.dH + kh) * a.inputWidth + (x * a.dW + kw)) := by
    intro x hx
    have hxd : x * a.dW ≤ (a.outputWidth - 1) * a.dW := Nat.mul_le_mul_right _ (by omega)
    have hlt : x * a.dW + kw < a.inputWidth := by omega
    refine ⟨hlt, ?_⟩
    unfold specUnfoldCopy
    simp only []
    have e1 : (y : Int) * (a.dH : Int) - (a.padH : Int) + (kh : Int)
        = ((y * a.dH + kh : Nat) : Int) := by rw [hpH]; push_cast; ring
    have e2 : (x : Int) * (a.dW : Int) - (a.padW : Int) + (kw : Int)
        = ((x * a.dW + kw : Nat) : Int) := by rw [hpW]; push_cast; ring
    rw [e1, e2, if_pos (by omega)]
    congr 1
    simp only [Int.toNat_ofNat]
    ring
  unfold unfolded_copy_plainRow
  simp only []
  rw [hiy, hix]
  by_cases hd : a.dW = 1
  · rw [if_pos hd, hsz]
    have hp : (dstN : Int) + (toSizeT ((y : Int) * (a.outputWidth : Int)) : Int)
        = ((dstN + y * a.outputWidth : Nat) : Int) := by
      rw [toSizeT_eq_of_eq _ (y * a.outputWidth) (by push_cast; ring) (by omega)]
      push_cast
      ring
    have hsrc := idx_lt (y * a.dH + kh) kw a.inputHeight a.inputWidth hiylt (by omega)
    have hq : ((nip * a.inputHeight * a.inputWidth : Nat) : Int)
        + (toSizeT (((y * a.dH + kh : Nat) : Int) * (a.inputWidth : Int) + (kw : Int)) : Int)
        = ((nip * a.inputHeight * a.inputWidth + (y * a.dH + kh) * a.inputWidth + kw : Nat)
            : Int) := by
      rw [toSizeT_eq_of_eq _ ((y * a.dH + kh) * a.inputWidth + kw) (by push_cast; ring)
        (by omega)]
      push_cast
      ring
    rw [hp, hq]
    have hlast := (hspec (a.outputWidth - 1) (by omega)).1
    have hsrc2 := idx_lt (y * a.dH + kh) ((a.outputWidth - 1) * a.dW + kw) a.inputHeight
      a.inputWidth hiylt hlast
    have hd1 : (a.outputWidth - 1) * a.dW = a.outputWidth - 1 := by rw [hd, Nat.mul_one]
    obtain ⟨f2, h2, hl2, hb2⟩ := memcpy_inside f input (dstN + y * a.outputWidth)
      (nip * a.inputHeight * a.inputWidth + (y * a.dH + kh) * a.inputWidth + kw)
      a.outputWidth (by omega) (by omega)
    refine ⟨f2, h2, by omega, fun j => ?_⟩
    rw [hb2]
    by_cases hj : dstN + y * a.outputWidth ≤ j ∧ j < dstN + y * a.outputWidth + a.outputWidth
    · rw [if_pos hj, if_pos hj, (hspec (j - (dstN + y * a.outputWidth)) (by omega)).2]
      congr 1
      rw [hd, Nat.mul_one]
      omega
    · rw [if_neg hj, if_neg hj]
  · rw [if_neg hd, hsz]
    have hstep : ∀ x, x < a.outputWidth → ∀ f1 : TensorRef α, f1.elemCount = len →
        ∃ f2, memcpy f1
            ((dstN : Int) + (toSizeT ((y : Int) * (a.outputWidth : Int) + (x : Int)) : Int))
            input (((nip * a.inputHeight * a.inputWidth : Nat) : Int)
              + (toSizeT (((y * a.dH + kh : Nat) : Int) * (a.inputWidth : Int) + (kw : Int)
                  + (x : Int) * (a.dW : Int)) : Int)) 1 = some f2 ∧
          f2.elemCount = len ∧
          ∀ j, f2.buffer j =
            if dstN + y * a.outputWidth + x * 1 ≤ j ∧ j < dstN + y * a.outputWidth + x * 1 + 1
            then specUnfoldCopy a input.buffer nip kh kw y x else f1.buffer j := by
      intro x hx f1 hf1
      obtain ⟨hlt, hsp⟩ := hspec x hx
      have hidx := idx_lt y x a.outputHeight a.outputWidth hy hx
      have hp : (dstN : Int) + (toSizeT ((y : Int) * (a.outputWidth : Int) + (x : Int)) : Int)
          = ((dstN + y * a.outputWidth + x : Nat) : Int) := by
        rw [toSizeT_eq_of_eq _ (y * a.outputWidth + x) (by push_cast; ring) (by omega)]
        push_cast
        ring
      have hsrc := idx_lt (y * a.dH + kh) (x * a.dW + kw) a.inputHeight a.inputWidth hiylt hlt
      have hq : ((nip * a.inputHeight * a.inputWidth : Nat) : Int)
          + (toSizeT (((y * a.dH + kh : Nat) : Int) * (a.inputWidth : Int) + (kw : Int)
              + (x : Int) * (a.dW : Int)) : Int)
          = ((nip * a.inputHeight * a.inputWidth + (y * a.dH + kh) * a.inputWidth
              + (x * a.dW + kw) : Nat) : Int) := by
        rw [toSizeT_eq_of_eq _ ((y * a.dH + kh) * a.inputWidth + (x * a.dW + kw))
          (by push_cast; ring) (by omega)]
        push_cast
        ring
      rw [hp, hq]
      obtain ⟨f2, h2, hl2, hb2⟩ := memcpy_inside f1 input (dstN + y * a.outputWidth + x)
        (nip * a.inputHeight * a.inputWidth + (y * a.dH + kh) * a.inputWidth
          + (x * a.dW + kw)) 1 (by omega) (by omega)
      refine ⟨f2, h2, by omega, fun j => ?_⟩
      rw [hb2, hsp]
      by_cases hj : dstN + y * a.outputWidth + x ≤ j ∧ j < dstN + y * a.outputWidth + x + 1
      · rw [if_pos hj, if_pos (by omega)]
        congr 1
        omega
      · rw [if_neg hj, if_neg (by omega)]
    obtain ⟨f2, h2, hl2, hb2⟩ := forLoopM_blocks len 1 (dstN + y * a.outputWidth)
      (fun x _ => specUnfoldCopy a input.buffer nip kh kw y x) _ a.outputWidth hstep f hfl
    refine ⟨f2, h2, hl2, fun j => ?_⟩
    rw [hb2]
    simp only [Nat.mul_one, Nat.div_one]

/-! ## The tasks of `unfolded_copy` -/

/-- Quotient and remainder of a flat index `q * m + r` with `r < m`. -/
theorem div_mod_of_lt (q r m : Nat) (h : r < m) : (q * m + r) / m = q ∧ (q * m + r) % m = r := by
  have hq : (q * m + r) / m = q := by
    apply Nat.div_eq_of_lt_le
    · omega
    · rw [Nat.succ_mul]; omega
  refine ⟨hq, ?_⟩
  have := Nat.div_add_mod (q * m + r) m
  rw [hq, Nat.mul_comm] at this
  omega

/-- The decomposition of the task index `k` into `(nip, kh, kw)`, and the offset of the
task's block. -/
theorem task_decomposition (a : UnfoldArgs) (hv : a.Valid) (k : Nat)
    (hk : k < a.nInputPlane * a.kH * a.kW) :
    k / (a.kH * a.kW) < a.nInputPlane ∧ k % (a.kH * a.kW) / a.kW < a.kH ∧
    k % (a.kH * a.kW) % a.kW < a.kW ∧
    k / (a.kH * a.kW) * (a.kH * a.kW * a.outputHeight * a.outputWidth)
      + k % (a.kH * a.kW) / a.kW * (a.kW * a.outputHeight * a.outputWidth)
      + k % (a.kH * a.kW) % a.kW * (a.outputHeight * a.outputWidth)
      = k * (a.outputHeight * a.outputWidth) := by
  obtain ⟨_, _, hkH, hkW, _, _, _, _, _, _⟩ := hv
  have hkk : 0 < a.kH * a.kW := Nat.mul_pos hkH hkW
  have h1 := Nat.div_add_mod k (a.kH * a.kW)
  have h2 := Nat.div_add_mod (k % (a.kH * a.kW)) a.kW
  have h3 : k % (a.kH * a.kW) < a.kH * a.kW := Nat.mod_lt _ hkk
  have h4 : k % (a.kH * a.kW) % a.kW < a.kW := Nat.mod_lt _ hkW
  have h5 : k / (a.kH * a.kW) < a.nInputPlane := by
    apply Nat.div_lt_of_lt_mul
    rw [Nat.mul_comm (a.kH * a.kW), ← Nat.mul_assoc]
    exact hk
  have h6 : k % (a.kH * a.kW) / a.kW < a.kH := by
    apply Nat.div_lt_of_lt_mul
    rw [Nat.mul_comm a.kW]
    exact h3
  refine ⟨h5, h6, h4, ?_⟩
  generalize k / (a.kH * a.kW) = nip at h1
  generalize k % (a.kH * a.kW) = rest at h1 h2
  generalize rest / a.kW = kh at h2
  generalize rest % a.kW = kw at h2
  subst h1
  subst h2
  ring

/-- Without wrap-around the task `k` of `unfolded_copy` runs the row loop on the block at
offset `k * (outH * outW)` with the triple `(nip, kh, kw)` decoded from `k`. -/
theorem copy_task_eq {α : Type} [Zero α] (a : UnfoldArgs) (hv : a.Valid) (hf : a.FitsInt)
    (input : TensorRef α) (k : Nat) (hk : k < a.nInputPlane * a.kH * a.kW)
    (f : TensorRef α) :
    unfolded_copy_task a input k f =
      if 0 < a.padW ∨ 0 < a.padH then
        forLoopM a.outputHeight (unfolded_copy_padRow a input
          ((k * (a.outputHeight * a.outputWidth) : Nat) : Int)
          ((k / (a.kH * a.kW) * a.inputHeight * a.inputWidth : Nat) : Int)
          (k % (a.kH * a.kW) / a.kW) (k % (a.kH * a.kW) % a.kW)) f
      else
        forLoopM a.outputHeight (unfolded_copy_plainRow a input
          ((k * (a.outputHeight * a.outputWidth) : Nat) : Int)
          ((k / (a.kH * a.kW) * a.inputHeight * a.inputWidth : Nat) : Int)
          (k % (a.kH * a.kW) / a.kW) (k % (a.kH * a.kW) % a.kW)) f := by
  obtain ⟨hoH1, hoW1, hrH, hrW, hoo, hoH, hoW, hkH, hkW, hH, hW, hkk, hK2⟩ :=
    unfold_bounds a hv hf
  obtain ⟨hnip, hkh, hkw, hoff⟩ := task_decomposition a hv k hk
  obtain ⟨hCkk, hK3, hHW, hC, _, _, _, _⟩ := hf
  have e1 : toInt32 ((a.kH : Int) * (a.kW : Int)) = ((a.kH * a.kW : Nat) : Int) := by
    rw [← Nat.cast_mul]
    exact toInt32_natCast _ hkk
  have e2 : toSizeT (Int.tdiv (k : Int) ((a.kH * a.kW : Nat) : Int)) = k / (a.kH * a.kW) := by
    rw [← Int.ofNat_tdiv]
    exact toSizeT_natCast _ (by have := Nat.div_le_self k (a.kH * a.kW); omega)
  have e3 : toSizeT (Int.tmod (k : Int) ((a.kH * a.kW : Nat) : Int)) = k % (a.kH * a.kW) := by
    rw [← Int.ofNat_tmod]
    exact toSizeT_natCast _ (by have := Nat.mod_le k (a.kH * a.kW); omega)
  have e4 : toSizeT (a.kW : Int) = a.kW := toSizeT_natCast _ (by omega)
  have e5 : toSizeT (a.outputHeight : Int) = a.outputHeight := toSizeT_natCast _ (by omega)
  have e6 : toInt32 ((a.kH : Int) * (a.kW : Int) * (a.outputHeight : Int) * (a.outputWidth : Int))
      = ((a.kH * a.kW * a.outputHeight * a.outputWidth : Nat) : Int) := by
    rw [← Nat.cast_mul, ← Nat.cast_mul, ← Nat.cast_mul]
    exact toInt32_natCast _ hK3
  have e7 : toInt32 ((a.kW : Int) * (a.outputHeight : Int) * (a.outputWidth : Int))
      = ((a.kW * a.outputHeight * a.outputWidth : Nat) : Int) := by
    rw [← Nat.cast_mul, ← Nat.cast_mul]
    exact toInt32_natCast _ hK2
  have e8 : toInt32 ((a.outputHeight : Int) * (a.outputWidth : Int))
      = ((a.outputHeight * a.outputWidth : Nat) : Int) := by
    rw [← Nat.cast_mul]
    exact toInt32_natCast _ hoo
  have e9 : toInt32 ((a.inputHeight : Int) * (a.inputWidth : Int))
      = ((a.inputHeight * a.inputWidth : Nat) : Int) := by
    rw [← Nat.cast_mul]
    exact toInt32_natCast _ hHW
  have b1 := mul_lt_two62 (k / (a.kH * a.kW)) (a.kH * a.kW * a.outputHeight * a.outputWidth)
    (by omega) hK3
  have b2 := mul_lt_two62 (k % (a.kH * a.kW) / a.kW) (a.kW * a.outputHeight * a.outputWidth)
    (by omega) hK2
  have b3 := mul_lt_two62 (k % (a.kH * a.kW) % a.kW) (a.outputHeight * a.outputWidth)
    (by omega) hoo
  have b4 := mul_lt_two62 (k / (a.kH * a.kW)) (a.inputHeight * a.inputWidth) (by omega) hHW
  have e10 : toSizeT (((k / (a.kH * a.kW) : Nat) : Int)
      * ((a.kH * a.kW * a.outputHeight * a.outputWidth : Nat) : Int))
      = k / (a.kH * a.kW) * (a.kH * a.kW * a.outputHeight * a.outputWidth) :=
    toSizeT_eq_of_eq _ _ (by push_cast; ring) (by omega)
  have e11 : toSizeT (((k % (a.kH * a.kW) / a.kW : Nat) : Int)
      * ((a.kW * a.outputHeight * a.outputWidth : Nat) : Int))
      = k % (a.kH * a.kW) / a.kW * (a.kW * a.outputHeight * a.outputWidth) :=
    toSizeT_eq_of_eq _ _ (by push_cast; ring) (by omega)
  have e12 : toSizeT (((k % (a.kH * a.kW) % a.kW : Nat) : Int)
      * ((a.outputHeight * a.outputWidth : Nat) : Int))
      = k % (a.kH * a.kW) % a.kW * (a.outputHeight * a.outputWidth) :=
    toSizeT_eq_of_eq _ _ (by push_cast; ring) (by omega)
  have e13 : toSizeT (((k / (a.kH * a.kW) : Nat) : Int)
      * ((a.inputHeight * a.inputWidth : Nat) : Int))
      = k / (a.kH * a.kW) * a.inputHeight * a.inputWidth :=
    toSizeT_eq_of_eq _ _ (by push_cast; ring) (by rw [Nat.mul_assoc]; omega)
  have e14 : ((k / (a.kH * a.kW) * (a.kH * a.kW * a.outputHeight * a.outputWidth) : Nat) : Int)
      + ((k % (a.kH * a.kW) / a.kW * (a.kW * a.outputHeight * a.outputWidth) : Nat) : Int)
      + ((k % (a.kH * a.kW) % a.kW * (a.outputHeight * a.outputWidth) : Nat) : Int)
      = ((k * (a.outputHeight * a.outputWidth) : Nat) : Int) := by
    rw [← hoff]
    push_cast
    ring
  unfold unfolded_copy_task
  simp only [e1, e2, e3, e4, e5, e6, e7, e8, e9, e10, e11, e12, e13, e14]

/-- Outside the bulk-copy branch (`dW ≠ 1`, or no padding) the task `k` of `unfolded_copy`
overwrites its block `[k*outH*outW, (k+1)*outH*outW)` with the values the specification
prescribes and keeps the rest of the column buffer. -/
theorem copy_task_writes {α : Type} [Zero α] (a : UnfoldArgs) (hv : a.Valid) (hf : a.FitsInt)
    (hbranch : a.dW ≠ 1 ∨ (a.padW = 0 ∧ a.padH = 0)) (input : TensorRef α)
    (hin : a.nInputPlane * a.inputHeight * a.inputWidth ≤ input.elemCount)
    (len : Nat)
    (hlen : a.nInputPlane * a.kH * a.kW * (a.outputHeight * a.outputWidth) ≤ len)
    (k : Nat) (hk : k < a.nInputPlane * a.kH * a.kW)
    (f : TensorRef α) (hfl : f.elemCount = len) :
    ∃ f2, unfolded_copy_task a input k f = some f2 ∧ f2.elemCount = len ∧
      ∀ j, f2.buffer j =
        if 0 + k * (a.outputHeight * a.outputWidth) ≤ j ∧
            j < 0 + k * (a.outputHeight * a.outputWidth) + a.outputHeight * a.outputWidth
        then specUnfoldCopy a input.buffer (k / (a.kH * a.kW)) (k % (a.kH * a.kW) / a.kW)
          (k % (a.kH * a.kW) % a.kW)
          ((j - (0 + k * (a.outputHeight * a.outputWidth))) / a.outputWidth)
          ((j - (0 + k * (a.outputHeight * a.outputWidth))) % a.outputWidth)
        else f.buffer j := by
  obtain ⟨hnip, hkh, hkw, _⟩ := task_decomposition a hv k hk
  have hblock : k * (a.outputHeight * a.outputWidth) + a.outputHeight * a.outputWidth ≤ len := by
    have h1 : (k + 1) * (a.outputHeight * a.outputWidth)
        ≤ a.nInputPlane * a.kH * a.kW * (a.outputHeight * a.outputWidth) :=
      Nat.mul_le_mul_right _ hk
    have h2 : (k + 1) * (a.outputHeight * a.outputWidth)
        = k * (a.outputHeight * a.outputWidth) + a.outputHeight * a.outputWidth :=
      Nat.succ_mul _ _
    omega
  rw [copy_task_eq a hv hf input k hk f]
  by_cases hpad : 0 < a.padW ∨ 0 < a.padH
  · rw [if_pos hpad]
    have hd : a.dW ≠ 1 := by
      rcases hbranch with h | h
      · exact h
      · omega
    obtain ⟨f2, h2, hl2, hb2⟩ := forLoopM_blocks len a.outputWidth
      (k * (a.outputHeight * a.outputWidth))
      (fun y x => specUnfoldCopy a input.buffer (k / (a.kH * a.kW)) (k % (a.kH * a.kW) / a.kW)
        (k % (a.kH * a.kW) % a.kW) y x) _ a.outputHeight
      (fun y hy f1 hf1 => copy_padRow_elementwise a hv hf hd input hin len
        (k * (a.outputHeight * a.outputWidth)) _ _ _ y hnip hkh hkw hy hblock f1 hf1) f hfl
    refine ⟨f2, h2, hl2, fun j => ?_⟩
    rw [hb2]
    simp only [Nat.zero_add]
  · rw [if_neg hpad]
    obtain ⟨f2, h2, hl2, hb2⟩ := forLoopM_blocks len a.outputWidth
      (k * (a.outputHeight * a.outputWidth))
      (fun y x => specUnfoldCopy a input.buffer (k / (a.kH * a.kW)) (k % (a.kH * a.kW) / a.kW)
        (k % (a.kH * a.kW) % a.kW) y x) _ a.outputHeight
      (fun y hy f1 hf1 => copy_plainRow a hv hf (by omega) (by omega) input hin len
        (k * (a.outputHeight * a.outputWidth)) _ _ _ y hnip hkh hkw hy hblock f1 hf1) f hfl
    refine ⟨f2, h2, hl2, fun j => ?_⟩
    rw [hb2]
    simp only [Nat.zero_add]

/-- Outside the bulk-copy branch (`dW ≠ 1`, or no padding) `unfolded_copy` returns, and every
element of the column buffer holds the value the specification prescribes. -/
theorem unfolded_copy_correct_outside_bulk {α : Type} [Zero α] (a : UnfoldArgs)
    (hv : a.Valid) (hf : a.FitsInt)
    (hbranch : a.dW ≠ 1 ∨ (a.padW = 0 ∧ a.padH = 0)) (finput input : TensorRef α)
    (hin : a.nInputPlane * a.inputHeight * a.inputWidth ≤ input.elemCount)
    (hfin : a.nInputPlane * a.kH * a.kW * a.outputHeight * a.outputWidth ≤ finput.elemCount) :
    ∃ out, unfolded_copy finput input a = some out ∧ out.elemCount = finput.elemCount ∧
      (∀ c kh kw oy ox, c < a.nInputPlane → kh < a.kH → kw < a.kW → oy < a.outputHeight →
        ox < a.outputWidth →
        out.buffer (finputIndex a c kh kw oy ox) = specUnfoldCopy a input.buffer c kh kw oy ox) ∧
      (∀ j, a.nInputPlane * a.kH * a.kW * a.outputHeight * a.outputWidth ≤ j →
        out.buffer j = finput.buffer j) := by
  have hf2 := hf
  have hv2 := hv
  obtain ⟨hCkk, _, _, _, _, _, _, _⟩ := hf
  obtain ⟨_, _, hkH, hkW, _, _, _, _, _, _⟩ := hv
  have hlen : a.nInputPlane * a.kH * a.kW * (a.outputHeight * a.outputWidth)
      ≤ finput.elemCount := by
    rw [← Nat.mul_assoc]
    exact hfin
  have hn : (toInt32 ((a.nInputPlane : Int) * (a.kH : Int) * (a.kW : Int))).toNat
      = a.nInputPlane * a.kH * a.kW := by
    rw [← Nat.cast_mul, ← Nat.cast_mul, toInt32_natCast _ hCkk]
    exact Int.toNat_ofNat _
  obtain ⟨out, h2, hl2, hb2⟩ := forLoopM_blocks finput.elemCount
    (a.outputHeight * a.outputWidth) 0
    (fun k r => specUnfoldCopy a input.buffer (k / (a.kH * a.kW)) (k % (a.kH * a.kW) / a.kW)
      (k % (a.kH * a.kW) % a.kW) (r / a.outputWidth) (r % a.outputWidth))
    (unfolded_copy_task a input) (a.nInputPlane * a.kH * a.kW)
    (fun k hk f1 hf1 => copy_task_writes a hv2 hf2 hbranch input hin finput.elemCount hlen k hk
      f1 hf1) finput rfl
  refine ⟨out, ?_, hl2, ?_, ?_⟩
  · unfold unfolded_copy
    rw [hn]
    exact h2
  · intro c kh kw oy ox hc hkh hkw hoy hox
    rw [hb2]
    have hr := idx_lt oy ox a.outputHeight a.outputWidth hoy hox
    have hkk := idx_lt kh kw a.kH a.kW hkh hkw
    have hidx : finputIndex a c kh kw oy ox
        = ((c * a.kH + kh) * a.kW + kw) * (a.outputHeight * a.outputWidth)
          + (oy * a.outputWidth + ox) := by
      unfold finputIndex
      ring
    have hkeq : (c * a.kH + kh) * a.kW + kw = c * (a.kH * a.kW) + (kh * a.kW + kw) := by ring
    have hklt : (c * a.kH + kh) * a.kW + kw < a.nInputPlane * a.kH * a.kW := by
      rw [hkeq, Nat.mul_assoc]
      exact idx_lt c (kh * a.kW + kw) a.nInputPlane (a.kH * a.kW) hc hkk
    have hjlt := idx_lt ((c * a.kH + kh) * a.kW + kw) (oy * a.outputWidth + ox)
      (a.nInputPlane * a.kH * a.kW) (a.outputHeight * a.outputWidth) hklt hr
    obtain ⟨d1, m1⟩ := div_mod_of_lt ((c * a.kH + kh) * a.kW + kw) (oy * a.outputWidth + ox)
      (a.outputHeight * a.outputWidth) hr
    obtain ⟨d2, m2⟩ := div_mod_of_lt oy ox a.outputWidth hox
    obtain ⟨d3, m3⟩ := div_mod_of_lt c (kh * a.kW + kw) (a.kH * a.kW) hkk
    obtain ⟨d4, m4⟩ := div_mod_of_lt kh kw a.kW hkw
    rw [hidx, if_pos (by omega), Nat.sub_zero, d1, m1, d2, m2, hkeq, d3, m3, d4, m4]
  · intro j hj
    rw [hb2, if_neg]
    rw [Nat.mul_assoc] at hj
    omega

/-! ## Confined steps -/

theorem confined_skip {α : Type} (cnt dcnt Plo Phi Slo Shi : Nat) :
    ConfinedStep cnt dcnt Plo Phi Slo Shi (fun (_ : TensorRef α) d => some d) := by
  intro s d _ _
  exact ⟨⟨d, rfl, rfl, fun i _ => rfl⟩, fun s2 _ _ => rfl⟩

theorem confined_ite {α : Type} (cnt dcnt Plo Phi Slo Shi : Nat) (c : Prop) [Decidable c]
    (A B : TensorRef α → TensorRef α → Option (TensorRef α))
    (hA : c → ConfinedStep cnt dcnt Plo Phi Slo Shi A)
    (hB : ¬ c → ConfinedStep cnt dcnt Plo Phi Slo Shi B) :
    ConfinedStep cnt dcnt Plo Phi Slo Shi (fun s d => if c then A s d else B s d) := by
  by_cases hc : c
  · simp only [hc, if_true]
    exact hA hc
  · simp only [hc, if_false]
    exact hB hc

theorem confined_loop {α : Type} (cnt dcnt Plo Phi Slo Shi : Nat)
    (body : TensorRef α → Nat → TensorRef α → Option (TensorRef α)) (n : Nat)
    (hbody : ∀ i, i < n → ConfinedStep cnt dcnt Plo Phi Slo Shi (fun s d => body s i d)) :
    ConfinedStep cnt dcnt Plo Phi Slo Shi (fun s d => forLoopM n (body s) d) := by
  induction n with
  | zero => exact confined_skip cnt dcnt Plo Phi Slo Shi
  | succ n ih =>
    have ih2 := ih (fun i hi => hbody i (by omega))
    have hn := hbody n (by omega)
    intro s d hs hd
    obtain ⟨⟨d1, h1, e1, k1⟩, ind1⟩ := ih2 s d hs hd
    have h1b : forLoopM n (body s) d = some d1 := h1
    obtain ⟨⟨r, hr, e2, k2⟩, ind2⟩ := hn s d1 hs (by rw [e1, hd])
    have hrb : body s n d1 = some r := hr
    constructor
    · refine ⟨r, ?_, by rw [e2, e1], fun i hi => by rw [k2 i hi, k1 i hi]⟩
      show (forLoopM n (body s) d).bind (body s n) = some r
      rw [h1b]
      exact hrb
    · intro s2 hs2 hag
      show (forLoopM n (body s2) d).bind (body s2 n) = (forLoopM n (body s) d).bind (body s n)
      have e3 : forLoopM n (body s2) d = forLoopM n (body s) d := ind1 s2 hs2 hag
      have e4 : body s2 n d1 = body s n d1 := ind2 s2 hs2 hag
      rw [e3, h1b]
      exact e4

theorem confined_Vector_add {α : Type} [Add α] [Mul α] (cnt dcnt Plo Phi Slo Shi : Nat)
    (p q : Int) (c : α) (n : Nat)
    (hw : (Plo : Int) ≤ p ∧ p + (n : Int) ≤ (Phi : Int)) (hPhi : Phi ≤ dcnt)
    (hr : (Slo : Int) ≤ q ∧ q + (n : Int) ≤ (Shi : Int)) (hShi : Shi ≤ cnt) :
    ConfinedStep cnt dcnt Plo Phi Slo Shi (fun s d => Vector_add d p s q c n) := by
  intro s d hs hd
  have hb : ∀ s1 : TensorRef α, s1.elemCount = cnt →
      (inBuffer d.elemCount p n && inBuffer s1.elemCount q n) = true := by
    intro s1 hs1
    unfold inBuffer
    simp only [Bool.and_eq_true, decide_eq_true_eq]
    rw [hd, hs1]
    refine ⟨⟨?_, ?_⟩, ?_, ?_⟩ <;> omega
  constructor
  · refine ⟨⟨d.elemCount, fun i =>
        if p ≤ (i : Int) ∧ (i : Int) < p + (n : Int) then
          d.buffer i + c * s.buffer ((i : Int) - p + q).toNat
        else d.buffer i⟩, ?_, rfl, fun i hi => ?_⟩
    · show Vector_add d p s q c n = _
      unfold Vector_add
      rw [if_pos (hb s hs)]
    · show (if p ≤ (i : Int) ∧ (i : Int) < p + (n : Int) then _ else d.buffer i) = _
      rw [if_neg (by omega)]
  · intro s2 hs2 hag
    show Vector_add d p s2 q c n = Vector_add d p s q c n
    unfold Vector_add
    rw [if_pos (hb s hs), if_pos (hb s2 hs2)]
    congr 2
    funext i
    by_cases hi : p ≤ (i : Int) ∧ (i : Int) < p + (n : Int)
    · rw [if_pos hi, if_pos hi]
      congr 2
      apply hag <;> omega
    · rw [if_neg hi, if_neg hi]

/-! ## Regions of a channel of `unfolded_acc` -/

/-- Arithmetic of the block `(nip, kh, kw)` inside the plane and channel regions. -/
theorem acc_regions (a : UnfoldArgs) (hv : a.Valid) (hf : a.FitsInt) (nip kh kw : Nat)
    (hnip : nip < a.nInputPlane) (hkh : kh < a.kH) (hkw : kw < a.kW) :
    (nip + 1) * a.inputHeight * a.inputWidth
      = nip * a.inputHeight * a.inputWidth + a.inputHeight * a.inputWidth ∧
    nip * a.kH * a.kW * a.outputHeight * a.outputWidth
      = nip * (a.kH * a.kW * a.outputHeight * a.outputWidth) ∧
    (nip + 1) * a.kH * a.kW * a.outputHeight * a.outputWidth
      = nip * (a.kH * a.kW * a.outputHeight * a.outputWidth)
        + a.kH * a.kW * a.outputHeight * a.outputWidth ∧
    (nip + 1) * a.kH * a.kW * a.outputHeight * a.outputWidth
      ≤ a.nInputPlane * a.kH * a.kW * a.outputHeight * a.outputWidth ∧
    a.nInputPlane * a.kH * a.kW * a.outputHeight * a.outputWidth < 4611686018427387904 ∧
    kh * (a.kW * a.outputHeight * a.outputWidth) + kw * (a.outputHeight * a.outputWidth)
      + (a.kW - 1 - kw) * (a.outputHeight * a.outputWidth) + a.outputHeight * a.outputWidth
      ≤ a.kH * a.kW * a.outputHeight * a.outputWidth ∧
    a.kW - 1 - kw ≤ (a.kW - 1 - kw) * (a.outputHeight * a.outputWidth) := by
  obtain ⟨hoH1, hoW1, _, _, _, _, _, _, _, _, _, _, _⟩ := unfold_bounds a hv hf
  obtain ⟨_, hK3, _, hC, _, _, _, _⟩ := hf
  have hK1 : 1 ≤ a.outputHeight * a.outputWidth := Nat.mul_pos hoH1 hoW1
  refine ⟨by ring, by ring, by ring, ?_, ?_, ?_, ?_⟩
  · have h1 : (nip + 1) * (a.kH * a.kW * a.outputHeight * a.outputWidth)
        ≤ a.nInputPlane * (a.kH * a.kW * a.outputHeight * a.outputWidth) :=
      Nat.mul_le_mul_right _ hnip
    have e1 : (nip + 1) * a.kH * a.kW * a.outputHeight * a.outputWidth
        = (nip + 1) * (a.kH * a.kW * a.outputHeight * a.outputWidth) := by ring
    have e2 : a.nInputPlane * a.kH * a.kW * a.outputHeight * a.outputWidth
        = a.nInputPlane * (a.kH * a.kW * a.outputHeight * a.outputWidth) := by ring
    omega
  · have h1 := mul_lt_two62 a.nInputPlane (a.kH * a.kW * a.outputHeight * a.outputWidth) hC hK3
    have e2 : a.nInputPlane * a.kH * a.kW * a.outputHeight * a.outputWidth
        = a.nInputPlane * (a.kH * a.kW * a.outputHeight * a.outputWidth) := by ring
    omega
  · have h1 : (kh + 1) * (a.kW * (a.outputHeight * a.outputWidth))
        ≤ a.kH * (a.kW * (a.outputHeight * a.outputWidth)) := Nat.mul_le_mul_right _ hkh
    have e0 : kw + (a.kW - 1 - kw) + 1 = a.kW := by omega
    have e1 : kw * (a.outputHeight * a.outputWidth)
        + (a.kW - 1 - kw) * (a.outputHeight * a.outputWidth) + a.outputHeight * a.outputWidth
        = (kw + (a.kW - 1 - kw) + 1) * (a.outputHeight * a.outputWidth) := by ring
    rw [e0] at e1
    have e2 : (kh + 1) * (a.kW * (a.outputHeight * a.outputWidth))
        = kh * (a.kW * a.outputHeight * a.outputWidth)
          + a.kW * (a.outputHeight * a.outputWidth) := by ring
    have e3 : a.kH * (a.kW * (a.outputHeight * a.outputWidth))
        = a.kH * a.kW * a.outputHeight * a.outputWidth := by ring
    omega
  · exact Nat.le_mul_of_pos_right _ hK1

/-- The pad counts as the code computes them: the difference itself when it is not negative,
and the difference plus `2^64` otherwise. -/
theorem pad_cases (a : UnfoldArgs) (hv : a.Valid) (hf : a.FitsInt) (kw : Nat) (hkw : kw < a.kW) :
    ((kw ≤ a.padW ∧ unfolded_lpad a kw = a.padW - kw) ∨
      (a.padW < kw ∧ unfolded_lpad a kw = 18446744073709551616 + a.padW - kw)) ∧
    ((a.kW - 1 - kw ≤ a.padW ∧ unfolded_rpad a kw = a.padW - (a.kW - 1 - kw)) ∨
      (a.padW < a.kW - 1 - kw ∧
        unfolded_rpad a kw = 18446744073709551616 + a.padW - (a.kW - 1 - kw))) := by
  obtain ⟨_, _, _, _, _, _, _, _, hkW, _, _, _, _⟩ := unfold_bounds a hv hf
  obtain ⟨_, _, _, _, _, _, hpW, _⟩ := hf
  constructor
  · unfold unfolded_lpad stdMax toSizeT
    split <;> omega
  · unfold unfolded_rpad stdMax toSizeT
    split <;> omega

/-- The block `(nip, kh, kw)` of the column buffer lies inside channel `nip`, with room for
`kw` elements before it and for `kW - 1 - kw` more elements behind it. -/
theorem acc_block_bounds (a : UnfoldArgs) (hv : a.Valid) (hf : a.FitsInt) (nip kh kw : Nat)
    (hnip : nip < a.nInputPlane) (hkh : kh < a.kH) (hkw : kw < a.kW) :
    nip * a.kH * a.kW * a.outputHeight * a.outputWidth + kw
      ≤ nip * (a.kH * a.kW * a.outputHeight * a.outputWidth)
        + kh * (a.kW * a.outputHeight * a.outputWidth)
        + kw * (a.outputHeight * a.outputWidth) ∧
    nip * (a.kH * a.kW * a.outputHeight * a.outputWidth)
        + kh * (a.kW * a.outputHeight * a.outputWidth)
        + kw * (a.outputHeight * a.outputWidth)
        + a.outputHeight * a.outputWidth + (a.kW - 1 - kw)
      ≤ (nip + 1) * a.kH * a.kW * a.outputHeight * a.outputWidth ∧
    (nip + 1) * a.kH * a.kW * a.outputHeight * a.outputWidth
      ≤ a.nInputPlane * a.kH * a.kW * a.outputHeight * a.outputWidth ∧
    a.nInputPlane * a.kH * a.kW * a.outputHeight * a.outputWidth < 4611686018427387904 := by
  obtain ⟨r1, r2, r3, r4, r5, r6, r7⟩ := acc_regions a hv hf nip kh kw hnip hkh hkw
  obtain ⟨hoH1, hoW1, _, _, _, _, _, _, _, _, _, _, _⟩ := unfold_bounds a hv hf
  have r8 : kw ≤ kw * (a.outputHeight * a.outputWidth) :=
    Nat.le_mul_of_pos_right _ (Nat.mul_pos hoH1 hoW1)
  refine ⟨?_, ?_, r4, r5⟩ <;> omega

/-- The planes of the gradient buffer lie inside the buffer, whose size is below `2^62`. -/
theorem acc_plane_bounds (a : UnfoldArgs) (hf : a.FitsInt) (nip : Nat)
    (hnip : nip < a.nInputPlane) :
    (nip + 1) * a.inputHeight * a.inputWidth ≤ a.nInputPlane * a.inputHeight * a.inputWidth ∧
    a.nInputPlane * a.inputHeight * a.inputWidth < 4611686018427387904 := by
  obtain ⟨_, _, hHW, hC, _, _, _, _⟩ := hf
  constructor
  · exact Nat.mul_le_mul_right _ (Nat.mul_le_mul_right _ hnip)
  · rw [Nat.mul_assoc]
    exact mul_lt_two62 a.nInputPlane (a.inputHeight * a.inputWidth) hC hHW

/-! ## Integer arithmetic of the `dW == 1` branch of `unfolded_acc` -/

/-- The length `outputWidth - lpad - rpad` of the accumulated run is `inputWidth`, clamped
pad counts or not. -/
theorem acc_bulk_count (W oW pW kW kw L R : Nat) (hkw : kw < kW) (hW : W < 2147483648)
    (hpW : pW < 2147483648) (hkW : kW < 2147483648) (hoW : oW + kW = W + 2 * pW + 1)
    (hL : (kw ≤ pW ∧ L = pW - kw) ∨ (pW < kw ∧ L = 18446744073709551616 + pW - kw))
    (hR : (kW - 1 - kw ≤ pW ∧ R = pW - (kW - 1 - kw)) ∨
      (pW < kW - 1 - kw ∧ R = 18446744073709551616 + pW - (kW - 1 - kw))) :
    toSizeT ((oW : Int) - (L : Int) - (R : Int)) = W := by
  unfold toSizeT
  omega

/-- The destination offset `iy*inputWidth + ix + lpad` is the start of row `iy`. -/
theorem acc_bulk_dst (m pW kw L : Nat) (hm : m < 4611686018427387904) (hkw : kw < 2147483648)
    (hpW : pW < 2147483648)
    (hL : (kw ≤ pW ∧ L = pW - kw) ∨ (pW < kw ∧ L = 18446744073709551616 + pW - kw)) :
    toSizeT ((m : Int) + ((kw : Int) - (pW : Int)) + (L : Int)) = m := by
  unfold toSizeT
  omega

/-- The run read from the column buffer at the wrapping pointer
`src + (size_t)(y*outputWidth + lpad)` starts `kw - padW` elements before row `y` of the block
when `lpad` has wrapped, and stays inside the channel. -/
theorem acc_bulk_src (src yoW oW K1 W Slo Shi pW kW kw L : Nat) (hkw : kw < kW)
    (hW : W < 2147483648) (hpW : pW < 2147483648) (hkW : kW < 2147483648)
    (hoW : oW + kW = W + 2 * pW + 1) (hK1 : K1 < 2147483648)
    (hL : (kw ≤ pW ∧ L = pW - kw) ∨ (pW < kw ∧ L = 18446744073709551616 + pW - kw))
    (hShi : Shi < 4611686018427387904) (hlo : Slo + kw ≤ src) (hrow : yoW + oW ≤ K1)
    (hblock : src + K1 + (kW - 1 - kw) ≤ Shi) :
    ptrAdd (src : Int) (toSizeT ((yoW : Int) + (L : Int)))
      = (src : Int) + (yoW : Int) + (pW : Int) - (kw : Int) ∧
    (Slo : Int) ≤ ptrAdd (src : Int) (toSizeT ((yoW : Int) + (L : Int))) ∧
    ptrAdd (src : Int) (toSizeT ((yoW : Int) + (L : Int))) + (W : Int) ≤ (Shi : Int) := by
  have hval : ptrAdd (src : Int) (toSizeT ((yoW : Int) + (L : Int)))
      = (src : Int) + (yoW : Int) + (pW : Int) - (kw : Int) := by
    unfold ptrAdd toInt64 toSizeT
    split <;> omega
  rw [hval]
  refine ⟨rfl, ?_, ?_⟩ <;> omega

/-- The source row `iy` of an in-range row as a natural number, with the bounds of its
elements inside plane `nip`. -/
theorem acc_plane_row (a : UnfoldArgs) (nip iyN : Nat) (hiy : iyN < a.inputHeight) :
    nip * a.inputHeight * a.inputWidth ≤ nip * a.inputHeight * a.inputWidth
      + iyN * a.inputWidth ∧
    nip * a.inputHeight * a.inputWidth + iyN * a.inputWidth + a.inputWidth
      ≤ (nip + 1) * a.inputHeight * a.inputWidth := by
  have h1 : (iyN + 1) * a.inputWidth ≤ a.inputHeight * a.inputWidth :=
    Nat.mul_le_mul_right _ hiy
  have h2 : (iyN + 1) * a.inputWidth = iyN * a.inputWidth + a.inputWidth := Nat.succ_mul _ _
  have h3 : (nip + 1) * a.inputHeight * a.inputWidth
      = nip * a.inputHeight * a.inputWidth + a.inputHeight * a.inputWidth := by ring
  omega

/-- The bulk branch (`dW == 1`) of a padded row of `unfolded_acc` returns and is confined,
clamped pad counts or not. -/
theorem acc_bulk_confined {α : Type} [Add α] [Mul α] [One α] (a : UnfoldArgs) (hv : a.Valid)
    (hf : a.FitsInt) (hd1 : a.dW = 1) (nip kh kw y iyN : Nat) (hnip : nip < a.nInputPlane)
    (hkh : kh < a.kH) (hkw : kw < a.kW) (hy : y < a.outputHeight)
    (hiy : iyN < a.inputHeight) (cnt dcnt : Nat)
    (hcnt : a.nInputPlane * a.kH * a.kW * a.outputHeight * a.outputWidth ≤ cnt)
    (hdcnt : a.nInputPlane * a.inputHeight * a.inputWidth ≤ dcnt) :
    ConfinedStep (α := α) cnt dcnt
      (nip * a.inputHeight * a.inputWidth) ((nip + 1) * a.inputHeight * a.inputWidth)
      (nip * a.kH * a.kW * a.outputHeight * a.outputWidth)
      ((nip + 1) * a.kH * a.kW * a.outputHeight * a.outputWidth)
      (fun s d => Vector_add d
        (ptrAdd ((nip * a.inputHeight * a.inputWidth : Nat) : Int)
          (toSizeT ((iyN : Int) * (a.inputWidth : Int)
              + toInt64 (toSizeT (0 - (a.padW : Int) + (kw : Int)))
              + (stdMax (toSizeT 0) (toSizeT ((a.padW : Int) - (kw : Int))) : Nat))))
        s
        (ptrAdd ((nip * (a.kH * a.kW * a.outputHeight * a.outputWidth)
          + kh * (a.kW * a.outputHeight * a.outputWidth)
          + kw * (a.outputHeight * a.outputWidth) : Nat) : Int)
          (toSizeT ((y : Int) * (a.outputWidth : Int)
              + (stdMax (toSizeT 0) (toSizeT ((a.padW : Int) - (kw : Int))) : Nat))))
        1
        (toSizeT ((a.outputWidth : Int)
          - (stdMax (toSizeT 0) (toSizeT ((a.padW : Int) - (kw : Int))) : Nat)
          - (stdMax (toSizeT 0)
              (toSizeT ((a.padW : Int) - ((a.kW : Int) - (kw : Int) - 1))) : Nat)))) := by
  obtain ⟨hoH1, hoW1, hrH, hrW, hoo, hoH, hoW, hkH, hkW, hH, hW, hkk, hK2⟩ :=
    unfold_bounds a hv hf
  obtain ⟨b1, b2, b3, b4⟩ := acc_block_bounds a hv hf nip kh kw hnip hkh hkw
  obtain ⟨p1, p2⟩ := acc_plane_row a nip iyN hiy
  obtain ⟨q1, q2⟩ := acc_plane_bounds a hf nip hnip
  obtain ⟨hL, hR⟩ := pad_cases a hv hf kw hkw
  have hoWeq : a.outputWidth + a.kW = a.inputWidth + 2 * a.padW + 1 := by
    obtain ⟨_, _, _, _, _, _, _, hkWle, _, hoWdef⟩ := hv
    rw [hd1, Nat.div_one] at hoWdef
    omega
  obtain ⟨_, hK3, hHW, hC, hdW, hdH, hpW, hpH⟩ := hf
  have hix : toInt64 (toSizeT (0 - (a.padW : Int) + (kw : Int)))
      = (kw : Int) - (a.padW : Int) := by
    rw [toInt64_toSizeT _ (by omega) (by omega)]
    ring
  have hl : stdMax (toSizeT 0) (toSizeT ((a.padW : Int) - (kw : Int)))
      = unfolded_lpad a kw := rfl
  have hr : stdMax (toSizeT 0) (toSizeT ((a.padW : Int) - ((a.kW : Int) - (kw : Int) - 1)))
      = unfolded_rpad a kw := rfl
  have hrow : y * a.outputWidth + a.outputWidth ≤ a.outputHeight * a.outputWidth := by
    have h1 : (y + 1) * a.outputWidth ≤ a.outputHeight * a.outputWidth :=
      Nat.mul_le_mul_right _ hy
    have h2 : (y + 1) * a.outputWidth = y * a.outputWidth + a.outputWidth := Nat.succ_mul _ _
    omega
  have hiw : iyN * a.inputWidth < 4611686018427387904 := mul_lt_two62 _ _ (by omega) hW
  have c1 : (iyN : Int) * (a.inputWidth : Int) = ((iyN * a.inputWidth : Nat) : Int) := by
    push_cast; ring
  have c2 : (y : Int) * (a.outputWidth : Int) = ((y * a.outputWidth : Nat) : Int) := by
    push_cast; ring
  obtain ⟨_, s1, s2⟩ := acc_bulk_src
    (nip * (a.kH * a.kW * a.outputHeight * a.outputWidth)
      + kh * (a.kW * a.outputHeight * a.outputWidth) + kw * (a.outputHeight * a.outputWidth))
    (y * a.outputWidth) a.outputWidth (a.outputHeight * a.outputWidth) a.inputWidth
    (nip * a.kH * a.kW * a.outputHeight * a.outputWidth)
    ((nip + 1) * a.kH * a.kW * a.outputHeight * a.outputWidth) a.padW a.kW kw
    (unfolded_lpad a kw) hkw hW hpW hkW hoWeq hoo hL (by omega) b1 hrow b2
  rw [hix, hl, hr, c1, c2,
    acc_bulk_count a.inputWidth a.outputWidth a.padW a.kW kw _ _ hkw hW hpW hkW hoWeq hL hR,
    acc_bulk_dst (iyN * a.inputWidth) a.padW kw _ hiw (by omega) hpW hL,
    ptrAdd_eq (nip * a.inputHeight * a.inputWidth) (iyN * a.inputWidth) (by omega)]
  apply confined_Vector_add
  · exact ⟨by exact_mod_cast p1, by exact_mod_cast p2⟩
  · omega
  · exact ⟨s1, s2⟩
  · omega

/-- A call of `Vector_add` on `n` elements at offset `po` of plane `nip` and offset `qo` of
block `(nip, kh, kw)` returns and is confined. -/
theorem acc_call_confined {α : Type} [Add α] [Mul α] [One α] (a : UnfoldArgs) (hv : a.Valid)
    (hf : a.FitsInt) (nip kh kw po qo n : Nat) (hnip : nip < a.nInputPlane) (hkh : kh < a.kH)
    (hkw : kw < a.kW) (hp : po + n ≤ a.inputHeight * a.inputWidth)
    (hq : qo + n ≤ a.outputHeight * a.outputWidth) (cnt dcnt : Nat)
    (hcnt : a.nInputPlane * a.kH * a.kW * a.outputHeight * a.outputWidth ≤ cnt)
    (hdcnt : a.nInputPlane * a.inputHeight * a.inputWidth ≤ dcnt) :
    ConfinedStep (α := α) cnt dcnt
      (nip * a.inputHeight * a.inputWidth) ((nip + 1) * a.inputHeight * a.inputWidth)
      (nip * a.kH * a.kW * a.outputHeight * a.outputWidth)
      ((nip + 1) * a.kH * a.kW * a.outputHeight * a.outputWidth)
      (fun s d => Vector_add d
        (ptrAdd ((nip * a.inputHeight * a.inputWidth : Nat) : Int) po) s
        (ptrAdd ((nip * (a.kH * a.kW * a.outputHeight * a.outputWidth)
          + kh * (a.kW * a.outputHeight * a.outputWidth)
          + kw * (a.outputHeight * a.outputWidth) : Nat) : Int) qo) 1 n) := by
  obtain ⟨b1, b2, b3, b4⟩ := acc_block_bounds a hv hf nip kh kw hnip hkh hkw
  obtain ⟨q1, q2⟩ := acc_plane_bounds a hf nip hnip
  have h3 : (nip + 1) * a.inputHeight * a.inputWidth
      = nip * a.inputHeight * a.inputWidth + a.inputHeight * a.inputWidth := by ring
  rw [ptrAdd_eq (nip * a.inputHeight * a.inputWidth) po (by omega),
    ptrAdd_eq (nip * (a.kH * a.kW * a.outputHeight * a.outputWidth)
      + kh * (a.kW * a.outputHeight * a.outputWidth)
      + kw * (a.outputHeight * a.outputWidth)) qo (by omega)]
  apply confined_Vector_add
  · constructor
    · have : nip * a.inputHeight * a.inputWidth ≤ nip * a.inputHeight * a.inputWidth + po := by
        omega
      exact_mod_cast this
    · have : nip * a.inputHeight * a.inputWidth + po + n
          ≤ (nip + 1) * a.inputHeight * a.inputWidth := by omega
      exact_mod_cast this
  · omega
  · constructor
    · have : nip * a.kH * a.kW * a.outputHeight * a.outputWidth
          ≤ nip * (a.kH * a.kW * a.outputHeight * a.outputWidth)
            + kh * (a.kW * a.outputHeight * a.outputWidth)
            + kw * (a.outputHeight * a.outputWidth) + qo := by omega
      exact_mod_cast this
    · have : nip * (a.kH * a.kW * a.outputHeight * a.outputWidth)
            + kh * (a.kW * a.outputHeight * a.outputWidth)
            + kw * (a.outputHeight * a.outputWidth) + qo + n
          ≤ (nip + 1) * a.kH * a.kW * a.outputHeight * a.outputWidth := by omega
      exact_mod_cast this
  · omega

/-- A padded row of `unfolded_acc` returns and is confined to plane `nip` of the gradient
buffer and to channel `nip` of the column buffer. -/
theorem acc_padRow_confined {α : Type} [Add α] [Mul α] [One α] (a : UnfoldArgs) (hv : a.Valid)
    (hf : a.FitsInt) (nip kh kw y : Nat) (hnip : nip < a.nInputPlane) (hkh : kh < a.kH)
    (hkw : kw < a.kW) (hy : y < a.outputHeight) (cnt dcnt : Nat)
    (hcnt : a.nInputPlane * a.kH * a.kW * a.outputHeight * a.outputWidth ≤ cnt)
    (hdcnt : a.nInputPlane * a.inputHeight * a.inputWidth ≤ dcnt) :
    ConfinedStep (α := α) cnt dcnt
      (nip * a.inputHeight * a.inputWidth) ((nip + 1) * a.inputHeight * a.inputWidth)
      (nip * a.kH * a.kW * a.outputHeight * a.outputWidth)
      ((nip + 1) * a.kH * a.kW * a.outputHeight * a.outputWidth)
      (fun s d => unfolded_acc_padRow a s
        ((nip * a.inputHeight * a.inputWidth : Nat) : Int)
        ((nip * (a.kH * a.kW * a.outputHeight * a.outputWidth)
          + kh * (a.kW * a.outputHeight * a.outputWidth)
          + kw * (a.outputHeight * a.outputWidth) : Nat) : Int) kh kw y d) := by
  obtain ⟨hoH1, hoW1, hrH, hrW, hoo, hoH, hoW, hkH, hkW, hH, hW, hkk, hK2⟩ :=
    unfold_bounds a hv hf
  have hiy := unfolded_iy_eq a hv hf kh y hkh hy
  unfold unfolded_iy at hiy
  have hf2 := hf
  obtain ⟨_, hK3, hHW, hC, hdW, hdH, hpW, hpH⟩ := hf
  unfold unfolded_acc_padRow
  simp only [hiy]
  apply confined_ite
  · intro _
    exact confined_skip _ _ _ _ _ _
  · intro hin
    obtain ⟨iyN, hiyN⟩ : ∃ iyN : Nat, (iyN : Int)
        = (y : Int) * (a.dH : Int) - (a.padH : Int) + (kh : Int) :=
      ⟨((y : Int) * (a.dH : Int) - (a.padH : Int) + (kh : Int)).toNat, by omega⟩
    rw [← hiyN] at hin ⊢
    have hiylt : iyN < a.inputHeight := by omega
    apply confined_ite
    · intro hd1
      exact acc_bulk_confined a hv hf2 hd1 nip kh kw y iyN hnip hkh hkw hy hiylt cnt dcnt
        hcnt hdcnt
    · intro _
      have hsz : toSizeT (a.outputWidth : Int) = a.outputWidth := toSizeT_natCast _ (by omega)
      rw [hsz]
      apply confined_loop
      intro x hx
      have hxd := mul_lt_two62 x a.dW (by omega) hdW
      have hxd2 : ((x * a.dW : Nat) : Int) = (x : Int) * (a.dW : Int) := by push_cast; ring
      have hix : toInt64 (toSizeT ((x : Int) * (a.dW : Int) - (a.padW : Int) + (kw : Int)))
          = (x : Int) * (a.dW : Int) - (a.padW : Int) + (kw : Int) := by
        apply toInt64_toSizeT <;> omega
      simp only [hix]
      apply confined_ite
      · intro _
        exact confined_skip _ _ _ _ _ _
      · intro hxin
        obtain ⟨ixN, hixN⟩ : ∃ ixN : Nat, (ixN : Int)
            = (x : Int) * (a.dW : Int) - (a.padW : Int) + (kw : Int) :=
          ⟨((x : Int) * (a.dW : Int) - (a.padW : Int) + (kw : Int)).toNat, by omega⟩
        rw [← hixN] at hxin ⊢
        have hixlt : ixN < a.inputWidth := by omega
        have h1 := idx_lt iyN ixN a.inputHeight a.inputWidth hiylt hixlt
        have h2 := idx_lt y x a.outputHeight a.outputWidth hy hx
        rw [toSizeT_eq_of_eq _ (iyN * a.inputWidth + ixN) (by push_cast; ring) (by omega),
          toSizeT_eq_of_eq ((y : Int) * (a.outputWidth : Int) + (x : Int))
            (y * a.outputWidth + x) (by push_cast; ring) (by omega)]
        exact acc_call_confined a hv hf2 nip kh kw _ _ 1 hnip hkh hkw (by omega) (by omega)
          cnt dcnt hcnt hdcnt

/-- A row of the unpadded branch of `unfolded_acc` returns and is confined to plane `nip` of
the gradient buffer and to channel `nip` of the column buffer. -/
theorem acc_plainRow_confined {α : Type} [Add α] [Mul α] [One α] (a : UnfoldArgs)
    (hv : a.Valid) (hf : a.FitsInt) (hpW : a.padW = 0) (hpH : a.padH = 0) (nip kh kw y : Nat)
    (hnip : nip < a.nInputPlane) (hkh : kh < a.kH) (hkw : kw < a.kW)
    (hy : y < a.outputHeight) (cnt dcnt : Nat)
    (hcnt : a.nInputPlane * a.kH * a.kW * a.outputHeight * a.outputWidth ≤ cnt)
    (hdcnt : a.nInputPlane * a.inputHeight * a.inputWidth ≤ dcnt) :
    ConfinedStep (α := α) cnt dcnt
      (nip * a.inputHeight * a.inputWidth) ((nip + 1) * a.inputHeight * a.inputWidth)
      (nip * a.kH * a.kW * a.outputHeight * a.outputWidth)
      ((nip + 1) * a.kH * a.kW * a.outputHeight * a.outputWidth)
      (fun s d => unfolded_acc_plainRow a s
        ((nip * a.inputHeight * a.inputWidth : Nat) : Int)
        ((nip * (a.kH * a.kW * a.outputHeight * a.outputWidth)
          + kh * (a.kW * a.outputHeight * a.outputWidth)
          + kw * (a.outputHeight * a.outputWidth) : Nat) : Int) kh kw y d) := by
  obtain ⟨hoH1, hoW1, hrH, hrW, hoo, hoH, hoW, hkH, hkW, hH, hW, hkk, hK2⟩ :=
    unfold_bounds a hv hf
  have hf2 := hf
  obtain ⟨_, hK3, hHW, hC, hdW, hdH, _, _⟩ := hf
  have hyd : y * a.dH ≤ (a.outputHeight - 1) * a.dH := Nat.mul_le_mul_right _ (by omega)
  have hiylt : y * a.dH + kh < a.inputHeight := by omega
  have hiy : toInt64 (toSizeT ((y : Int) * (a.dH : Int) + (kh : Int)))
      = ((y * a.dH + kh : Nat) : Int) := by
    rw [toInt64_toSizeT _ (by omega) (by omega)]
    push_cast
    ring
  have hix : toInt64 (toSizeT (0 + (kw : Int))) = (kw : Int) := by
    rw [toInt64_toSizeT _ (by omega) (by omega)]
    ring
  have hsz : toSizeT (a.outputWidth : Int) = a.outputWidth := toSizeT_natCast _ (by omega)
  have hrow : y * a.outputWidth + a.outputWidth ≤ a.outputHeight * a.outputWidth := by
    have h1 : (y + 1) * a.outputWidth ≤ a.outputHeight * a.outputWidth :=
      Nat.mul_le_mul_right _ hy
    have h2 : (y + 1) * a.outputWidth = y * a.outputWidth + a.outputWidth := Nat.succ_mul _ _
    omega
  have hcol : ∀ x, x < a.outputWidth → x * a.dW + kw < a.inputWidth := by
    intro x hx
    have hxd : x * a.dW ≤ (a.outputWidth - 1) * a.dW := Nat.mul_le_mul_right _ (by omega)
    omega
  unfold unfolded_acc_plainRow
  simp only [hiy, hix, hsz]
  apply confined_ite
  · intro hd1
    have hlast := hcol (a.outputWidth - 1) (by omega)
    rw [hd1, Nat.mul_one] at hlast
    have h1 := idx_lt (y * a.dH + kh) (a.outputWidth - 1 + kw) a.inputHeight a.inputWidth
      hiylt hlast
    rw [toSizeT_eq_of_eq _ ((y * a.dH + kh) * a.inputWidth + kw) (by push_cast; ring)
        (by omega),
      toSizeT_eq_of_eq ((y : Int) * (a.outputWidth : Int)) (y * a.outputWidth)
        (by push_cast; ring) (by omega)]
    exact acc_call_confined a hv hf2 nip kh kw _ _ a.outputWidth hnip hkh hkw (by omega)
      (by omega) cnt dcnt hcnt hdcnt
  · intro _
    apply confined_loop
    intro x hx
    have hlt := hcol x hx
    have h1 := idx_lt (y * a.dH + kh) (x * a.dW + kw) a.inputHeight a.inputWidth hiylt hlt
    have h2 := idx_lt y x a.outputHeight a.outputWidth hy hx
    rw [toSizeT_eq_of_eq _ ((y * a.dH + kh) * a.inputWidth + kw + x * a.dW)
        (by push_cast; ring) (by omega),
      toSizeT_eq_of_eq ((y : Int) * (a.outputWidth : Int) + (x : Int))
        (y * a.outputWidth + x) (by push_cast; ring) (by omega)]
    exact acc_call_confined a hv hf2 nip kh kw _ _ 1 hnip hkh hkw (by omega) (by omega)
      cnt dcnt hcnt hdcnt

/-- Without wrap-around the block `(nip, kh, kw)` of `unfolded_acc` runs the row loop with the
offsets `nip*H*W` of the plane and `nip*(kH*kW*outH*outW) + kh*(kW*outH*outW) + kw*(outH*outW)`
of the block. -/
theorem acc_block_eq {α : Type} [Add α] [Mul α] [One α] (a : UnfoldArgs) (hv : a.Valid)
    (hf : a.FitsInt) (finput : TensorRef α) (nip kh kw : Nat) (hnip : nip < a.nInputPlane)
    (hkh : kh < a.kH) (hkw : kw < a.kW) (input : TensorRef α) :
    unfolded_acc_block a finput nip kh kw input =
      if 0 < a.padW ∨ 0 < a.padH then
        forLoopM a.outputHeight (unfolded_acc_padRow a finput
          ((nip * a.inputHeight * a.inputWidth : Nat) : Int)
          ((nip * (a.kH * a.kW * a.outputHeight * a.outputWidth)
            + kh * (a.kW * a.outputHeight * a.outputWidth)
            + kw * (a.outputHeight * a.outputWidth) : Nat) : Int) kh kw) input
      else
        forLoopM a.outputHeight (unfolded_acc_plainRow a finput
          ((nip * a.inputHeight * a.inputWidth : Nat) : Int)
          ((nip * (a.kH * a.kW * a.outputHeight * a.outputWidth)
            + kh * (a.kW * a.outputHeight * a.outputWidth)
            + kw * (a.outputHeight * a.outputWidth) : Nat) : Int) kh kw) input := by
  obtain ⟨hoH1, hoW1, hrH, hrW, hoo, hoH, hoW, hkH, hkW, hH, hW, hkk, hK2⟩ :=
    unfold_bounds a hv hf
  obtain ⟨hCkk, hK3, hHW, hC, _, _, _, _⟩ := hf
  have e5 : toSizeT (a.outputHeight : Int) = a.outputHeight := toSizeT_natCast _ (by omega)
  have e6 : toInt32 ((a.kH : Int) * (a.kW : Int) * (a.outputHeight : Int) * (a.outputWidth : Int))
      = ((a.kH * a.kW * a.outputHeight * a.outputWidth : Nat) : Int) := by
    rw [← Nat.cast_mul, ← Nat.cast_mul, ← Nat.cast_mul]
    exact toInt32_natCast _ hK3
  have e7 : toInt32 ((a.kW : Int) * (a.outputHeight : Int) * (a.outputWidth : Int))
      = ((a.kW * a.outputHeight * a.outputWidth : Nat) : Int) := by
    rw [← Nat.cast_mul, ← Nat.cast_mul]
    exact toInt32_natCast _ hK2
  have e8 : toInt32 ((a.outputHeight : Int) * (a.outputWidth : Int))
      = ((a.outputHeight * a.outputWidth : Nat) : Int) := by
    rw [← Nat.cast_mul]
    exact toInt32_natCast _ hoo
  have e9 : toInt32 ((a.inputHeight : Int) * (a.inputWidth : Int))
      = ((a.inputHeight * a.inputWidth : Nat) : Int) := by
    rw [← Nat.cast_mul]
    exact toInt32_natCast _ hHW
  have b1 := mul_lt_two62 nip (a.kH * a.kW * a.outputHeight * a.outputWidth) (by omega) hK3
  have b2 := mul_lt_two62 kh (a.kW * a.outputHeight * a.outputWidth) (by omega) hK2
  have b3 := mul_lt_two62 kw (a.outputHeight * a.outputWidth) (by omega) hoo
  have b4 := mul_lt_two62 nip (a.inputHeight * a.inputWidth) (by omega) hHW
  have e10 : toSizeT ((nip : Int)
      * ((a.kH * a.kW * a.outputHeight * a.outputWidth : Nat) : Int))
      = nip * (a.kH * a.kW * a.outputHeight * a.outputWidth) :=
    toSizeT_eq_of_eq _ _ (by push_cast; ring) (by omega)
  have e11 : toSizeT ((kh : Int) * ((a.kW * a.outputHeight * a.outputWidth : Nat) : Int))
      = kh * (a.kW * a.outputHeight * a.outputWidth) :=
    toSizeT_eq_of_eq _ _ (by push_cast; ring) (by omega)
  have e12 : toSizeT ((kw : Int) * ((a.outputHeight * a.outputWidth : Nat) : Int))
      = kw * (a.outputHeight * a.outputWidth) :=
    toSizeT_eq_of_eq _ _ (by push_cast; ring) (by omega)
  have e13 : toSizeT ((nip : Int) * ((a.inputHeight * a.inputWidth : Nat) : Int))
      = nip * a.inputHeight * a.inputWidth :=
    toSizeT_eq_of_eq _ _ (by push_cast; ring) (by rw [Nat.mul_assoc]; omega)
  unfold unfolded_acc_block
  simp only [e5, e6, e7, e8, e9, e10, e11, e12, e13, Nat.cast_add]

/-- The body of the channel iteration `nip` of `unfolded_acc` returns and is confined to plane
`nip` of the gradient buffer and to channel `nip` of the column buffer. -/
theorem acc_plane_confined {α : Type} [Add α] [Mul α] [One α] (a : UnfoldArgs) (hv : a.Valid)
    (hf : a.FitsInt) (nip : Nat) (hnip : nip < a.nInputPlane) (cnt dcnt : Nat)
    (hcnt : a.nInputPlane * a.kH * a.kW * a.outputHeight * a.outputWidth ≤ cnt)
    (hdcnt : a.nInputPlane * a.inputHeight * a.inputWidth ≤ dcnt) :
    ConfinedStep (α := α) cnt dcnt
      (nip * a.inputHeight * a.inputWidth) ((nip + 1) * a.inputHeight * a.inputWidth)
      (nip * a.kH * a.kW * a.outputHeight * a.outputWidth)
      ((nip + 1) * a.kH * a.kW * a.outputHeight * a.outputWidth)
      (fun s d => unfolded_acc_plane a s nip d) := by
  obtain ⟨_, _, _, _, _, _, _, hkH, hkW, _, _, _, _⟩ := unfold_bounds a hv hf
  have e1 : toSizeT (a.kH : Int) = a.kH := toSizeT_natCast _ (by omega)
  have e2 : toSizeT (a.kW : Int) = a.kW := toSizeT_natCast _ (by omega)
  unfold unfolded_acc_plane
  rw [e1, e2]
  apply confined_loop
  intro kh hkh
  apply confined_loop
  intro kw hkw
  have hblock : (fun (s d : TensorRef α) => unfolded_acc_block a s nip kh kw d)
      = fun s d =>
        if 0 < a.padW ∨ 0 < a.padH then
          forLoopM a.outputHeight (unfolded_acc_padRow a s
            ((nip * a.inputHeight * a.inputWidth : Nat) : Int)
            ((nip * (a.kH * a.kW * a.outputHeight * a.outputWidth)
              + kh * (a.kW * a.outputHeight * a.outputWidth)
              + kw * (a.outputHeight * a.outputWidth) : Nat) : Int) kh kw) d
        else
          forLoopM a.outputHeight (unfolded_acc_plainRow a s
            ((nip * a.inputHeight * a.inputWidth : Nat) : Int)
            ((nip * (a.kH * a.kW * a.outputHeight * a.outputWidth)
              + kh * (a.kW * a.outputHeight * a.outputWidth)
              + kw * (a.outputHeight * a.outputWidth) : Nat) : Int) kh kw) d := by
    funext s d
    exact acc_block_eq a hv hf s nip kh kw hnip hkh hkw d
  rw [hblock]
  apply confined_ite
  · intro _
    apply confined_loop
    intro y hy
    exact acc_padRow_confined a hv hf nip kh kw y hnip hkh hkw hy cnt dcnt hcnt hdcnt
  · intro hpad
    apply confined_loop
    intro y hy
    exact acc_plainRow_confined a hv hf (by omega) (by omega) nip kh kw y hnip hkh hkw hy
      cnt dcnt hcnt hdcnt

/-! ## Claims on the element-wise branch and on the channels of `unfolded_acc` -/

/-- Without padding `unfolded_copy` returns, every source coordinate is inside the plane and
every element of the column buffer is a copy of an input element. -/
theorem unfolded_copy_unpadded_in_bounds {α : Type} [Zero α] (a : UnfoldArgs)
    (hv : a.Valid) (hf : a.FitsInt) (hpW : a.padW = 0) (hpH : a.padH = 0)
    (finput input : TensorRef α)
    (hin : a.nInputPlane * a.inputHeight * a.inputWidth ≤ input.elemCount)
    (hfin : a.nInputPlane * a.kH * a.kW * a.outputHeight * a.outputWidth ≤ finput.elemCount) :
    ∃ out, unfolded_copy finput input a = some out ∧
      ∀ c kh kw oy ox, c < a.nInputPlane → kh < a.kH → kw < a.kW → oy < a.outputHeight →
        ox < a.outputWidth →
        oy * a.dH + kh < a.inputHeight ∧ ox * a.dW + kw < a.inputWidth ∧
        out.buffer (finputIndex a c kh kw oy ox)
          = input.buffer ((c * a.inputHeight + (oy * a.dH + kh)) * a.inputWidth
              + (ox * a.dW + kw)) := by
  obtain ⟨_, _, hrH, hrW, _, _, _, _, _, _, _, _, _⟩ := unfold_bounds a hv hf
  obtain ⟨out, h1, _, h2, _⟩ :=
    unfolded_copy_correct_outside_bulk a hv hf (Or.inr ⟨hpW, hpH⟩) finput input hin hfin
  refine ⟨out, h1, fun c kh kw oy ox hc hkh hkw hoy hox => ?_⟩
  have hyd : oy * a.dH ≤ (a.outputHeight - 1) * a.dH := Nat.mul_le_mul_right _ (by omega)
  have hxd : ox * a.dW ≤ (a.outputWidth - 1) * a.dW := Nat.mul_le_mul_right _ (by omega)
  have hy : oy * a.dH + kh < a.inputHeight := by omega
  have hx : ox * a.dW + kw < a.inputWidth := by omega
  refine ⟨hy, hx, ?_⟩
  rw [h2 c kh kw oy ox hc hkh hkw hoy hox]
  unfold specUnfoldCopy
  simp only []
  have e1 : (oy : Int) * (a.dH : Int) - (a.padH : Int) + (kh : Int)
      = ((oy * a.dH + kh : Nat) : Int) := by rw [hpH]; push_cast; ring
  have e2 : (ox : Int) * (a.dW : Int) - (a.padW : Int) + (kw : Int)
      = ((ox * a.dW + kw : Nat) : Int) := by rw [hpW]; push_cast; ring
  rw [e1, e2, if_pos (by omega)]
  simp only [Int.toNat_ofNat]

/-- C18 (element-wise strided branch): for every valid parameter set with `dW ≠ 1`, padded or
not (sizes are `int` values whose products the code forms are representable, the buffers hold
at least `C*H*W` and `C*kH*kW*outH*outW` elements), `unfolded_copy` returns, and for every
in-range output row (`0 ≤ iy < H` with `iy = oy*dH - padH + kh`) and every `ox < outW` the
element at column `ox` of that row is `input[c, iy, ix]` with `ix = ox*dW - padW + kw` when
`0 ≤ ix < W`, and `0` otherwise. -/
theorem unfolded_copy_elementwise_branch {α : Type} [Zero α] (a : UnfoldArgs)
    (hv : a.Valid) (hf : a.FitsInt) (hd : a.dW ≠ 1) (finput input : TensorRef α)
    (hin : a.nInputPlane * a.inputHeight * a.inputWidth ≤ input.elemCount)
    (hfin : a.nInputPlane * a.kH * a.kW * a.outputHeight * a.outputWidth ≤ finput.elemCount) :
    ∃ out, unfolded_copy finput input a = some out ∧
      ∀ c kh kw oy ox, c < a.nInputPlane → kh < a.kH → kw < a.kW → oy < a.outputHeight →
        ox < a.outputWidth →
        0 ≤ (oy : Int) * (a.dH : Int) - (a.padH : Int) + (kh : Int) →
        (oy : Int) * (a.dH : Int) - (a.padH : Int) + (kh : Int) < (a.inputHeight : Int) →
        out.buffer (finputIndex a c kh kw oy ox) =
          if 0 ≤ (ox : Int) * (a.dW : Int) - (a.padW : Int) + (kw : Int) ∧
              (ox : Int) * (a.dW : Int) - (a.padW : Int) + (kw : Int) < (a.inputWidth : Int)
          then input.buffer
            ((c * a.inputHeight
                + ((oy : Int) * (a.dH : Int) - (a.padH : Int) + (kh : Int)).toNat)
              * a.inputWidth
              + ((ox : Int) * (a.dW : Int) - (a.padW : Int) + (kw : Int)).toNat)
          else 0 := by
  obtain ⟨out, h1, _, h2, _⟩ :=
    unfolded_copy_correct_outside_bulk a hv hf (Or.inl hd) finput input hin hfin
  refine ⟨out, h1, fun c kh kw oy ox hc hkh hkw hoy hox hy0 hy1 => ?_⟩
  rw [h2 c kh kw oy ox hc hkh hkw hoy hox]
  unfold specUnfoldCopy
  simp only []
  by_cases hx : 0 ≤ (ox : Int) * (a.dW : Int) - (a.padW : Int) + (kw : Int) ∧
      (ox : Int) * (a.dW : Int) - (a.padW : Int) + (kw : Int) < (a.inputWidth : Int)
  · rw [if_pos hx, if_pos ⟨hy0, hy1, hx.1, hx.2⟩]
  · rw [if_neg hx, if_neg (fun h => hx ⟨h.2.2.1, h.2.2.2⟩)]

/-- Witness of C18: a `2 × 2` plane, a `1 × 1` kernel, stride 2 and padding 1 (`outH = outW =
2`); the element `[0,0,0,1,1]` of the column buffer. -/
theorem unfolded_copy_elementwise_branch_witness :
    (UnfoldArgs.Valid ⟨1, 1, 2, 2, 1, 1, 1, 2, 2, 2, 2⟩ ∧
      UnfoldArgs.FitsInt ⟨1, 1, 2, 2, 1, 1, 1, 2, 2, 2, 2⟩ ∧ (2 : Nat) ≠ 1) ∧
    ∃ out, unfolded_copy (⟨4, fun _ => 7⟩ : TensorRef ℤ) ⟨4, fun i => (i : ℤ) + 10⟩
        ⟨1, 1, 2, 2, 1, 1, 1, 2, 2, 2, 2⟩ = some out ∧ out.buffer 3 = 13 := by
  have hv : UnfoldArgs.Valid ⟨1, 1, 2, 2, 1, 1, 1, 2, 2, 2, 2⟩ := by
    unfold UnfoldArgs.Valid; decide
  have hf : UnfoldArgs.FitsInt ⟨1, 1, 2, 2, 1, 1, 1, 2, 2, 2, 2⟩ := by
    unfold UnfoldArgs.FitsInt; decide
  refine ⟨⟨hv, hf, by decide⟩, ?_⟩
  obtain ⟨out, h1, h2⟩ := unfolded_copy_elementwise_branch
    ⟨1, 1, 2, 2, 1, 1, 1, 2, 2, 2, 2⟩ hv hf (by decide) (⟨4, fun _ => 7⟩ : TensorRef ℤ)
    ⟨4, fun i => (i : ℤ) + 10⟩ (by decide) (by decide)
  refine ⟨out, h1, ?_⟩
  have h3 := h2 0 0 0 1 1 (by decide) (by decide) (by decide) (by decide) (by decide)
    (by decide) (by decide)
  simpa [finputIndex] using h3

/-- C19 (Unfold-Accumulate per-channel confinement): for every valid parameter set (sizes are
`int` values whose products the code forms are representable, the buffers hold at least
`C*kH*kW*outH*outW` and `C*H*W` elements), the body of the channel iteration `nip` of
`unfolded_acc` returns, also with wrapped pad counts, and its result differs from the
input-gradient buffer it started from only at flat indices in `[nip*H*W, (nip+1)*H*W)`; the
outcome depends only on the column-gradient elements with flat index in
`[nip*kH*kW*outH*outW, (nip+1)*kH*kW*outH*outW)` (the column-gradient buffer is a read-only
argument of the body); and the regions of different channels are disjoint. -/
theorem unfolded_acc_channel_confined {α : Type} [Add α] [Mul α] [One α] (a : UnfoldArgs)
    (hv : a.Valid) (hf : a.FitsInt) (nip : Nat) (hnip : nip < a.nInputPlane)
    (finput input : TensorRef α)
    (hfin : a.nInputPlane * a.kH * a.kW * a.outputHeight * a.outputWidth ≤ finput.elemCount)
    (hin : a.nInputPlane * a.inputHeight * a.inputWidth ≤ input.elemCount) :
    (∃ r, unfolded_acc_plane a finput nip input = some r ∧
      r.elemCount = input.elemCount ∧
      ∀ i, ¬ (nip * a.inputHeight * a.inputWidth ≤ i ∧
          i < (nip + 1) * a.inputHeight * a.inputWidth) →
        r.buffer i = input.buffer i) ∧
    (∀ finput2 : TensorRef α, finput2.elemCount = finput.elemCount →
      (∀ i, nip * a.kH * a.kW * a.outputHeight * a.outputWidth ≤ i →
        i < (nip + 1) * a.kH * a.kW * a.outputHeight * a.outputWidth →
        finput2.buffer i = finput.buffer i) →
      unfolded_acc_plane a finput2 nip input = unfolded_acc_plane a finput nip input) ∧
    (∀ nip2, nip < nip2 →
      (nip + 1) * a.inputHeight * a.inputWidth ≤ nip2 * a.inputHeight * a.inputWidth ∧
      (nip + 1) * a.kH * a.kW * a.outputHeight * a.outputWidth
        ≤ nip2 * a.kH * a.kW * a.outputHeight * a.outputWidth) := by
  have hc := acc_plane_confined (α := α) a hv hf nip hnip finput.elemCount input.elemCount
    hfin hin finput input rfl rfl
  refine ⟨hc.1, fun finput2 h2 hag => hc.2 finput2 h2 hag, fun nip2 h => ?_⟩
  constructor
  · exact Nat.mul_le_mul_right _ (Nat.mul_le_mul_right _ h)
  · exact Nat.mul_le_mul_right _ (Nat.mul_le_mul_right _
      (Nat.mul_le_mul_right _ (Nat.mul_le_mul_right _ h)))

/-- Witness of C19: two `3 × 3` planes, a `3 × 3` kernel, stride 1 and padding 1 (`outH = outW
= 3`), channel 1, where `lpad` wraps for `kw = 2` and `rpad` for `kw = 0`; the body of the
channel iteration returns there, with `636`, `1098` and `828` at the indices 9, 13 and 17. -/
theorem unfolded_acc_channel_confined_witness :
    (UnfoldArgs.Valid ⟨3, 3, 1, 1, 1, 1, 2, 3, 3, 3, 3⟩ ∧
      UnfoldArgs.FitsInt ⟨3, 3, 1, 1, 1, 1, 2, 3, 3, 3, 3⟩ ∧ 1 < 2 ∧
      2 * 3 * 3 * 3 * 3 ≤ 162 ∧ 2 * 3 * 3 ≤ 18) ∧
    (∃ r, unfolded_acc_plane ⟨3, 3, 1, 1, 1, 1, 2, 3, 3, 3, 3⟩
        (⟨162, fun i => (i : ℤ) + 1⟩ : TensorRef ℤ) 1 ⟨18, fun _ => 0⟩ = some r ∧
      r.elemCount = 18 ∧
      ∀ i, ¬ (1 * 3 * 3 ≤ i ∧ i < (1 + 1) * 3 * 3) → r.buffer i = 0) ∧
    (unfolded_acc_plane ⟨3, 3, 1, 1, 1, 1, 2, 3, 3, 3, 3⟩
        (⟨162, fun i => (i : ℤ) + 1⟩ : TensorRef ℤ) 1 ⟨18, fun _ => 0⟩).map
      (fun r => (r.buffer 9, r.buffer 13, r.buffer 17)) = some (636, 1098, 828) := by
  have hv : UnfoldArgs.Valid ⟨3, 3, 1, 1, 1, 1, 2, 3, 3, 3, 3⟩ := by
    unfold UnfoldArgs.Valid; decide
  have hf : UnfoldArgs.FitsInt ⟨3, 3, 1, 1, 1, 1, 2, 3, 3, 3, 3⟩ := by
    unfold UnfoldArgs.FitsInt; decide
  exact ⟨⟨hv, hf, by decide, by decide, by decide⟩,
    (unfolded_acc_channel_confined ⟨3, 3, 1, 1, 1, 1, 2, 3, 3, 3, 3⟩ hv hf 1 (by decide)
      (⟨162, fun i => (i : ℤ) + 1⟩ : TensorRef ℤ) ⟨18, fun _ => 0⟩ (by decide) (by decide)).1,
    rfl⟩

end ConvolutionUnfold
